import Mathlib

/-!
# timer_queue: the event store, the event lifecycle and the worker pass

A shallow embedding of `timerqueue.c` / `list.h`.

* The intrusive circular list `timer->event_list` is represented by the sequence of
  its entries, read from `head->next` to `head->prev`.  A node is identified by its
  address (`timer_event.addr`); a cursor into the list is `some addr`, or `none` for
  the list head itself.
* `time_t` is taken as an unbounded integer (readings of the monotonic clock are far
  from the range where `tv_sec + timeout` could overflow); `unsigned timeout` is a
  natural number.
* Every read of the clock (`vs_gettimeofday`) is an explicit `timeval` argument; the
  call is taken to succeed.
* Callbacks are opaque: invoking `event->fn(event->data)` is recorded in a log and
  has no other effect on the queue.
* `pthread` locking, cancellation and the actual `select` sleep are not modelled; the
  functions below are the bodies that run under the mutex.
-/

namespace TimerQueue

/-- The C `struct timeval`. -/
structure timeval where
  tv_sec : Int
  tv_usec : Int
  deriving DecidableEq, Repr

/-- The C `timer_event_t`.  `addr` is the address of the struct (the identity of the
list node); the `list` member itself is represented by the position in the store. -/
structure timer_event where
  addr : Nat
  expire : timeval
  timeout : Nat
  fn : Nat
  data : Nat
  ref : Int
  deriving DecidableEq, Repr

/-- The C `timer_queue_t`, without `tid` and `mutex`. -/
structure timer_queue where
  stop : Int
  event_list : List timer_event
  deriving DecidableEq, Repr

/-- The memory the API works on: the queue object, the events that are allocated but
not linked, the events handed to `free` (oldest first, as they were when freed) and
the log of callback invocations (oldest first, the event as it was when called). -/
structure Memory where
  timer : timer_queue
  detached : List timer_event
  freed : List timer_event
  calls : List timer_event
  deriving DecidableEq, Repr

/-- A `timer_queue_t *` argument: `NULL`, or (`valid`) the pointer to the queue in memory. -/
inductive queue_ptr where
  | NULL : queue_ptr
  | valid : queue_ptr
  deriving DecidableEq, Repr

/-! ## list.h -/

/-- The function `list_empty`: the head points to itself. -/
def list_empty (head : List timer_event) : Bool :=
  head.isEmpty

/-- The function `list_add_tail`: link `new` before the head, i.e. as the last entry. -/
def list_add_tail (new : timer_event) (head : List timer_event) : List timer_event :=
  head ++ [new]

/-- The function `list_del`: unlink the node at address `old`. -/
def list_del (old : Nat) : List timer_event → List timer_event
  | [] => []
  | e :: rest => if e.addr = old then rest else e :: list_del old rest

/-- The entry at address `a`, if it is linked (`list_entry` of a cursor). -/
def find_event (a : Nat) : List timer_event → Option timer_event
  | [] => none
  | e :: rest => if e.addr = a then some e else find_event a rest

/-- The cursor `pos->member.next` for the node at address `a`: the address of the
following entry, `none` when the node is the last one (its `next` is the head). -/
def next_of (a : Nat) : List timer_event → Option Nat
  | [] => none
  | e :: rest => if e.addr = a then rest.head?.map timer_event.addr else next_of a rest

/-- The cursor `(head)->next`. -/
def first_of (head : List timer_event) : Option Nat :=
  head.head?.map timer_event.addr

/-- A write through the pointer `e.addr`: the linked record at that address becomes `e`. -/
def store_event (e : timer_event) (head : List timer_event) : List timer_event :=
  head.map (fun x => if x.addr = e.addr then e else x)

/-! ## atomic.h -/

/-- Modelled from the spec: `atomic.h` is not among the sources.  `atomic_set`
stores the value of the reference count. -/
def atomic_set (_ref : Int) (v : Int) : Int := v

/-- Modelled from the spec: `atomic.h` is not among the sources.  `atomic_read`
reads the reference count. -/
def atomic_read (ref : Int) : Int := ref

/-- Modelled from the spec: `atomic.h` is not among the sources.  `atomic_inc`
("increments the reference count"). -/
def atomic_inc (ref : Int) : Int := ref + 1

/-- Modelled from the spec: `atomic.h` is not among the sources.  `atomic_dec_and_test`
("decrements; when the count reaches zero ..."): the new count and whether it is zero. -/
def atomic_dec_and_test (ref : Int) : Int × Bool := (ref - 1, decide (ref - 1 = 0))

/-! ## timerqueue.c -/

/-- The function `timer_event_ref`. -/
def timer_event_ref (event : timer_event) : timer_event :=
  { event with ref := atomic_inc event.ref }

/-- The function `timer_event_unref`: the event after the decrement, and whether it was freed. -/
def timer_event_unref (event : timer_event) : timer_event × Bool :=
  ({ event with ref := (atomic_dec_and_test event.ref).1 }, (atomic_dec_and_test event.ref).2)

/-- The function `set_event_expire`: `tv` is the reading `vs_gettimeofday` stores into
`event->expire`; then `expire.tv_sec += timeout`. -/
def set_event_expire (event : timer_event) (tv : timeval) : timer_event :=
  { event with expire := { tv_sec := tv.tv_sec + (event.timeout : Int), tv_usec := tv.tv_usec } }

/-- The loop of `__add_timer_event` (`list_for_each_entry_reverse`) together with the
final `list_add`, over the entries listed from the tail backwards.  The scan stops at
the first `prev` with `prev->expire.tv_sec <= event->expire.tv_sec` and the event is
linked right after it; when the scan runs off the list `prev` is the head and the
event is linked right after the head.  The result is again listed tail first. -/
def scan_reverse (event : timer_event) : List timer_event → List timer_event
  | [] => [event]
  | prev :: more =>
    if prev.expire.tv_sec ≤ event.expire.tv_sec then event :: prev :: more
    else prev :: scan_reverse event more

/-- The function `__add_timer_event`. -/
def __add_timer_event (event_list : List timer_event) (event : timer_event) :
    List timer_event :=
  if list_empty event_list then list_add_tail event event_list
  else (scan_reverse event event_list.reverse).reverse

/-- The result of `init_timer_queue` after a successful `malloc` and `pthread_create`: the empty queue. -/
def init_timer_queue : Memory :=
  { timer := { stop := 0, event_list := [] }, detached := [], freed := [], calls := [] }

/-- The record `add_timer_event` fills in at the address `a` that `malloc` returned:
the arguments, `ref` set to 1, then `set_event_expire` with the clock reading `tv`
(the `expire` of the fresh allocation is overwritten there). -/
def new_event (a : Nat) (timeout : Nat) (f : Nat) (data : Nat) (tv : timeval) : timer_event :=
  set_event_expire
    { addr := a, expire := { tv_sec := 0, tv_usec := 0 }, timeout := timeout,
      fn := f, data := data, ref := atomic_set 0 1 } tv

/-- The function `add_timer_event`.  `fn = none` is a `NULL` callback, `malloc` is what `malloc`
returns (`none` for `NULL`), `tv` is the clock reading of `set_event_expire`.
Returns the memory afterwards and the returned pointer (with the record it points to). -/
def add_timer_event (m : Memory) (timer : queue_ptr) (timeout : Nat) (fn : Option Nat)
    (data : Nat) (malloc : Option Nat) (tv : timeval) : Memory × Option timer_event :=
  match timer with
  | queue_ptr.NULL => (m, none)
  | queue_ptr.valid =>
    match fn with
    | none => (m, none)
    | some f =>
      match malloc with
      | none => (m, none)
      | some a =>
        ({ m with timer := { m.timer with
              event_list := __add_timer_event m.timer.event_list (new_event a timeout f data tv) } },
          some (new_event a timeout f data tv))

/-- The effect of `timer_event_unref` on an event that is not linked. -/
def unref_detached (m : Memory) (event : timer_event) : Memory :=
  if (timer_event_unref event).2 then
    { m with freed := m.freed ++ [(timer_event_unref event).1] }
  else
    { m with detached := m.detached ++ [(timer_event_unref event).1] }

/-- The function `delete_timer_event`.  `event = none` is a `NULL` handle.  `list_del` of a node
that is not linked dereferences stale link pointers: no result (`none`). -/
def delete_timer_event (m : Memory) (timer : queue_ptr) (event : Option Nat) :
    Option Memory :=
  match timer with
  | queue_ptr.NULL => some m
  | queue_ptr.valid =>
    match event with
    | none => some m
    | some a =>
      match find_event a m.timer.event_list with
      | none => none
      | some e =>
        some (unref_detached
          { m with timer := { m.timer with event_list := list_del a m.timer.event_list } } e)

/-- The function `set_timer_event_timeout`.  `tv` is the clock reading of `set_event_expire`. -/
def set_timer_event_timeout (m : Memory) (timer : queue_ptr) (event : Option Nat)
    (timeout : Nat) (tv : timeval) : Option Memory :=
  match event with
  | none => some m
  | some a =>
    match timer with
    | queue_ptr.NULL => some m
    | queue_ptr.valid =>
      match find_event a m.timer.event_list with
      | none => none
      | some e =>
        let l := list_del a m.timer.event_list
        let e := { e with timeout := timeout }
        let e := set_event_expire e tv
        some { m with timer := { m.timer with event_list := __add_timer_event l e } }

/-- Where a `list_for_each_entry_safe` loop stands. -/
inductive walk where
  | running : walk
  | finished : walk
  | assert_failed : walk
  | undefined : walk
  deriving DecidableEq, Repr

/-- The variables of one iteration of the `while` loop of `timer_queue_thread_cbk`
while it walks the list: the list, the events freed so far, the callbacks invoked in
this pass, `sleeptv`, the cursor `event` (`none`: the list head), the number of clock
readings taken by `set_event_expire` in this pass, and where the walk stands. -/
structure drain_state where
  event_list : List timer_event
  freed : List timer_event
  fired : List timer_event
  sleeptv : timeval
  pos : Option Nat
  reads : Nat
  status : walk
  deriving DecidableEq, Repr

/-- One turn of the `list_for_each_entry_safe` loop of `timer_queue_thread_cbk`: the
loop test and, when it passes, the body.  `now` is the reading taken before the walk;
`clock k` is the reading `set_event_expire` gets at its `k`-th call of the pass.  The
saved cursor `next` always equals `event->list.next` when the body starts, so it is
read there.  The test `event == NULL` never holds for an entry of the list. -/
def drain_step (now : timeval) (clock : Nat → timeval) (s : drain_state) : drain_state :=
  match s.status with
  | walk.running =>
    match s.pos with
    | none => { s with status := walk.finished }
    | some a =>
      match find_event a s.event_list with
      | none => { s with status := walk.undefined }
      | some event =>
        if now.tv_sec < event.expire.tv_sec then
          { s with
            sleeptv := { s.sleeptv with tv_sec := event.expire.tv_sec - now.tv_sec }
            status := walk.finished }
        else
          let next := next_of a s.event_list
          let event := timer_event_ref event
          let fired := s.fired ++ [event]
          let l := list_del a s.event_list
          let event := set_event_expire event (clock s.reads)
          let l := __add_timer_event l event
          let l := store_event (timer_event_unref event).1 l
          let freed :=
            if (timer_event_unref event).2 then s.freed ++ [(timer_event_unref event).1]
            else s.freed
          { event_list := l, freed := freed, fired := fired, sleeptv := s.sleeptv,
            pos := next, reads := s.reads + 1, status := walk.running }
  | _ => s

/-- At most `fuel` turns of the loop. -/
def drain_loop (now : timeval) (clock : Nat → timeval) : Nat → drain_state → drain_state
  | 0, s => s
  | fuel + 1, s => drain_loop now clock fuel (drain_step now clock s)

/-- One iteration of the `while (!timer->stop)` loop of `timer_queue_thread_cbk`, up
to the `select`: `sleeptv` is set to one second, the list is walked (at most `fuel`
turns).  The sleep that follows lasts `sleeptv` of the result. -/
def timer_queue_thread_cbk (m : Memory) (now : timeval) (clock : Nat → timeval)
    (fuel : Nat) : drain_state :=
  drain_loop now clock fuel
    { event_list := m.timer.event_list, freed := m.freed, fired := [],
      sleeptv := { tv_sec := 1, tv_usec := 0 }, pos := first_of m.timer.event_list,
      reads := 0, status := walk.running }

/-- The clock readings and the number of loop turns of one worker iteration. -/
structure worker_pass where
  now : timeval
  clock : Nat → timeval
  fuel : Nat

/-- The memory after one worker iteration. -/
def run_pass (m : Memory) (p : worker_pass) : Memory :=
  { m with
    timer := { m.timer with
      event_list := (timer_queue_thread_cbk m p.now p.clock p.fuel).event_list }
    freed := (timer_queue_thread_cbk m p.now p.clock p.fuel).freed
    calls := m.calls ++ (timer_queue_thread_cbk m p.now p.clock p.fuel).fired }

/-- The memory after a sequence of worker iterations. -/
def run_passes (m : Memory) : List worker_pass → Memory
  | [] => m
  | p :: ps => run_passes (run_pass m p) ps

/-- The variables of the loop of `fini_timer_queue`: the memory, the cursor `event`
and where the walk stands. -/
structure fini_state where
  mem : Memory
  pos : Option Nat
  status : walk
  deriving DecidableEq, Repr

/-- One turn of the `list_for_each_entry_safe` loop of `fini_timer_queue`. -/
def fini_step (s : fini_state) : fini_state :=
  match s.status with
  | walk.running =>
    match s.pos with
    | none => { s with status := walk.finished }
    | some a =>
      match find_event a s.mem.timer.event_list with
      | none => { s with status := walk.undefined }
      | some event =>
        if atomic_read event.ref = 1 then
          match delete_timer_event s.mem queue_ptr.valid (some a) with
          | none => { s with status := walk.undefined }
          | some m =>
            { mem := m, pos := next_of a s.mem.timer.event_list, status := walk.running }
        else { s with status := walk.assert_failed }
  | _ => s

/-- At most `fuel` turns of the loop of `fini_timer_queue`. -/
def fini_loop : Nat → fini_state → fini_state
  | 0, s => s
  | fuel + 1, s => fini_loop fuel (fini_step s)

/-- The function `fini_timer_queue`, up to the release of the mutex and of the queue itself; the
worker has been cancelled and joined.  The status of the result is `finished` when
the function ran to its end, `assert_failed` when one of its two assertions failed,
`running` when `fuel` turns did not end the loop. -/
def fini_timer_queue (m : Memory) (timer : queue_ptr) (fuel : Nat) : fini_state :=
  match timer with
  | queue_ptr.NULL => { mem := m, pos := none, status := walk.finished }
  | queue_ptr.valid =>
    let m := { m with timer := { m.timer with stop := 1 } }
    let s := fini_loop fuel
      { mem := m, pos := first_of m.timer.event_list, status := walk.running }
    match s.status with
    | walk.finished =>
      if list_empty s.mem.timer.event_list then s else { s with status := walk.assert_failed }
    | _ => s

/-- One call of `add_timer_event`: its arguments, what `malloc` returns and the clock
reading. -/
structure add_call where
  timer : queue_ptr
  timeout : Nat
  fn : Option Nat
  data : Nat
  malloc : Option Nat
  tv : timeval
  deriving DecidableEq, Repr

/-- A sequence of `add_timer_event` calls: the memory afterwards and the events the
calls returned, in call order. -/
def add_timer_events (m : Memory) : List add_call → Memory × List timer_event
  | [] => (m, [])
  | c :: cs =>
    ((add_timer_events (add_timer_event m c.timer c.timeout c.fn c.data c.malloc c.tv).1 cs).1,
      (add_timer_event m c.timer c.timeout c.fn c.data c.malloc c.tv).2.toList ++
        (add_timer_events (add_timer_event m c.timer c.timeout c.fn c.data c.malloc c.tv).1 cs).2)

/-- The store is in non-decreasing order of `expire.tv_sec`. -/
def sorted_by_sec (l : List timer_event) : Prop :=
  l.Pairwise (fun a b => a.expire.tv_sec ≤ b.expire.tv_sec)

/-- No two entries of the store are the same node. -/
def distinct_nodes (l : List timer_event) : Prop :=
  (l.map timer_event.addr).Nodup

instance (l : List timer_event) : Decidable (sorted_by_sec l) := by
  unfold sorted_by_sec; infer_instance

instance (l : List timer_event) : Decidable (distinct_nodes l) := by
  unfold distinct_nodes; infer_instance

/-- The events of the `main` of the demonstration after its four calls at clock second
`s`: timeouts 1, 2, 3, 4. -/
def main_calls (s : Int) : List add_call :=
  [ { timer := queue_ptr.valid, timeout := 1, fn := some 7, data := 101, malloc := some 1,
      tv := { tv_sec := s, tv_usec := 0 } },
    { timer := queue_ptr.valid, timeout := 2, fn := some 7, data := 102, malloc := some 2,
      tv := { tv_sec := s, tv_usec := 0 } },
    { timer := queue_ptr.valid, timeout := 3, fn := some 7, data := 103, malloc := some 3,
      tv := { tv_sec := s, tv_usec := 0 } },
    { timer := queue_ptr.valid, timeout := 4, fn := some 7, data := 104, malloc := some 4,
      tv := { tv_sec := s, tv_usec := 0 } } ]

/-- The memory of the demonstration after its four calls at clock second `s`. -/
def main_memory (s : Int) : Memory :=
  (add_timer_events init_timer_queue (main_calls s)).1

/-- The `k`-th event of the demonstration, created at clock second `s`. -/
def main_event (k : Nat) (s : Int) : timer_event :=
  new_event k k 7 (100 + k) { tv_sec := s, tv_usec := 0 }

/-- Two periodic timers created at clock second 0: A at address 1 with timeout 1 and
B at address 2 with timeout 5. -/
def two_timers : Memory :=
  (add_timer_events init_timer_queue
    [ { timer := queue_ptr.valid, timeout := 1, fn := some 7, data := 101, malloc := some 1,
        tv := { tv_sec := 0, tv_usec := 0 } },
      { timer := queue_ptr.valid, timeout := 5, fn := some 7, data := 102, malloc := some 2,
        tv := { tv_sec := 0, tv_usec := 0 } } ]).1

/-- A clock that reads second `s` at every call. -/
def clock_at (s : Int) : Nat → timeval :=
  fun _ => { tv_sec := s, tv_usec := 0 }

/-- A worker iteration of at most `fuel` turns during clock second `s`. -/
def pass_at (s : Int) (fuel : Nat) : worker_pass :=
  { now := { tv_sec := s, tv_usec := 0 }, clock := clock_at s, fuel := fuel }

/-- The order of full timestamps: seconds first, then microseconds. -/
def timeval_le (a b : timeval) : Prop :=
  a.tv_sec < b.tv_sec ∨ (a.tv_sec = b.tv_sec ∧ a.tv_usec ≤ b.tv_usec)

instance (a b : timeval) : Decidable (timeval_le a b) := by
  unfold timeval_le; infer_instance

/-- The store is in non-decreasing order of the full timestamp `expire`. -/
def sorted_by_expire (l : List timer_event) : Prop :=
  l.Pairwise (fun a b => timeval_le a.expire b.expire)

instance (l : List timer_event) : Decidable (sorted_by_expire l) := by
  unfold sorted_by_expire; infer_instance

/-- The head of the store, if there is one, has the smallest `expire.tv_sec`. -/
def head_is_earliest : List timer_event → Prop
  | [] => True
  | h :: rest => ∀ x ∈ h :: rest, h.expire.tv_sec ≤ x.expire.tv_sec

instance (l : List timer_event) : Decidable (head_is_earliest l) := by
  cases l <;> unfold head_is_earliest <;> infer_instance

/-- The contract of `malloc`: the returned address names a new allocation, different
from every event that is linked, unlinked or was freed (an address stands for one
allocation: a block that `free` released and `malloc` hands out again counts as a new
address). -/
def fresh_addr (m : Memory) (a : Nat) : Prop :=
  a ∉ m.timer.event_list.map timer_event.addr ∧ a ∉ m.detached.map timer_event.addr ∧
    a ∉ m.freed.map timer_event.addr

instance (m : Memory) (a : Nat) : Decidable (fresh_addr m a) := by
  unfold fresh_addr; infer_instance

/-- The states of the memory that the API and the worker can produce from the empty
queue: calls of `add_timer_event` (with `malloc` keeping its contract), of
`delete_timer_event` and `set_timer_event_timeout` that return, and worker iterations
(of any number of loop turns; callbacks do not touch the queue). -/
inductive reachable : Memory → Prop where
  | init : reachable init_timer_queue
  | add (m : Memory) (c : add_call) : reachable m →
      (∀ a, c.malloc = some a → fresh_addr m a) →
      reachable (add_timer_event m c.timer c.timeout c.fn c.data c.malloc c.tv).1
  | delete (m m' : Memory) (timer : queue_ptr) (event : Option Nat) : reachable m →
      delete_timer_event m timer event = some m' → reachable m'
  | set_timeout (m m' : Memory) (timer : queue_ptr) (event : Option Nat) (timeout : Nat)
      (tv : timeval) : reachable m →
      set_timer_event_timeout m timer event timeout tv = some m' → reachable m'
  | pass (m : Memory) (p : worker_pass) : reachable m → reachable (run_pass m p)

/-- Two events created at clock second 0 and second 1 that expire in the same second:
A at address 1 with timeout 1, read at 0 s 900000 us, and B at address 2 with timeout 0,
read at 1 s 100000 us. -/
def same_second : Memory :=
  (add_timer_events init_timer_queue
    [ { timer := queue_ptr.valid, timeout := 1, fn := some 7, data := 101, malloc := some 1,
        tv := { tv_sec := 0, tv_usec := 900000 } },
      { timer := queue_ptr.valid, timeout := 0, fn := some 7, data := 102, malloc := some 2,
        tv := { tv_sec := 1, tv_usec := 100000 } } ]).1

/-- Two events with timeout 0 created at clock second 0, at addresses 1 and 2. -/
def two_zero_timers : Memory :=
  (add_timer_events init_timer_queue
    [ { timer := queue_ptr.valid, timeout := 0, fn := some 7, data := 101, malloc := some 1,
        tv := { tv_sec := 0, tv_usec := 0 } },
      { timer := queue_ptr.valid, timeout := 0, fn := some 7, data := 102, malloc := some 2,
        tv := { tv_sec := 0, tv_usec := 0 } } ]).1

/-- A clock that reads second 0 at its first three calls and second 1 afterwards. -/
def clock_ticking : Nat → timeval :=
  fun k => if k < 3 then { tv_sec := 0, tv_usec := 0 } else { tv_sec := 1, tv_usec := 0 }

/-- The events of the store that the due test of the worker (`now.tv_sec <
event->expire.tv_sec` is false) accepts at pass time `now`, in store order. -/
def due_events (now : timeval) (l : List timer_event) : List timer_event :=
  l.filter (fun e => decide (e.expire.tv_sec ≤ now.tv_sec))

/-- The value of `sleeptv` after a walk that stops at the first entry of `w` (the
`break` branch: `sleeptv.tv_sec = expire.tv_sec - now.tv_sec`), or that reaches the
list head when `w` is empty (the initial one second). -/
def sleep_until (now : timeval) : List timer_event → timeval
  | [] => { tv_sec := 1, tv_usec := 0 }
  | X :: _ => { tv_sec := X.expire.tv_sec - now.tv_sec, tv_usec := 0 }

/-- The store in which the walk over a sorted store `l` finds the event it stops at:
the store `final` after the pass with the event called last left aside, or `l` itself
when no event of `l` is due. -/
def stop_list (now : timeval) (l final : List timer_event) : List timer_event :=
  match (due_events now l).getLast? with
  | none => l
  | some d => list_del d.addr final

/-- A store with one event at address 1, created at clock second 0 with timeout 5. -/
def one_timer : Memory :=
  (add_timer_event init_timer_queue queue_ptr.valid 5 (some 7) 0 (some 1)
    { tv_sec := 0, tv_usec := 0 }).1

/-! ## The ordered insertion -/

theorem scan_reverse_split (e : timer_event) (r : List timer_event) :
    ∃ skipped rest, r = skipped ++ rest ∧ scan_reverse e r = skipped ++ e :: rest ∧
      (∀ x ∈ skipped, e.expire.tv_sec < x.expire.tv_sec) ∧
      (∀ x, rest.head? = some x → x.expire.tv_sec ≤ e.expire.tv_sec) := by
  induction r with
  | nil => exact ⟨[], [], by simp [scan_reverse]⟩
  | cons p more ih =>
    by_cases h : p.expire.tv_sec ≤ e.expire.tv_sec
    · refine ⟨[], p :: more, by simp [scan_reverse, h]⟩
    · obtain ⟨sk, rest, h1, h2, h3, h4⟩ := ih
      refine ⟨p :: sk, rest, by simp [h1], by simp [scan_reverse, h, h2], ?_, h4⟩
      intro x hx
      rcases List.mem_cons.1 hx with rfl | hx
      · exact not_le.1 h
      · exact h3 x hx

/-- The shape of the list after `__add_timer_event`: the event is linked between a
front part whose last entry is not later than it and a back part of later entries. -/
theorem add_split (l : List timer_event) (e : timer_event) :
    ∃ pre post, l = pre ++ post ∧ __add_timer_event l e = pre ++ e :: post ∧
      (∀ x ∈ post, e.expire.tv_sec < x.expire.tv_sec) ∧
      (∀ x, pre.getLast? = some x → x.expire.tv_sec ≤ e.expire.tv_sec) := by
  by_cases hl : l = []
  · subst hl
    exact ⟨[], [], by simp [__add_timer_event, list_empty, list_add_tail]⟩
  · obtain ⟨sk, rest, h1, h2, h3, h4⟩ := scan_reverse_split e l.reverse
    refine ⟨rest.reverse, sk.reverse, ?_, ?_, ?_, ?_⟩
    · have := congrArg List.reverse h1
      simpa using this
    · have hne : list_empty l = false := by
        cases l with
        | nil => exact absurd rfl hl
        | cons a t => rfl
      simp [__add_timer_event, hne, h2]
    · intro x hx
      exact h3 x (List.mem_reverse.1 hx)
    · intro x hx
      apply h4
      simpa [List.getLast?_reverse] using hx

theorem mem_add (l : List timer_event) (e x : timer_event) :
    x ∈ __add_timer_event l e ↔ x = e ∨ x ∈ l := by
  obtain ⟨pre, post, h1, h2, -, -⟩ := add_split l e
  rw [h2, h1]
  simp only [List.mem_append, List.mem_cons]
  tauto

theorem add_perm (l : List timer_event) (e : timer_event) :
    (__add_timer_event l e).Perm (e :: l) := by
  obtain ⟨pre, post, h1, h2, -, -⟩ := add_split l e
  rw [h2, h1]
  exact List.perm_middle

theorem add_sorted (l : List timer_event) (e : timer_event) (h : sorted_by_sec l) :
    sorted_by_sec (__add_timer_event l e) := by
  obtain ⟨pre, post, h1, h2, h3, h4⟩ := add_split l e
  unfold sorted_by_sec at *
  rw [h2]
  rw [h1, List.pairwise_append] at h
  obtain ⟨hp, hq, hpq⟩ := h
  rw [List.pairwise_append]
  refine ⟨hp, List.pairwise_cons.2 ⟨fun x hx => le_of_lt (h3 x hx), hq⟩, ?_⟩
  intro a ha b hb
  have hae : a.expire.tv_sec ≤ e.expire.tv_sec := by
    rcases List.eq_nil_or_concat pre with hnil | ⟨init, z, hc⟩
    · subst hnil
      cases ha
    · rw [List.concat_eq_append] at hc
      subst hc
      have hz : z.expire.tv_sec ≤ e.expire.tv_sec := h4 z (by simp)
      rcases List.mem_append.1 ha with ha | ha
      · have := (List.pairwise_append.1 hp).2.2 a ha z (by simp)
        exact le_trans this hz
      · simp at ha
        subst ha
        exact hz
  rcases List.mem_cons.1 hb with rfl | hb
  · exact hae
  · exact le_trans hae (le_of_lt (h3 b hb))

/-- Among the entries of one expiry second the new event comes last. -/
theorem add_filter (l : List timer_event) (e : timer_event) (k : Int) :
    (__add_timer_event l e).filter (fun x => decide (x.expire.tv_sec = k)) =
      l.filter (fun x => decide (x.expire.tv_sec = k)) ++
        [e].filter (fun x => decide (x.expire.tv_sec = k)) := by
  obtain ⟨pre, post, h1, h2, h3, -⟩ := add_split l e
  rw [h2, h1]
  by_cases hk : e.expire.tv_sec = k
  · have hpost : post.filter (fun x => decide (x.expire.tv_sec = k)) = [] := by
      rw [List.filter_eq_nil_iff]
      intro x hx
      have := h3 x hx
      simp
      omega
    simp [List.filter_cons, hk, hpost]
  · simp [List.filter_cons, hk]

theorem add_eq_scan (l : List timer_event) (e : timer_event) :
    __add_timer_event l e = (scan_reverse e l.reverse).reverse := by
  cases l with
  | nil => simp [__add_timer_event, list_empty, list_add_tail, scan_reverse]
  | cons a t => simp [__add_timer_event, list_empty]

theorem scan_reverse_concat_of_le (e h : timer_event) (r : List timer_event)
    (hle : h.expire.tv_sec ≤ e.expire.tv_sec) :
    scan_reverse e (r ++ [h]) = scan_reverse e r ++ [h] := by
  induction r with
  | nil => simp [scan_reverse, hle]
  | cons p more ih =>
    by_cases hp : p.expire.tv_sec ≤ e.expire.tv_sec
    · simp [scan_reverse, hp]
    · simp [scan_reverse, hp, ih]

/-- An entry that is not later than the new event and heads the list stays the head. -/
theorem add_cons_of_le (h : timer_event) (t : List timer_event) (e : timer_event)
    (hle : h.expire.tv_sec ≤ e.expire.tv_sec) :
    __add_timer_event (h :: t) e = h :: __add_timer_event t e := by
  rw [add_eq_scan, add_eq_scan, List.reverse_cons, scan_reverse_concat_of_le e h _ hle]
  simp

/-- When every entry is later than the new event, it becomes the head. -/
theorem add_front (l : List timer_event) (e : timer_event)
    (hlt : ∀ x ∈ l, e.expire.tv_sec < x.expire.tv_sec) :
    __add_timer_event l e = e :: l := by
  obtain ⟨pre, post, h1, h2, -, h4⟩ := add_split l e
  rcases List.eq_nil_or_concat pre with hnil | ⟨init, z, hc⟩
  · subst hnil
    simpa [h1] using h2
  · rw [List.concat_eq_append] at hc
    subst hc
    have hz := h4 z (by simp)
    have := hlt z (by rw [h1]; simp)
    omega

/-- When no entry is later than the new event, it becomes the tail. -/
theorem add_back (l : List timer_event) (e : timer_event)
    (hle : ∀ x ∈ l, x.expire.tv_sec ≤ e.expire.tv_sec) :
    __add_timer_event l e = l ++ [e] := by
  induction l with
  | nil => simp [__add_timer_event, list_empty, list_add_tail]
  | cons a t ih =>
    rw [add_cons_of_le a t e (hle a (by simp)), ih (fun x hx => hle x (by simp [hx]))]
    simp

/-! ## add_timer_event -/

/-- The two ways `add_timer_event` ends: nothing changes and `NULL` is returned, or
the new event is linked and returned. -/
theorem add_timer_event_cases (m : Memory) (timer : queue_ptr) (timeout : Nat)
    (fn : Option Nat) (data : Nat) (malloc : Option Nat) (tv : timeval) :
    ((timer = queue_ptr.NULL ∨ fn = none ∨ malloc = none) ∧
      add_timer_event m timer timeout fn data malloc tv = (m, none)) ∨
    ∃ f a, timer = queue_ptr.valid ∧ fn = some f ∧ malloc = some a ∧
      add_timer_event m timer timeout fn data malloc tv =
        ({ m with timer := { m.timer with
              event_list := __add_timer_event m.timer.event_list (new_event a timeout f data tv) } },
          some (new_event a timeout f data tv)) := by
  cases timer with
  | NULL => left; exact ⟨Or.inl rfl, rfl⟩
  | valid =>
    cases fn with
    | none => left; exact ⟨Or.inr (Or.inl rfl), rfl⟩
    | some f =>
      cases malloc with
      | none => left; exact ⟨Or.inr (Or.inr rfl), rfl⟩
      | some a => right; exact ⟨f, a, rfl, rfl, rfl, rfl⟩

theorem add_timer_event_list (m : Memory) (c : add_call) :
    (add_timer_event m c.timer c.timeout c.fn c.data c.malloc c.tv).1.timer.event_list =
      (add_timer_event m c.timer c.timeout c.fn c.data c.malloc c.tv).2.toList.foldl
        __add_timer_event m.timer.event_list := by
  rcases add_timer_event_cases m c.timer c.timeout c.fn c.data c.malloc c.tv with
    ⟨-, h⟩ | ⟨f, a, -, -, -, h⟩ <;> rw [h] <;> rfl

theorem add_timer_event_expire (m : Memory) (c : add_call) (e : timer_event)
    (h : (add_timer_event m c.timer c.timeout c.fn c.data c.malloc c.tv).2 = some e) :
    e.expire.tv_sec = c.tv.tv_sec + (c.timeout : Int) := by
  rcases add_timer_event_cases m c.timer c.timeout c.fn c.data c.malloc c.tv with
    ⟨-, h'⟩ | ⟨f, a, -, -, -, h'⟩
  · rw [h'] at h; cases h
  · rw [h'] at h
    simp only [Option.some.injEq] at h
    rw [← h]
    rfl

/-- The store after a sequence of calls: the returned events linked one by one. -/
theorem add_timer_events_list (m : Memory) (calls : List add_call) :
    (add_timer_events m calls).1.timer.event_list =
      (add_timer_events m calls).2.foldl __add_timer_event m.timer.event_list := by
  induction calls generalizing m with
  | nil => rfl
  | cons c cs ih =>
    simp only [add_timer_events, List.foldl_append]
    rw [ih, add_timer_event_list]

theorem foldl_add_sorted (es l : List timer_event) (h : sorted_by_sec l) :
    sorted_by_sec (es.foldl __add_timer_event l) := by
  induction es generalizing l with
  | nil => exact h
  | cons e es ih => exact ih _ (add_sorted l e h)

theorem foldl_add_perm (es l : List timer_event) :
    (es.foldl __add_timer_event l).Perm (l ++ es) := by
  induction es generalizing l with
  | nil => simp
  | cons e es ih =>
    refine (ih (__add_timer_event l e)).trans ?_
    have h1 : (__add_timer_event l e ++ es).Perm ((e :: l) ++ es) :=
      List.Perm.append_right es (add_perm l e)
    refine h1.trans ?_
    simpa using (@List.perm_middle _ e l es).symm

theorem foldl_add_filter (es l : List timer_event) (k : Int) :
    (es.foldl __add_timer_event l).filter (fun x => decide (x.expire.tv_sec = k)) =
      l.filter (fun x => decide (x.expire.tv_sec = k)) ++
        es.filter (fun x => decide (x.expire.tv_sec = k)) := by
  induction es generalizing l with
  | nil => simp
  | cons e es ih =>
    rw [List.foldl_cons, ih, add_filter]
    rw [List.append_assoc, ← List.filter_append]
    rfl

/-- C1: starting from the empty queue, after any finite sequence of `add_timer_event`
calls (any timeouts, any clock readings, failing calls included) the store lists
exactly the events the calls returned, in non-decreasing order of `expire.tv_sec`,
and for every second `k` the events expiring in second `k` stand in the store in the
order in which the calls created them. -/
theorem add_timer_events_sorted_stable (calls : List add_call) :
    sorted_by_sec (add_timer_events init_timer_queue calls).1.timer.event_list ∧
    (add_timer_events init_timer_queue calls).1.timer.event_list.Perm
      (add_timer_events init_timer_queue calls).2 ∧
    ∀ k : Int,
      (add_timer_events init_timer_queue calls).1.timer.event_list.filter
          (fun x => decide (x.expire.tv_sec = k)) =
        (add_timer_events init_timer_queue calls).2.filter
          (fun x => decide (x.expire.tv_sec = k)) := by
  rw [add_timer_events_list]
  refine ⟨foldl_add_sorted _ _ List.Pairwise.nil, ?_, ?_⟩
  · simpa [init_timer_queue] using foldl_add_perm (add_timer_events init_timer_queue calls).2 []
  · intro k
    simpa [init_timer_queue] using
      foldl_add_filter (add_timer_events init_timer_queue calls).2 [] k

theorem add_timer_events_append (m : Memory) (calls : List add_call)
    (hp : calls.Pairwise
      (fun a b => a.tv.tv_sec + (a.timeout : Int) ≤ b.tv.tv_sec + (b.timeout : Int)))
    (hm : ∀ x ∈ m.timer.event_list, ∀ c ∈ calls,
      x.expire.tv_sec ≤ c.tv.tv_sec + (c.timeout : Int)) :
    (add_timer_events m calls).1.timer.event_list =
      m.timer.event_list ++ (add_timer_events m calls).2 := by
  induction calls generalizing m with
  | nil => simp [add_timer_events]
  | cons c cs ih =>
    obtain ⟨hc, hcs⟩ := List.pairwise_cons.1 hp
    simp only [add_timer_events]
    rw [ih _ hcs]
    · rw [add_timer_event_list]
      cases hr : (add_timer_event m c.timer c.timeout c.fn c.data c.malloc c.tv).2 with
      | none => simp
      | some e =>
        have he := add_timer_event_expire m c e hr
        have hb : __add_timer_event m.timer.event_list e = m.timer.event_list ++ [e] :=
          add_back _ _ (fun x hx => by rw [he]; exact hm x hx c (by simp))
        simp [hb]
    · intro x hx c' hc'
      rw [add_timer_event_list] at hx
      cases hr : (add_timer_event m c.timer c.timeout c.fn c.data c.malloc c.tv).2 with
      | none =>
        rw [hr] at hx
        exact hm x hx c' (by simp [hc'])
      | some e =>
        rw [hr] at hx
        simp only [Option.toList, List.foldl_cons, List.foldl_nil] at hx
        rcases (mem_add _ _ _).1 hx with rfl | hx
        · rw [add_timer_event_expire m c x hr]
          exact hc c' hc'
        · exact hm x hx c' (by simp [hc'])

/-- C10: for every sequence of `add_timer_event` calls on the empty queue whose
timeouts are non-decreasing and whose clock readings are non-decreasing (no worker
pass in between), the store lists the returned events in call order. -/
theorem add_timer_events_call_order (calls : List add_call)
    (hto : (calls.map (fun c => c.timeout)).Pairwise (fun a b => a ≤ b))
    (hclk : (calls.map (fun c => c.tv.tv_sec)).Pairwise (fun a b => a ≤ b)) :
    (add_timer_events init_timer_queue calls).1.timer.event_list =
      (add_timer_events init_timer_queue calls).2 := by
  have h1 : calls.Pairwise (fun a b => a.timeout ≤ b.timeout) :=
    List.pairwise_map.1 hto
  have h2 : calls.Pairwise (fun a b => a.tv.tv_sec ≤ b.tv.tv_sec) :=
    List.pairwise_map.1 hclk
  have h3 : calls.Pairwise
      (fun a b => a.tv.tv_sec + (a.timeout : Int) ≤ b.tv.tv_sec + (b.timeout : Int)) := by
    refine (h1.and h2).imp ?_
    intro a b hab
    have := hab.1
    have := hab.2
    omega
  have := add_timer_events_append init_timer_queue calls h3 (by simp [init_timer_queue])
  simpa [init_timer_queue] using this

/-- C10, the demonstration: A(1), B(2), C(3), D(4) scheduled in that order at one clock
second give the store [A, B, C, D]. -/
theorem add_timer_events_call_order_main :
    ((main_calls 0).map (fun c => c.timeout)).Pairwise (fun a b => a ≤ b) ∧
    ((main_calls 0).map (fun c => c.tv.tv_sec)).Pairwise (fun a b => a ≤ b) ∧
    (add_timer_events init_timer_queue (main_calls 0)).1.timer.event_list =
      (add_timer_events init_timer_queue (main_calls 0)).2 ∧
    (add_timer_events init_timer_queue (main_calls 0)).2.map
      (fun e => (e.addr, e.timeout, e.expire.tv_sec)) = [(1, 1, 1), (2, 2, 2), (3, 3, 3), (4, 4, 4)] :=
  ⟨by decide, by decide,
    add_timer_events_call_order (main_calls 0) (by decide) (by decide), by decide⟩

/-! ## Nodes and cursors -/

theorem find_event_some {a : Nat} {l : List timer_event} {e : timer_event}
    (h : find_event a l = some e) : e ∈ l ∧ e.addr = a := by
  induction l with
  | nil => simp [find_event] at h
  | cons x t ih =>
    by_cases hx : x.addr = a
    · simp [find_event, hx] at h
      subst h
      exact ⟨by simp, hx⟩
    · simp [find_event, hx] at h
      exact ⟨List.mem_cons_of_mem _ (ih h).1, (ih h).2⟩

theorem find_event_of_mem {l : List timer_event} {e : timer_event}
    (hd : distinct_nodes l) (he : e ∈ l) : find_event e.addr l = some e := by
  induction l with
  | nil => cases he
  | cons x t ih =>
    unfold distinct_nodes at hd
    rw [List.map_cons, List.nodup_cons] at hd
    rcases List.mem_cons.1 he with rfl | het
    · simp [find_event]
    · have hne : x.addr ≠ e.addr := by
        intro h
        exact hd.1 (h ▸ List.mem_map_of_mem timer_event.addr het)
      simp [find_event, hne, ih hd.2 het]

theorem mem_list_del {a : Nat} {l : List timer_event} {x : timer_event}
    (h : x ∈ list_del a l) : x ∈ l := by
  induction l with
  | nil => simp [list_del] at h
  | cons y t ih =>
    by_cases hy : y.addr = a
    · simp [list_del, hy] at h
      exact List.mem_cons_of_mem _ h
    · simp [list_del, hy] at h
      rcases h with rfl | h
      · simp
      · exact List.mem_cons_of_mem _ (ih h)

/-- With distinct nodes, `list_del` removes the node of that address and nothing else. -/
theorem list_del_eq_filter {a : Nat} {l : List timer_event} (hd : distinct_nodes l) :
    list_del a l = l.filter (fun x => decide (x.addr ≠ a)) := by
  induction l with
  | nil => rfl
  | cons y t ih =>
    unfold distinct_nodes at hd
    rw [List.map_cons, List.nodup_cons] at hd
    by_cases hy : y.addr = a
    · have : t.filter (fun x => decide (x.addr ≠ a)) = t := by
        rw [List.filter_eq_self]
        intro x hx
        have : x.addr ≠ a := by
          intro h
          exact hd.1 (hy ▸ h ▸ List.mem_map_of_mem timer_event.addr hx)
        simpa using this
      rw [List.filter_cons_of_neg (by simp [hy]), this]
      simp [list_del, hy]
    · rw [List.filter_cons_of_pos (by simpa using hy), ← ih hd.2]
      simp [list_del, hy]

theorem list_del_distinct {a : Nat} {l : List timer_event} (hd : distinct_nodes l) :
    distinct_nodes (list_del a l) := by
  rw [list_del_eq_filter hd]
  unfold distinct_nodes at *
  exact hd.sublist ((List.filter_sublist l).map _)

theorem list_del_sorted {a : Nat} {l : List timer_event} (hs : sorted_by_sec l) :
    sorted_by_sec (list_del a l) := by
  induction l with
  | nil => exact hs
  | cons y t ih =>
    unfold sorted_by_sec at *
    obtain ⟨h1, h2⟩ := List.pairwise_cons.1 hs
    by_cases hy : y.addr = a
    · simpa [list_del, hy] using h2
    · simp only [list_del, hy, if_false]
      exact List.pairwise_cons.2 ⟨fun x hx => h1 x (mem_list_del hx), ih h2⟩

/-- With distinct nodes, unlinking the node of `e` leaves the other entries. -/
theorem list_del_perm {l : List timer_event} {e : timer_event}
    (hd : distinct_nodes l) (he : e ∈ l) : l.Perm (e :: list_del e.addr l) := by
  induction l with
  | nil => cases he
  | cons y t ih =>
    unfold distinct_nodes at hd
    rw [List.map_cons, List.nodup_cons] at hd
    rcases List.mem_cons.1 he with rfl | het
    · simp [list_del]
    · have hne : y.addr ≠ e.addr := by
        intro h
        exact hd.1 (h ▸ List.mem_map_of_mem timer_event.addr het)
      simp only [list_del, hne, if_false]
      exact ((ih hd.2 het).cons y).trans (List.Perm.swap e y _)

theorem filter_add_other (l : List timer_event) (e : timer_event) :
    (__add_timer_event l e).filter (fun x => decide (x.addr ≠ e.addr)) =
      l.filter (fun x => decide (x.addr ≠ e.addr)) := by
  obtain ⟨pre, post, h1, h2, -, -⟩ := add_split l e
  rw [h2, h1]
  simp [List.filter_cons]

/-- C6: `add_timer_event` returns `NULL` and changes nothing when the queue is `NULL`,
when the callback is `NULL` or when the allocation fails; `delete_timer_event` and
`set_timer_event_timeout` change nothing when the queue or the event handle is `NULL`;
with a queue, a callback and a successful allocation `add_timer_event` returns the
event it allocated, never `NULL`. -/
theorem null_arguments_change_nothing (m : Memory) (timer : queue_ptr) (timeout : Nat)
    (fn : Option Nat) (data : Nat) (malloc : Option Nat) (event : Option Nat) (tv : timeval) :
    add_timer_event m queue_ptr.NULL timeout fn data malloc tv = (m, none) ∧
    add_timer_event m timer timeout none data malloc tv = (m, none) ∧
    add_timer_event m timer timeout fn data none tv = (m, none) ∧
    delete_timer_event m queue_ptr.NULL event = some m ∧
    delete_timer_event m timer none = some m ∧
    set_timer_event_timeout m queue_ptr.NULL event timeout tv = some m ∧
    set_timer_event_timeout m timer none timeout tv = some m ∧
    (∀ f a, ∃ e, (add_timer_event m queue_ptr.valid timeout (some f) data (some a) tv).2 = some e ∧
      e.addr = a ∧ e.fn = f ∧
      e ∈ (add_timer_event m queue_ptr.valid timeout (some f) data (some a) tv).1.timer.event_list) := by
  refine ⟨rfl, ?_, ?_, rfl, ?_, ?_, rfl, ?_⟩
  · cases timer <;> rfl
  · cases timer <;> cases fn <;> rfl
  · cases timer <;> rfl
  · cases event <;> rfl
  · intro f a
    refine ⟨new_event a timeout f data tv, rfl, rfl, rfl, ?_⟩
    exact (mem_add _ _ _).2 (Or.inl rfl)

/-- C7: for every store of distinct nodes and every event `e` linked in it,
`set_timer_event_timeout` with timeout `t` at clock reading `tv` succeeds; afterwards
the store holds the same nodes, every other event is unchanged and the other events
keep their relative order, `e` carries the new timeout and the expiry
`(tv.tv_sec + t, tv.tv_usec)`, and when that expiry second is strictly smaller than
the expiry second of every other event, `e` is the head of the store. -/
theorem set_timer_event_timeout_relinks (m : Memory) (e : timer_event) (t : Nat)
    (tv : timeval) (hd : distinct_nodes m.timer.event_list) (he : e ∈ m.timer.event_list) :
    ∃ m', set_timer_event_timeout m queue_ptr.valid (some e.addr) t tv = some m' ∧
      m'.timer.event_list.Perm
        ({ e with timeout := t, expire := { tv_sec := tv.tv_sec + (t : Int), tv_usec := tv.tv_usec } } ::
          m.timer.event_list.filter (fun x => decide (x.addr ≠ e.addr))) ∧
      (m'.timer.event_list.map timer_event.addr).Perm (m.timer.event_list.map timer_event.addr) ∧
      m'.timer.event_list.filter (fun x => decide (x.addr ≠ e.addr)) =
        m.timer.event_list.filter (fun x => decide (x.addr ≠ e.addr)) ∧
      ((∀ x ∈ m.timer.event_list, x.addr ≠ e.addr → tv.tv_sec + (t : Int) < x.expire.tv_sec) →
        m'.timer.event_list.head? =
          some { e with timeout := t,
                        expire := { tv_sec := tv.tv_sec + (t : Int), tv_usec := tv.tv_usec } }) ∧
      m'.detached = m.detached ∧ m'.freed = m.freed ∧ m'.calls = m.calls := by
  have hf := find_event_of_mem hd he
  have hdel := list_del_eq_filter (a := e.addr) hd
  refine ⟨{ m with timer := { m.timer with
      event_list := __add_timer_event (list_del e.addr m.timer.event_list)
        (set_event_expire { e with timeout := t } tv) } },
    by simp only [set_timer_event_timeout, hf], ?_, ?_, ?_, ?_, rfl, rfl, rfl⟩
  · simp only [set_event_expire]
    rw [← hdel]
    exact add_perm _ _
  · simp only [set_event_expire]
    refine ((add_perm _ _).map _).trans ?_
    have := ((list_del_perm hd he).map timer_event.addr).symm
    simpa using this
  · simp only [set_event_expire]
    have := filter_add_other (list_del e.addr m.timer.event_list)
      { e with timeout := t, expire := { tv_sec := tv.tv_sec + (t : Int), tv_usec := tv.tv_usec } }
    simp only at this
    rw [this, hdel, List.filter_filter]
    simp
  · intro hlt
    simp only [set_event_expire]
    rw [add_front]
    · rfl
    · intro x hx
      rw [hdel] at hx
      simp only [List.mem_filter, decide_eq_true_eq] at hx
      exact hlt x hx.1 hx.2

/-- C7 at the demonstration's store: D, rescheduled with timeout 0 at second 0, expires
before A, B and C and becomes the head. -/
theorem set_timer_event_timeout_relinks_main :
    distinct_nodes (main_memory 0).timer.event_list ∧
    main_event 4 0 ∈ (main_memory 0).timer.event_list ∧
    ∃ m', set_timer_event_timeout (main_memory 0) queue_ptr.valid (some 4) 0
        { tv_sec := 0, tv_usec := 0 } = some m' ∧
      m'.timer.event_list.map (fun x => (x.addr, x.expire.tv_sec)) =
        [(4, 0), (1, 1), (2, 2), (3, 3)] := by
  refine ⟨by decide, by decide, ?_⟩
  obtain ⟨m', h1, -, -, -, -, -, -, -⟩ :=
    set_timer_event_timeout_relinks (main_memory 0) (main_event 4 0) 0
      { tv_sec := 0, tv_usec := 0 } (by decide) (by decide)
  refine ⟨m', h1, ?_⟩
  have h3 : (set_timer_event_timeout (main_memory 0) queue_ptr.valid (some 4) 0
      { tv_sec := 0, tv_usec := 0 }).map
        (fun m => m.timer.event_list.map (fun x => (x.addr, x.expire.tv_sec))) =
      some [(4, 0), (1, 1), (2, 2), (3, 3)] := by
    decide
  have h2 : set_timer_event_timeout (main_memory 0) queue_ptr.valid (some 4) 0
      { tv_sec := 0, tv_usec := 0 } = some m' := h1
  rw [h2] at h3
  simpa using h3

/-! ## fini_timer_queue -/

theorem fini_step_stopped (s : fini_state) (h : s.status ≠ walk.running) : fini_step s = s := by
  unfold fini_step
  cases hs : s.status <;> simp_all

theorem fini_loop_stopped (fuel : Nat) (s : fini_state) (h : s.status ≠ walk.running) :
    fini_loop fuel s = s := by
  induction fuel with
  | zero => rfl
  | succ n ih => rw [fini_loop, fini_step_stopped s h, ih]

/-- The loop of `fini_timer_queue` on a store whose events all have `ref = 1`: each
turn unlinks and frees the first entry. -/
theorem fini_loop_releases (l : List timer_event) :
    ∀ (m : Memory) (fuel : Nat), m.timer.event_list = l → (∀ e ∈ l, e.ref = 1) →
      l.length + 1 ≤ fuel →
      fini_loop fuel { mem := m, pos := first_of l, status := walk.running } =
        { mem := { m with
            timer := { m.timer with event_list := [] }
            freed := m.freed ++ l.map (fun e => { e with ref := 0 }) },
          pos := none, status := walk.finished } := by
  induction l with
  | nil =>
    intro m fuel hm _ hfuel
    obtain ⟨n, rfl⟩ : ∃ n, fuel = n + 1 := ⟨fuel - 1, by omega⟩
    rw [fini_loop]
    have : fini_step { mem := m, pos := first_of [], status := walk.running } =
        { mem := m, pos := none, status := walk.finished } := rfl
    rw [this, fini_loop_stopped _ _ (by simp)]
    cases m with
    | mk timer detached freed calls =>
      cases timer with
      | mk stop event_list =>
        simp only at hm
        subst hm
        simp
  | cons e rest ih =>
    intro m fuel hm href hfuel
    obtain ⟨n, rfl⟩ : ∃ n, fuel = n + 1 := ⟨fuel - 1, by omega⟩
    have he : e.ref = 1 := href e (by simp)
    have hstep : fini_step { mem := m, pos := first_of (e :: rest), status := walk.running } =
        { mem := { m with
            timer := { m.timer with event_list := rest }
            freed := m.freed ++ [{ e with ref := 0 }] },
          pos := first_of rest, status := walk.running } := by
      simp [fini_step, first_of, hm, find_event, atomic_read, he, delete_timer_event,
        list_del, unref_detached, timer_event_unref, atomic_dec_and_test, next_of]
    rw [fini_loop, hstep, ih _ n rfl (fun x hx => href x (by simp [hx]))
      (by simp at hfuel ⊢; omega)]
    simp

/-- C5: for every queue whose store holds `K >= 0` events, each with reference count 1,
`fini_timer_queue` runs to its end without a failed assertion (`K + 1` turns of its
loop are enough), logs no callback invocation, frees each of the `K` events once, in
store order and with its reference count at 0, and leaves the store empty. -/
theorem fini_timer_queue_releases (m : Memory) (fuel : Nat)
    (href : ∀ e ∈ m.timer.event_list, e.ref = 1)
    (hfuel : m.timer.event_list.length + 1 ≤ fuel) :
    (fini_timer_queue m queue_ptr.valid fuel).status = walk.finished ∧
    (fini_timer_queue m queue_ptr.valid fuel).mem.timer.event_list = [] ∧
    (fini_timer_queue m queue_ptr.valid fuel).mem.calls = m.calls ∧
    (fini_timer_queue m queue_ptr.valid fuel).mem.freed =
      m.freed ++ m.timer.event_list.map (fun e => { e with ref := 0 }) ∧
    (fini_timer_queue m queue_ptr.valid fuel).mem.detached = m.detached ∧
    (fini_timer_queue m queue_ptr.valid fuel).mem.timer.stop = 1 := by
  have h := fini_loop_releases m.timer.event_list
    { m with timer := { m.timer with stop := 1 } } fuel rfl href hfuel
  simp only [fini_timer_queue]
  rw [h]
  simp [list_empty]

/-- C5 at the demonstration's store: its four events are freed, none is called. -/
theorem fini_timer_queue_releases_main :
    (∀ e ∈ (main_memory 0).timer.event_list, e.ref = 1) ∧
    (main_memory 0).timer.event_list.length + 1 ≤ 5 ∧
    (fini_timer_queue (main_memory 0) queue_ptr.valid 5).status = walk.finished ∧
    (fini_timer_queue (main_memory 0) queue_ptr.valid 5).mem.timer.event_list = [] ∧
    (fini_timer_queue (main_memory 0) queue_ptr.valid 5).mem.calls = [] ∧
    (fini_timer_queue (main_memory 0) queue_ptr.valid 5).mem.freed.map
      (fun e => (e.addr, e.ref)) = [(1, 0), (2, 0), (3, 0), (4, 0)] := by
  have h := fini_timer_queue_releases (main_memory 0) 5 (by decide) (by decide)
  refine ⟨by decide, by decide, h.1, h.2.1, ?_, ?_⟩
  · rw [h.2.2.1]
    decide
  · rw [h.2.2.2.1]
    decide

/-! ## The walk of the worker -/

theorem drain_step_stopped (now : timeval) (clock : Nat → timeval) (s : drain_state)
    (h : s.status ≠ walk.running) : drain_step now clock s = s := by
  unfold drain_step
  cases hs : s.status <;> simp_all

theorem drain_loop_stopped (now : timeval) (clock : Nat → timeval) (fuel : Nat)
    (s : drain_state) (h : s.status ≠ walk.running) : drain_loop now clock fuel s = s := by
  induction fuel with
  | zero => rfl
  | succ n ih => rw [drain_loop, drain_step_stopped now clock s h, ih]

theorem drain_loop_add (now : timeval) (clock : Nat → timeval) (a b : Nat) (s : drain_state) :
    drain_loop now clock (a + b) s = drain_loop now clock b (drain_loop now clock a s) := by
  induction a generalizing s with
  | zero => simp [drain_loop]
  | succ n ih => rw [Nat.succ_add, drain_loop, drain_loop, ih]

/-- The turn that ends the walk at the list head. -/
theorem drain_step_head (now : timeval) (clock : Nat → timeval) (s : drain_state)
    (hs : s.status = walk.running) (hp : s.pos = none) :
    drain_step now clock s = { s with status := walk.finished } := by
  simp [drain_step, hs, hp]

/-- The turn that meets an event that is not due: `sleeptv.tv_sec` is set, `break`. -/
theorem drain_step_break (now : timeval) (clock : Nat → timeval) (s : drain_state)
    (a : Nat) (ev : timer_event) (hs : s.status = walk.running) (hp : s.pos = some a)
    (hf : find_event a s.event_list = some ev) (hlt : now.tv_sec < ev.expire.tv_sec) :
    drain_step now clock s =
      { s with
        sleeptv := { s.sleeptv with tv_sec := ev.expire.tv_sec - now.tv_sec }
        status := walk.finished } := by
  simp [drain_step, hs, hp, hf, hlt]

/-- The turn that meets a due event: callback, unlink, new expiry, relink, unref. -/
theorem drain_step_fire (now : timeval) (clock : Nat → timeval) (s : drain_state)
    (a : Nat) (ev : timer_event) (hs : s.status = walk.running) (hp : s.pos = some a)
    (hf : find_event a s.event_list = some ev) (hdue : ev.expire.tv_sec ≤ now.tv_sec) :
    drain_step now clock s =
      { event_list :=
          store_event (timer_event_unref (set_event_expire (timer_event_ref ev) (clock s.reads))).1
            (__add_timer_event (list_del a s.event_list)
              (set_event_expire (timer_event_ref ev) (clock s.reads)))
        freed :=
          if (timer_event_unref (set_event_expire (timer_event_ref ev) (clock s.reads))).2 then
            s.freed ++ [(timer_event_unref (set_event_expire (timer_event_ref ev) (clock s.reads))).1]
          else s.freed
        fired := s.fired ++ [timer_event_ref ev]
        sleeptv := s.sleeptv
        pos := next_of a s.event_list
        reads := s.reads + 1
        status := walk.running } := by
  have : ¬ now.tv_sec < ev.expire.tv_sec := not_lt.2 hdue
  simp [drain_step, hs, hp, hf, this]

/-- The five ways one turn of the walk can go. -/
theorem drain_step_cases (now : timeval) (clock : Nat → timeval) (s : drain_state) :
    (s.status ≠ walk.running ∧ drain_step now clock s = s) ∨
    (s.status = walk.running ∧ s.pos = none ∧
      drain_step now clock s = { s with status := walk.finished }) ∨
    (s.status = walk.running ∧ ∃ a, s.pos = some a ∧ find_event a s.event_list = none ∧
      drain_step now clock s = { s with status := walk.undefined }) ∨
    (s.status = walk.running ∧ ∃ a ev, s.pos = some a ∧ find_event a s.event_list = some ev ∧
      now.tv_sec < ev.expire.tv_sec ∧
      drain_step now clock s =
        { s with
          sleeptv := { s.sleeptv with tv_sec := ev.expire.tv_sec - now.tv_sec }
          status := walk.finished }) ∨
    (s.status = walk.running ∧ ∃ a ev, s.pos = some a ∧ find_event a s.event_list = some ev ∧
      ev.expire.tv_sec ≤ now.tv_sec ∧
      drain_step now clock s =
        { event_list :=
            store_event (timer_event_unref (set_event_expire (timer_event_ref ev) (clock s.reads))).1
              (__add_timer_event (list_del a s.event_list)
                (set_event_expire (timer_event_ref ev) (clock s.reads)))
          freed :=
            if (timer_event_unref (set_event_expire (timer_event_ref ev) (clock s.reads))).2 then
              s.freed ++ [(timer_event_unref (set_event_expire (timer_event_ref ev) (clock s.reads))).1]
            else s.freed
          fired := s.fired ++ [timer_event_ref ev]
          sleeptv := s.sleeptv
          pos := next_of a s.event_list
          reads := s.reads + 1
          status := walk.running }) := by
  by_cases hs : s.status = walk.running
  · right
    rcases Option.eq_none_or_eq_some s.pos with hp | ⟨a, hp⟩
    · exact Or.inl ⟨hs, hp, drain_step_head now clock s hs hp⟩
    · right
      rcases Option.eq_none_or_eq_some (find_event a s.event_list) with hf | ⟨ev, hf⟩
      · refine Or.inl ⟨hs, a, hp, hf, ?_⟩
        simp [drain_step, hs, hp, hf]
      · right
        by_cases hlt : now.tv_sec < ev.expire.tv_sec
        · exact Or.inl ⟨hs, a, ev, hp, hf, hlt, drain_step_break now clock s a ev hs hp hf hlt⟩
        · exact Or.inr ⟨hs, a, ev, hp, hf, not_lt.1 hlt,
            drain_step_fire now clock s a ev hs hp hf (not_lt.1 hlt)⟩
  · exact Or.inl ⟨hs, drain_step_stopped now clock s hs⟩

theorem mem_store_event {e x : timer_event} {l : List timer_event}
    (h : x ∈ store_event e l) : x = e ∨ x ∈ l := by
  unfold store_event at h
  obtain ⟨y, hy, rfl⟩ := List.mem_map.1 h
  by_cases hc : y.addr = e.addr
  · left; simp [hc]
  · right; simpa [hc] using hy

/-- Every entry after a firing turn is the relinked event or an entry from before. -/
theorem mem_after_fire {a : Nat} {ev x : timer_event} {tv : timeval} {l : List timer_event}
    (h : x ∈ store_event (timer_event_unref (set_event_expire (timer_event_ref ev) tv)).1
      (__add_timer_event (list_del a l) (set_event_expire (timer_event_ref ev) tv))) :
    x.addr = ev.addr ∨ x ∈ l := by
  rcases mem_store_event h with rfl | h
  · left; rfl
  · rcases (mem_add _ _ _).1 h with rfl | h
    · left; rfl
    · right; exact mem_list_del h

theorem drain_loop_invariant (now : timeval) (clock : Nat → timeval) (P : drain_state → Prop)
    (hstep : ∀ s, P s → P (drain_step now clock s)) (fuel : Nat) (s : drain_state) (h : P s) :
    P (drain_loop now clock fuel s) := by
  induction fuel generalizing s with
  | zero => exact h
  | succ n ih => exact ih _ (hstep s h)

/-- A node that is not linked is neither called nor linked by a turn of the walk. -/
theorem drain_step_avoids (now : timeval) (clock : Nat → timeval) (a : Nat) (s : drain_state)
    (h : (∀ x ∈ s.event_list, x.addr ≠ a) ∧ (∀ x ∈ s.fired, x.addr ≠ a)) :
    (∀ x ∈ (drain_step now clock s).event_list, x.addr ≠ a) ∧
      (∀ x ∈ (drain_step now clock s).fired, x.addr ≠ a) := by
  rcases drain_step_cases now clock s with ⟨-, h1⟩ | ⟨-, -, h1⟩ | ⟨-, b, -, -, h1⟩ |
    ⟨-, b, ev, -, -, -, h1⟩ | ⟨-, b, ev, -, hf, -, h1⟩
  · rw [h1]; exact h
  · rw [h1]; exact h
  · rw [h1]; exact h
  · rw [h1]; exact h
  · rw [h1]
    have hev : ev.addr ≠ a := h.1 ev (find_event_some hf).1
    constructor
    · intro x hx
      rcases mem_after_fire hx with hx | hx
      · rw [hx]; exact hev
      · exact h.1 x hx
    · intro x hx
      rcases List.mem_append.1 hx with hx | hx
      · exact h.2 x hx
      · simp only [List.mem_singleton] at hx
        rw [hx]
        exact hev

theorem run_pass_avoids (a : Nat) (m : Memory) (p : worker_pass)
    (h : ∀ x ∈ m.timer.event_list, x.addr ≠ a) :
    (∀ x ∈ (run_pass m p).timer.event_list, x.addr ≠ a) ∧
      ∃ later, (run_pass m p).calls = m.calls ++ later ∧ ∀ x ∈ later, x.addr ≠ a := by
  have := drain_loop_invariant p.now p.clock
    (fun s => (∀ x ∈ s.event_list, x.addr ≠ a) ∧ (∀ x ∈ s.fired, x.addr ≠ a))
    (drain_step_avoids p.now p.clock a) p.fuel
    { event_list := m.timer.event_list, freed := m.freed, fired := [],
      sleeptv := { tv_sec := 1, tv_usec := 0 }, pos := first_of m.timer.event_list,
      reads := 0, status := walk.running } ⟨h, by simp⟩
  exact ⟨this.1, _, rfl, this.2⟩

theorem run_passes_avoid (a : Nat) (passes : List worker_pass) :
    ∀ m : Memory, (∀ x ∈ m.timer.event_list, x.addr ≠ a) →
      (∀ x ∈ (run_passes m passes).timer.event_list, x.addr ≠ a) ∧
        ∃ later, (run_passes m passes).calls = m.calls ++ later ∧ ∀ x ∈ later, x.addr ≠ a := by
  induction passes with
  | nil => intro m h; exact ⟨h, [], by simp [run_passes], by simp⟩
  | cons p ps ih =>
    intro m h
    obtain ⟨h1, l1, h2, h3⟩ := run_pass_avoids a m p h
    obtain ⟨h4, l2, h5, h6⟩ := ih (run_pass m p) h1
    refine ⟨h4, l1 ++ l2, ?_, ?_⟩
    · rw [run_passes, h5, h2, List.append_assoc]
    · intro x hx
      rcases List.mem_append.1 hx with hx | hx
      · exact h3 x hx
      · exact h6 x hx

/-- C4: for every store of distinct nodes and every event `e` linked in it with
reference count 1, `delete_timer_event` succeeds; the store afterwards is the old store
without the node of `e` (the other entries unchanged, in their order), `e` is freed
with its reference count at 0, nothing else changes, and after any sequence of worker
passes on that queue no callback invocation of the node of `e` has been logged and
the node is still not linked. -/
theorem delete_timer_event_cancels (m : Memory) (e : timer_event)
    (hd : distinct_nodes m.timer.event_list) (he : e ∈ m.timer.event_list) (hr : e.ref = 1) :
    ∃ m', delete_timer_event m queue_ptr.valid (some e.addr) = some m' ∧
      m'.timer.event_list = m.timer.event_list.filter (fun x => decide (x.addr ≠ e.addr)) ∧
      m.timer.event_list.Perm (e :: m'.timer.event_list) ∧
      m'.freed = m.freed ++ [{ e with ref := 0 }] ∧
      m'.detached = m.detached ∧ m'.calls = m.calls ∧ m'.timer.stop = m.timer.stop ∧
      ∀ passes : List worker_pass,
        (∀ x ∈ (run_passes m' passes).timer.event_list, x.addr ≠ e.addr) ∧
        ∃ later, (run_passes m' passes).calls = m.calls ++ later ∧
          ∀ x ∈ later, x.addr ≠ e.addr := by
  have hf := find_event_of_mem hd he
  have hdel := list_del_eq_filter (a := e.addr) hd
  refine ⟨{ m with
      timer := { m.timer with event_list := list_del e.addr m.timer.event_list }
      freed := m.freed ++ [{ e with ref := 0 }] }, ?_, hdel, list_del_perm hd he, rfl, rfl,
    rfl, rfl, ?_⟩
  · simp [delete_timer_event, hf, unref_detached, timer_event_unref, atomic_dec_and_test, hr]
  · intro passes
    refine run_passes_avoid e.addr passes _ ?_
    intro x hx
    simp only at hx
    rw [hdel] at hx
    simpa using (List.mem_filter.1 hx).2

/-- C4 at the demonstration's store: B is cancelled and freed, the store is [A, C, D],
and a worker pass at second 2 does not call B. -/
theorem delete_timer_event_cancels_main :
    distinct_nodes (main_memory 0).timer.event_list ∧
    main_event 2 0 ∈ (main_memory 0).timer.event_list ∧ (main_event 2 0).ref = 1 ∧
    ∃ m', delete_timer_event (main_memory 0) queue_ptr.valid (some 2) = some m' ∧
      m'.timer.event_list = [main_event 1 0, main_event 3 0, main_event 4 0] ∧
      m'.freed = [{ main_event 2 0 with ref := 0 }] ∧
      ∀ x ∈ (run_passes m' [pass_at 2 5]).calls, x.addr ≠ 2 := by
  refine ⟨by decide, by decide, by decide, ?_⟩
  obtain ⟨m', h1, h2, -, h3, -, -, -, h4⟩ :=
    delete_timer_event_cancels (main_memory 0) (main_event 2 0) (by decide) (by decide)
      (by decide)
  refine ⟨m', h1, ?_, ?_, ?_⟩
  · rw [h2]; decide
  · rw [h3]; decide
  · obtain ⟨-, later, h5, h6⟩ := h4 [pass_at 2 5]
    intro x hx
    rw [h5] at hx
    have : (main_memory 0).calls = [] := by decide
    rw [this] at hx
    exact h6 x (by simpa using hx)

/-! ## The sleep computed by one iteration -/

/-- The variable `sleeptv` keeps its default until the walk stops at an event that is not due. -/
theorem drain_step_sleeptv (now : timeval) (clock : Nat → timeval) (s : drain_state)
    (h : s.sleeptv = { tv_sec := 1, tv_usec := 0 } ∨
      (s.status = walk.finished ∧ ∃ X ∈ s.event_list, now.tv_sec < X.expire.tv_sec ∧
        s.sleeptv = { tv_sec := X.expire.tv_sec - now.tv_sec, tv_usec := 0 })) :
    (drain_step now clock s).sleeptv = { tv_sec := 1, tv_usec := 0 } ∨
      ((drain_step now clock s).status = walk.finished ∧
        ∃ X ∈ (drain_step now clock s).event_list, now.tv_sec < X.expire.tv_sec ∧
          (drain_step now clock s).sleeptv =
            { tv_sec := X.expire.tv_sec - now.tv_sec, tv_usec := 0 }) := by
  rcases h with h | h
  · rcases drain_step_cases now clock s with ⟨-, h1⟩ | ⟨-, -, h1⟩ | ⟨-, b, -, -, h1⟩ |
      ⟨-, b, ev, -, hf, hlt, h1⟩ | ⟨-, b, ev, -, -, -, h1⟩
    · rw [h1]; exact Or.inl h
    · rw [h1]; exact Or.inl h
    · rw [h1]; exact Or.inl h
    · rw [h1]
      right
      refine ⟨rfl, ev, (find_event_some hf).1, hlt, ?_⟩
      simp [h]
    · rw [h1]; exact Or.inl h
  · rw [drain_step_stopped now clock s (by rw [h.1]; simp)]
    exact Or.inr h

/-- C8 fails as stated: with one event in the store, created at second 0 with
timeout 5, the iteration at second 0 stops at that event and computes a sleep of 5 s. -/
theorem sleep_exceeds_default :
    (timer_queue_thread_cbk
      (add_timer_event init_timer_queue queue_ptr.valid 5 (some 7) 0 (some 1)
        { tv_sec := 0, tv_usec := 0 }).1
      { tv_sec := 0, tv_usec := 0 } (clock_at 0) 2).status = walk.finished ∧
    (timer_queue_thread_cbk
      (add_timer_event init_timer_queue queue_ptr.valid 5 (some 7) 0 (some 1)
        { tv_sec := 0, tv_usec := 0 }).1
      { tv_sec := 0, tv_usec := 0 } (clock_at 0) 2).sleeptv = { tv_sec := 5, tv_usec := 0 } ∧
    ¬ (timer_queue_thread_cbk
      (add_timer_event init_timer_queue queue_ptr.valid 5 (some 7) 0 (some 1)
        { tv_sec := 0, tv_usec := 0 }).1
      { tv_sec := 0, tv_usec := 0 } (clock_at 0) 2).sleeptv.tv_sec ≤ 1 := by
  decide

/-- C2 at the failing input: A (timeout 1) and B (timeout 5) were created at second 0.
The iteration at second 1 calls A, relinks it with expiry second 2 in front of B, goes
on to B and sets the sleep to 4 s, although the earliest expiry in the store is one
second away. -/
theorem sleep_overshoots_next_expiry :
    two_timers.timer.event_list.map (fun e => (e.addr, e.timeout, e.expire.tv_sec)) =
      [(1, 1, 1), (2, 5, 5)] ∧
    (timer_queue_thread_cbk two_timers { tv_sec := 1, tv_usec := 0 } (clock_at 1) 3).status =
      walk.finished ∧
    (timer_queue_thread_cbk two_timers { tv_sec := 1, tv_usec := 0 } (clock_at 1) 3).fired.map
      timer_event.addr = [1] ∧
    (timer_queue_thread_cbk two_timers { tv_sec := 1, tv_usec := 0 }
      (clock_at 1) 3).event_list.map (fun e => (e.addr, e.timeout, e.expire.tv_sec)) =
      [(1, 1, 2), (2, 5, 5)] ∧
    (timer_queue_thread_cbk two_timers { tv_sec := 1, tv_usec := 0 } (clock_at 1) 3).sleeptv =
      { tv_sec := 4, tv_usec := 0 } ∧
    ¬ (timer_queue_thread_cbk two_timers { tv_sec := 1, tv_usec := 0 }
      (clock_at 1) 3).sleeptv.tv_sec ≤ max 1 (2 - 1) := by
  decide

/-! ## The first firing of the demonstration -/

/-- C3 fails as stated: in the demonstration one pass at second `s + 1` (here `s = 0`)
leaves the store in the order [B, A, C, D], not [A, B, C, D]. -/
theorem first_firing_order_main :
    (main_memory 0).timer.event_list.map (fun e => (e.addr, e.expire.tv_sec)) =
      [(1, 1), (2, 2), (3, 3), (4, 4)] ∧
    (timer_queue_thread_cbk (main_memory 0) { tv_sec := 1, tv_usec := 0 }
      (clock_at 1) 2).status = walk.finished ∧
    (timer_queue_thread_cbk (main_memory 0) { tv_sec := 1, tv_usec := 0 }
      (clock_at 1) 2).event_list.map (fun e => (e.addr, e.expire.tv_sec)) =
      [(2, 2), (1, 2), (3, 3), (4, 4)] ∧
    ¬ (timer_queue_thread_cbk (main_memory 0) { tv_sec := 1, tv_usec := 0 }
      (clock_at 1) 2).event_list.map timer_event.addr = [1, 2, 3, 4] := by
  decide

/-- C3, as the code has it: for a store [A, B, C, D] of distinct nodes with expiry
seconds `s + 1 .. s + 4`, A having timeout 1 and reference count 1, one pass of the
worker at `now.tv_sec = s + 1` whose clock reads second `s + 1` when A is re-armed
ends after two turns; it invokes A's callback once and no other callback, leaves A
with expiry second `s + 2` and otherwise unchanged, leaves B, C and D unchanged, frees
nothing, computes a sleep of one second, and relinks A behind B, whose expiry second
equals A's new one: the store order is [B, A, C, D]. -/
theorem first_firing (s : Int) (A B C D : timer_event) (m : Memory) (now : timeval)
    (clock : Nat → timeval) (fuel : Nat)
    (hm : m.timer.event_list = [A, B, C, D]) (hd : distinct_nodes [A, B, C, D])
    (hA : A.expire.tv_sec = s + 1) (hB : B.expire.tv_sec = s + 2)
    (hC : C.expire.tv_sec = s + 3) (hD : D.expire.tv_sec = s + 4)
    (hto : A.timeout = 1) (href : A.ref = 1)
    (hnow : now.tv_sec = s + 1) (hclk : (clock 0).tv_sec = s + 1) (hfuel : 2 ≤ fuel) :
    (timer_queue_thread_cbk m now clock fuel).status = walk.finished ∧
    (timer_queue_thread_cbk m now clock fuel).fired = [{ A with ref := 2 }] ∧
    (timer_queue_thread_cbk m now clock fuel).event_list =
      [B, { A with expire := { tv_sec := s + 2, tv_usec := (clock 0).tv_usec } }, C, D] ∧
    (timer_queue_thread_cbk m now clock fuel).freed = m.freed ∧
    (timer_queue_thread_cbk m now clock fuel).sleeptv = { tv_sec := 1, tv_usec := 0 } := by
  obtain ⟨n, rfl⟩ : ∃ n, fuel = 2 + n := ⟨fuel - 2, by omega⟩
  simp only [distinct_nodes, List.map_cons, List.map_nil, List.nodup_cons, List.mem_cons,
    List.mem_singleton, List.not_mem_nil, not_or, not_false_eq_true, List.nodup_nil,
    and_true] at hd
  obtain ⟨⟨hab, hac, had⟩, ⟨hbc, hbd⟩, hcd⟩ := hd
  have e1 : (timer_event_unref (set_event_expire (timer_event_ref A) (clock 0))).1 =
      { A with expire := { tv_sec := s + 2, tv_usec := (clock 0).tv_usec } } := by
    cases A
    simp only [timer_event_unref, set_event_expire, timer_event_ref, atomic_inc,
      atomic_dec_and_test] at *
    subst hto href
    simp [hclk]
    omega
  have e2 : (timer_event_unref (set_event_expire (timer_event_ref A) (clock 0))).2 = false := by
    simp [timer_event_unref, set_event_expire, timer_event_ref, atomic_inc,
      atomic_dec_and_test, href]
  have e3 : __add_timer_event [B, C, D] (set_event_expire (timer_event_ref A) (clock 0)) =
      [B, set_event_expire (timer_event_ref A) (clock 0), C, D] := by
    have hx : (set_event_expire (timer_event_ref A) (clock 0)).expire.tv_sec = s + 2 := by
      simp [set_event_expire, timer_event_ref, hto, hclk]
      omega
    rw [add_cons_of_le _ _ _ (by rw [hx, hB]), add_front]
    intro x hx'
    simp only [List.mem_cons, List.mem_singleton, List.not_mem_nil, or_false] at hx'
    rcases hx' with rfl | rfl <;> omega
  have step1 := drain_step_fire now clock
    { event_list := [A, B, C, D], freed := m.freed, fired := [],
      sleeptv := { tv_sec := 1, tv_usec := 0 }, pos := some A.addr,
      reads := 0, status := walk.running } A.addr A rfl rfl (by simp [find_event])
    (by omega)
  simp only [e2, Bool.false_eq_true, if_false, List.nil_append] at step1
  rw [e1] at step1
  have hl : list_del A.addr [A, B, C, D] = [B, C, D] := by simp [list_del]
  have hn : next_of A.addr [A, B, C, D] = some B.addr := by simp [next_of]
  rw [hl, hn, e3] at step1
  have hst : store_event { A with expire := { tv_sec := s + 2, tv_usec := (clock 0).tv_usec } }
      [B, set_event_expire (timer_event_ref A) (clock 0), C, D] =
      [B, { A with expire := { tv_sec := s + 2, tv_usec := (clock 0).tv_usec } }, C, D] := by
    simp [store_event, set_event_expire, timer_event_ref, Ne.symm hab, Ne.symm hac, Ne.symm had]
  rw [hst] at step1
  have step2 := drain_step_break now clock
    { event_list := [B, { A with expire := { tv_sec := s + 2, tv_usec := (clock 0).tv_usec } }, C, D],
      freed := m.freed, fired := [timer_event_ref A],
      sleeptv := { tv_sec := 1, tv_usec := 0 }, pos := some B.addr,
      reads := 0 + 1, status := walk.running } B.addr B rfl rfl (by simp [find_event])
    (by omega)
  have hall : timer_queue_thread_cbk m now clock (2 + n) =
      { event_list := [B, { A with expire := { tv_sec := s + 2, tv_usec := (clock 0).tv_usec } }, C, D],
        freed := m.freed, fired := [timer_event_ref A],
        sleeptv := { tv_sec := B.expire.tv_sec - now.tv_sec, tv_usec := 0 },
        pos := some B.addr, reads := 0 + 1, status := walk.finished } := by
    rw [timer_queue_thread_cbk, drain_loop_add, hm]
    simp only [drain_loop, first_of, List.head?_cons, Option.map_some']
    rw [step1, step2, drain_loop_stopped _ _ _ _ (by simp)]
  rw [hall]
  refine ⟨rfl, ?_, rfl, rfl, ?_⟩
  · simp [timer_event_ref, atomic_inc, href]
  · simp only [hB, hnow]
    congr 1
    omega

/-- C3 at the demonstration: the store after the four calls at second 0 and the pass
at second 1. -/
theorem first_firing_main :
    (main_memory 0).timer.event_list =
      [main_event 1 0, main_event 2 0, main_event 3 0, main_event 4 0] ∧
    distinct_nodes [main_event 1 0, main_event 2 0, main_event 3 0, main_event 4 0] ∧
    (timer_queue_thread_cbk (main_memory 0) { tv_sec := 1, tv_usec := 0 }
      (clock_at 1) 2).fired = [{ main_event 1 0 with ref := 2 }] ∧
    (timer_queue_thread_cbk (main_memory 0) { tv_sec := 1, tv_usec := 0 }
      (clock_at 1) 2).event_list =
      [main_event 2 0, main_event 1 1, main_event 3 0, main_event 4 0] := by
  have h := first_firing 0 (main_event 1 0) (main_event 2 0) (main_event 3 0) (main_event 4 0)
    (main_memory 0) { tv_sec := 1, tv_usec := 0 } (clock_at 1) 2 (by decide) (by decide)
    (by decide) (by decide) (by decide) (by decide) (by decide) (by decide) (by decide)
    (by decide) (by decide)
  refine ⟨by decide, by decide, h.2.1, ?_⟩
  rw [h.2.2.1]
  decide

/-! ## Which events a pass calls -/

theorem drain_step_fired_mono (now : timeval) (clock : Nat → timeval) (s : drain_state)
    (x : timer_event) (h : x ∈ s.fired) : x ∈ (drain_step now clock s).fired := by
  rcases drain_step_cases now clock s with ⟨-, h1⟩ | ⟨-, -, h1⟩ | ⟨-, b, -, -, h1⟩ |
    ⟨-, b, ev, -, -, -, h1⟩ | ⟨-, b, ev, -, -, -, h1⟩ <;> rw [h1]
  · exact h
  · exact h
  · exact h
  · exact h
  · exact List.mem_append_left _ h

theorem drain_loop_fired_mono (now : timeval) (clock : Nat → timeval) (fuel : Nat)
    (s : drain_state) (x : timer_event) (h : x ∈ s.fired) :
    x ∈ (drain_loop now clock fuel s).fired :=
  drain_loop_invariant now clock (fun s => x ∈ s.fired)
    (fun s hs => drain_step_fired_mono now clock s x hs) fuel s h

/-- The write after the relinking meets the relinked record only. -/
theorem store_event_add (l : List timer_event) (e e' : timer_event)
    (ha : e'.addr = e.addr) (hsec : e'.expire.tv_sec = e.expire.tv_sec)
    (hl : ∀ x ∈ l, x.addr ≠ e.addr) :
    store_event e' (__add_timer_event l e) = __add_timer_event l e' := by
  obtain ⟨pre, post, h1, h2, h3, h4⟩ := add_split l e
  have hpre : ∀ x ∈ pre, x.addr ≠ e.addr := fun x hx => hl x (by rw [h1]; simp [hx])
  have hpost : ∀ x ∈ post, x.addr ≠ e.addr := fun x hx => hl x (by rw [h1]; simp [hx])
  have hmap : ∀ t : List timer_event, (∀ x ∈ t, x.addr ≠ e.addr) →
      t.map (fun x => if x.addr = e'.addr then e' else x) = t := by
    intro t ht
    induction t with
    | nil => rfl
    | cons y t ih =>
      have hy : y.addr ≠ e'.addr := by rw [ha]; exact ht y (by simp)
      simp [hy, ih (fun x hx => ht x (by simp [hx]))]
  have hstore : store_event e' (__add_timer_event l e) = pre ++ e' :: post := by
    rw [h2]
    unfold store_event
    rw [List.map_append, List.map_cons, hmap pre hpre, hmap post hpost]
    simp [ha]
  rw [hstore, add_eq_scan, h1]
  have hscan : scan_reverse e' (post.reverse ++ pre.reverse) =
      post.reverse ++ e' :: pre.reverse := by
    have hskip : ∀ (sk rest : List timer_event),
        (∀ x ∈ sk, e'.expire.tv_sec < x.expire.tv_sec) →
        (∀ x, rest.head? = some x → x.expire.tv_sec ≤ e'.expire.tv_sec) →
        scan_reverse e' (sk ++ rest) = sk ++ e' :: rest := by
      intro sk rest hsk hrest
      induction sk with
      | nil =>
        cases rest with
        | nil => rfl
        | cons y t =>
          have := hrest y rfl
          simp [scan_reverse, this]
      | cons y t ih =>
        have hy := hsk y (by simp)
        have : ¬ y.expire.tv_sec ≤ e'.expire.tv_sec := not_le.2 hy
        simp [scan_reverse, this, ih (fun x hx => hsk x (by simp [hx]))]
    apply hskip
    · intro x hx
      rw [hsec]
      exact h3 x (List.mem_reverse.1 hx)
    · intro x hx
      rw [hsec]
      apply h4
      simpa [List.getLast?_reverse] using hx
  rw [List.reverse_append, hscan]
  simp

theorem add_append_of_le (pre rest : List timer_event) (e : timer_event)
    (hle : ∀ x ∈ pre, x.expire.tv_sec ≤ e.expire.tv_sec) :
    __add_timer_event (pre ++ rest) e = pre ++ __add_timer_event rest e := by
  induction pre with
  | nil => rfl
  | cons y t ih =>
    rw [List.cons_append, add_cons_of_le y _ e (hle y (by simp)),
      ih (fun x hx => hle x (by simp [hx]))]
    rfl

theorem add_distinct (l : List timer_event) (e e' : timer_event)
    (hd : distinct_nodes (e :: l)) (ha : e'.addr = e.addr) :
    distinct_nodes (__add_timer_event l e') := by
  unfold distinct_nodes at *
  have hp := (add_perm l e').map timer_event.addr
  rw [List.map_cons, ha] at hp
  exact (List.Perm.nodup_iff hp).2 (by simpa using hd)

theorem first_of_append_cons (pre post post' : List timer_event) (e : timer_event) :
    first_of (pre ++ e :: post) = first_of (pre ++ e :: post') := by
  cases pre <;> rfl

/-- A due event with only due events in front of it is reached and called: every turn
calls the first entry and relinks it behind the event. -/
theorem drain_loop_reaches (now : timeval) (clock : Nat → timeval) (e : timer_event)
    (hdue : e.expire.tv_sec ≤ now.tv_sec) (hclk : ∀ k, now.tv_sec ≤ (clock k).tv_sec) :
    ∀ (pre post : List timer_event) (s : drain_state), s.status = walk.running →
      s.event_list = pre ++ e :: post → s.pos = first_of (pre ++ e :: post) →
      distinct_nodes (pre ++ e :: post) → (∀ x ∈ pre, x.expire.tv_sec ≤ now.tv_sec) →
      timer_event_ref e ∈ (drain_loop now clock (pre.length + 1) s).fired := by
  intro pre
  induction pre with
  | nil =>
    intro post s hs hl hp _ _
    have hf : find_event e.addr s.event_list = some e := by rw [hl]; simp [find_event]
    have hstep := drain_step_fire now clock s e.addr e hs (by rw [hp]; rfl) hf hdue
    simp only [List.length_nil, drain_loop, hstep]
    simp
  | cons h pre ih =>
    intro post s hs hl hp hd hpre
    have hhd : h.expire.tv_sec ≤ now.tv_sec := hpre h (by simp)
    have hf : find_event h.addr s.event_list = some h := by rw [hl]; simp [find_event]
    have hstep := drain_step_fire now clock s h.addr h hs (by rw [hp]; rfl) hf hhd
    have hdel : list_del h.addr s.event_list = pre ++ e :: post := by
      rw [hl]; simp [list_del]
    have hnext : next_of h.addr s.event_list = first_of (pre ++ e :: post) := by
      rw [hl]; simp [next_of, first_of]
    have hd' := hd
    unfold distinct_nodes at hd'
    rw [List.cons_append, List.map_cons, List.nodup_cons] at hd'
    have hother : ∀ x ∈ pre ++ e :: post,
        x.addr ≠ (set_event_expire (timer_event_ref h) (clock s.reads)).addr := by
      intro x hx hc
      exact hd'.1 (by
        have : x.addr = h.addr := hc
        rw [← this]
        exact List.mem_map_of_mem timer_event.addr hx)
    have hsec : now.tv_sec ≤
        (timer_event_unref (set_event_expire (timer_event_ref h) (clock s.reads))).1.expire.tv_sec := by
      have := hclk s.reads
      simp only [timer_event_unref, set_event_expire, timer_event_ref]
      omega
    rw [hdel, hnext, store_event_add (pre ++ e :: post)
      (set_event_expire (timer_event_ref h) (clock s.reads))
      (timer_event_unref (set_event_expire (timer_event_ref h) (clock s.reads))).1
      rfl rfl hother] at hstep
    have hle : ∀ x ∈ pre ++ [e], x.expire.tv_sec ≤
        (timer_event_unref (set_event_expire (timer_event_ref h) (clock s.reads))).1.expire.tv_sec := by
      intro x hx
      rcases List.mem_append.1 hx with hx | hx
      · exact le_trans (hpre x (by simp [hx])) hsec
      · simp only [List.mem_singleton] at hx
        rw [hx]
        exact le_trans hdue hsec
    have hsplit : pre ++ e :: post = (pre ++ [e]) ++ post := by simp
    have hadd := add_append_of_le (pre ++ [e]) post _ hle
    rw [← hsplit] at hadd
    have hdist := add_distinct (pre ++ e :: post) h
      (timer_event_unref (set_event_expire (timer_event_ref h) (clock s.reads))).1 hd rfl
    rw [hadd] at hstep hdist
    have hlist : (drain_step now clock s).event_list = pre ++ e ::
        __add_timer_event post
          (timer_event_unref (set_event_expire (timer_event_ref h) (clock s.reads))).1 := by
      rw [hstep]; simp
    have := ih _ (drain_step now clock s) (by rw [hstep]) hlist
      (by rw [hstep]; exact first_of_append_cons _ _ _ _)
      (by simpa using hdist) (fun x hx => hpre x (by simp [hx]))
    simpa [drain_loop] using this

/-- An event is called in a pass only if it was due when the pass began: every linked
record is the one from the beginning of the pass, or that one was due. -/
theorem drain_step_only_due (now : timeval) (clock : Nat → timeval) (l0 : List timer_event)
    (s : drain_state)
    (h : (∀ y ∈ s.event_list, ∃ o ∈ l0, o.addr = y.addr ∧
          (y.expire = o.expire ∨ o.expire.tv_sec ≤ now.tv_sec)) ∧
        (∀ x ∈ s.fired, ∃ o ∈ l0, o.addr = x.addr ∧ o.expire.tv_sec ≤ now.tv_sec)) :
    (∀ y ∈ (drain_step now clock s).event_list, ∃ o ∈ l0, o.addr = y.addr ∧
          (y.expire = o.expire ∨ o.expire.tv_sec ≤ now.tv_sec)) ∧
        (∀ x ∈ (drain_step now clock s).fired, ∃ o ∈ l0, o.addr = x.addr ∧
          o.expire.tv_sec ≤ now.tv_sec) := by
  rcases drain_step_cases now clock s with ⟨-, h1⟩ | ⟨-, -, h1⟩ | ⟨-, b, -, -, h1⟩ |
    ⟨-, b, ev, -, -, -, h1⟩ | ⟨-, b, ev, -, hf, hdue, h1⟩
  · rw [h1]; exact h
  · rw [h1]; exact h
  · rw [h1]; exact h
  · rw [h1]; exact h
  · rw [h1]
    obtain ⟨o, ho, hoa, hoe⟩ := h.1 ev (find_event_some hf).1
    have hod : o.expire.tv_sec ≤ now.tv_sec := by
      rcases hoe with hoe | hoe
      · rw [← hoe]; exact hdue
      · exact hoe
    constructor
    · intro y hy
      rcases mem_after_fire hy with hy | hy
      · exact ⟨o, ho, by rw [hoa, hy], Or.inr hod⟩
      · exact h.1 y hy
    · intro x hx
      rcases List.mem_append.1 hx with hx | hx
      · exact h.2 x hx
      · simp only [List.mem_singleton] at hx
        exact ⟨o, ho, by rw [hoa, hx]; rfl, hod⟩

theorem same_node_eq {l : List timer_event} (hd : distinct_nodes l) {a b : timer_event}
    (ha : a ∈ l) (hb : b ∈ l) (h : a.addr = b.addr) : a = b := by
  have h1 := find_event_of_mem hd ha
  have h2 := find_event_of_mem hd hb
  rw [h] at h1
  rw [h1] at h2
  exact Option.some.inj h2

/-- C9: for every sorted store of distinct nodes, every pass time `now` and every
clock whose readings during the pass are not before `now`: (1) every event of the
store with `expire.tv_sec <= now.tv_sec` has its callback invoked in the pass, within as
many turns of the walk as the store has events; (2) an event of the store whose
callback is invoked in the pass had `expire.tv_sec <= now.tv_sec` when the pass began;
(3) an event added with timeout 0 at a clock reading not after `now` (its expiry is
that reading) has its callback invoked in the pass that follows. -/
theorem due_events_are_called (m : Memory) (now : timeval) (clock : Nat → timeval)
    (hs : sorted_by_sec m.timer.event_list) (hd : distinct_nodes m.timer.event_list)
    (hclk : ∀ k, now.tv_sec ≤ (clock k).tv_sec) :
    (∀ e ∈ m.timer.event_list, e.expire.tv_sec ≤ now.tv_sec →
      ∀ fuel, m.timer.event_list.length ≤ fuel →
        timer_event_ref e ∈ (timer_queue_thread_cbk m now clock fuel).fired) ∧
    (∀ e ∈ m.timer.event_list, ∀ fuel,
      (∃ x ∈ (timer_queue_thread_cbk m now clock fuel).fired, x.addr = e.addr) →
        e.expire.tv_sec ≤ now.tv_sec) ∧
    (∀ (f data a : Nat) (tv : timeval), a ∉ m.timer.event_list.map timer_event.addr →
      tv.tv_sec ≤ now.tv_sec → ∀ fuel, m.timer.event_list.length + 1 ≤ fuel →
        (new_event a 0 f data tv).expire = tv ∧
        timer_event_ref (new_event a 0 f data tv) ∈
          (timer_queue_thread_cbk
            (add_timer_event m queue_ptr.valid 0 (some f) data (some a) tv).1
            now clock fuel).fired) := by
  have live : ∀ (m : Memory), sorted_by_sec m.timer.event_list →
      distinct_nodes m.timer.event_list → ∀ e ∈ m.timer.event_list,
      e.expire.tv_sec ≤ now.tv_sec → ∀ fuel, m.timer.event_list.length ≤ fuel →
        timer_event_ref e ∈ (timer_queue_thread_cbk m now clock fuel).fired := by
    intro m hs hd e he hdue fuel hfuel
    obtain ⟨pre, post, hl⟩ := List.append_of_mem he
    have hpre : ∀ x ∈ pre, x.expire.tv_sec ≤ now.tv_sec := by
      intro x hx
      unfold sorted_by_sec at hs
      rw [hl, List.pairwise_append] at hs
      exact le_trans (hs.2.2 x hx e (by simp)) hdue
    have hlen : m.timer.event_list.length = (pre.length + 1) + post.length := by
      rw [hl]; simp; omega
    obtain ⟨n, rfl⟩ : ∃ n, fuel = (pre.length + 1) + n := ⟨fuel - (pre.length + 1), by omega⟩
    rw [timer_queue_thread_cbk, drain_loop_add]
    apply drain_loop_fired_mono
    exact drain_loop_reaches now clock e hdue hclk pre post _ rfl hl (by rw [hl])
      (by rw [← hl]; exact hd) hpre
  refine ⟨live m hs hd, ?_, ?_⟩
  · intro e he fuel ⟨x, hx, hxa⟩
    have inv := drain_loop_invariant now clock _
      (drain_step_only_due now clock m.timer.event_list) fuel
      { event_list := m.timer.event_list, freed := m.freed, fired := [],
        sleeptv := { tv_sec := 1, tv_usec := 0 }, pos := first_of m.timer.event_list,
        reads := 0, status := walk.running }
      ⟨fun y hy => ⟨y, hy, rfl, Or.inl rfl⟩, by simp⟩
    obtain ⟨o, ho, hoa, hod⟩ := inv.2 x hx
    have : o = e := same_node_eq hd ho he (by rw [hoa, hxa])
    rw [← this]
    exact hod
  · intro f data a tv ha htv fuel hfuel
    have hexp : (new_event a 0 f data tv).expire = tv := by
      simp [new_event, set_event_expire]
    refine ⟨hexp, ?_⟩
    have hlist : (add_timer_event m queue_ptr.valid 0 (some f) data (some a) tv).1.timer.event_list =
        __add_timer_event m.timer.event_list (new_event a 0 f data tv) := rfl
    apply live
    · rw [hlist]; exact add_sorted _ _ hs
    · rw [hlist]
      apply add_distinct m.timer.event_list (new_event a 0 f data tv) _ _ rfl
      unfold distinct_nodes at *
      rw [List.map_cons, List.nodup_cons]
      exact ⟨ha, hd⟩
    · rw [hlist]; exact (mem_add _ _ _).2 (Or.inl rfl)
    · rw [hexp]; exact htv
    · rw [hlist, (add_perm _ _).length_eq]
      simpa using hfuel

/-- C9 with the two timers A and B: an event added with timeout 0 at second 1 is
called by the pass at second 1. -/
theorem due_events_are_called_two_timers :
    sorted_by_sec two_timers.timer.event_list ∧
    distinct_nodes two_timers.timer.event_list ∧
    (∀ k, (1 : Int) ≤ (clock_at 1 k).tv_sec) ∧
    timer_event_ref (new_event 9 0 7 0 { tv_sec := 1, tv_usec := 0 }) ∈
      (timer_queue_thread_cbk
        (add_timer_event two_timers queue_ptr.valid 0 (some 7) 0 (some 9)
          { tv_sec := 1, tv_usec := 0 }).1
        { tv_sec := 1, tv_usec := 0 } (clock_at 1) 3).fired :=
  ⟨by decide, by decide, fun _ => le_refl _,
    ((due_events_are_called two_timers { tv_sec := 1, tv_usec := 0 } (clock_at 1)
      (by decide) (by decide) (fun _ => le_refl _)).2.2 7 0 9 { tv_sec := 1, tv_usec := 0 }
      (by decide) (by decide) 3 (by decide)).2⟩

/-! ## Sortedness under every mutation -/

theorem sorted_head_earliest (l : List timer_event) (h : sorted_by_sec l) :
    head_is_earliest l := by
  cases l with
  | nil => trivial
  | cons a t =>
    intro x hx
    rcases List.mem_cons.1 hx with rfl | hx
    · exact le_refl _
    · exact (List.pairwise_cons.1 h).1 x hx

theorem list_del_avoids {a : Nat} {l : List timer_event} (hd : distinct_nodes l) :
    ∀ x ∈ list_del a l, x.addr ≠ a := by
  intro x hx
  rw [list_del_eq_filter hd] at hx
  simpa using (List.mem_filter.1 hx).2

theorem distinct_cons_list_del {a : Nat} {l : List timer_event} {ev : timer_event}
    (hd : distinct_nodes l) (hf : find_event a l = some ev) :
    distinct_nodes (ev :: list_del a l) := by
  obtain ⟨hmem, haddr⟩ := find_event_some hf
  subst haddr
  have hp := (list_del_perm hd hmem).map timer_event.addr
  unfold distinct_nodes at *
  exact (List.Perm.nodup_iff hp).1 hd

/-- The list after a firing turn: the store without the node, with the re-armed
record linked in order. -/
theorem fire_list_eq {a : Nat} {l : List timer_event} {ev : timer_event} (tv : timeval)
    (hd : distinct_nodes l) (hf : find_event a l = some ev) :
    store_event (timer_event_unref (set_event_expire (timer_event_ref ev) tv)).1
        (__add_timer_event (list_del a l) (set_event_expire (timer_event_ref ev) tv)) =
      __add_timer_event (list_del a l)
        (timer_event_unref (set_event_expire (timer_event_ref ev) tv)).1 := by
  have haddr := (find_event_some hf).2
  refine store_event_add (list_del a l) (set_event_expire (timer_event_ref ev) tv)
    (timer_event_unref (set_event_expire (timer_event_ref ev) tv)).1 rfl rfl ?_
  intro x hx
  have := list_del_avoids hd x hx
  intro hc
  exact this (hc.trans haddr)

/-- A turn of the walk keeps the store sorted by seconds and its nodes distinct. -/
theorem drain_step_sorted (now : timeval) (clock : Nat → timeval) (s : drain_state)
    (h : sorted_by_sec s.event_list ∧ distinct_nodes s.event_list) :
    sorted_by_sec (drain_step now clock s).event_list ∧
      distinct_nodes (drain_step now clock s).event_list := by
  rcases drain_step_cases now clock s with ⟨-, h1⟩ | ⟨-, -, h1⟩ | ⟨-, b, -, -, h1⟩ |
    ⟨-, b, ev, -, -, -, h1⟩ | ⟨-, b, ev, -, hf, -, h1⟩
  · rw [h1]; exact h
  · rw [h1]; exact h
  · rw [h1]; exact h
  · rw [h1]; exact h
  · rw [h1]
    simp only
    rw [fire_list_eq _ h.2 hf]
    exact ⟨add_sorted _ _ (list_del_sorted h.1),
      add_distinct _ ev _ (distinct_cons_list_del h.2 hf) rfl⟩

theorem pass_sorted (m : Memory) (now : timeval) (clock : Nat → timeval) (fuel : Nat)
    (hs : sorted_by_sec m.timer.event_list) (hd : distinct_nodes m.timer.event_list) :
    sorted_by_sec (timer_queue_thread_cbk m now clock fuel).event_list ∧
      distinct_nodes (timer_queue_thread_cbk m now clock fuel).event_list :=
  drain_loop_invariant now clock
    (fun s => sorted_by_sec s.event_list ∧ distinct_nodes s.event_list)
    (drain_step_sorted now clock) fuel _ ⟨hs, hd⟩

theorem add_timer_event_sorted (m : Memory) (c : add_call)
    (hs : sorted_by_sec m.timer.event_list) :
    sorted_by_sec
      (add_timer_event m c.timer c.timeout c.fn c.data c.malloc c.tv).1.timer.event_list := by
  rw [add_timer_event_list]
  exact foldl_add_sorted _ _ hs

theorem delete_timer_event_list (m : Memory) (e : timer_event)
    (hd : distinct_nodes m.timer.event_list) (he : e ∈ m.timer.event_list) :
    ∃ m', delete_timer_event m queue_ptr.valid (some e.addr) = some m' ∧
      m'.timer.event_list = list_del e.addr m.timer.event_list := by
  have hf := find_event_of_mem hd he
  refine ⟨unref_detached { m with timer := { m.timer with
      event_list := list_del e.addr m.timer.event_list } } e,
    by simp only [delete_timer_event, hf], ?_⟩
  unfold unref_detached
  split <;> rfl

theorem set_timer_event_timeout_list (m : Memory) (e : timer_event) (t : Nat) (tv : timeval)
    (hd : distinct_nodes m.timer.event_list) (he : e ∈ m.timer.event_list) :
    ∃ m', set_timer_event_timeout m queue_ptr.valid (some e.addr) t tv = some m' ∧
      m'.timer.event_list = __add_timer_event (list_del e.addr m.timer.event_list)
        (set_event_expire { e with timeout := t } tv) := by
  have hf := find_event_of_mem hd he
  exact ⟨{ m with timer := { m.timer with
      event_list := __add_timer_event (list_del e.addr m.timer.event_list)
        (set_event_expire { e with timeout := t } tv) } },
    by simp only [set_timer_event_timeout, hf], rfl⟩

/-- C12: for every store of distinct nodes that is sorted by `expire.tv_sec`, the
store is still sorted by `expire.tv_sec`, and its head has the smallest expiry second,
after `add_timer_event` (any arguments), after `delete_timer_event` of a linked event,
after `set_timer_event_timeout` of a linked event with any timeout and clock reading,
and after a worker pass at any `now`, with any clock readings, cut off after any
number of turns (so also after a complete pass). -/
theorem sorted_after_every_mutation (m : Memory)
    (hs : sorted_by_sec m.timer.event_list) (hd : distinct_nodes m.timer.event_list) :
    head_is_earliest m.timer.event_list ∧
    (∀ c : add_call,
      sorted_by_sec
        (add_timer_event m c.timer c.timeout c.fn c.data c.malloc c.tv).1.timer.event_list ∧
      head_is_earliest
        (add_timer_event m c.timer c.timeout c.fn c.data c.malloc c.tv).1.timer.event_list) ∧
    (∀ e ∈ m.timer.event_list,
      ∃ m', delete_timer_event m queue_ptr.valid (some e.addr) = some m' ∧
        sorted_by_sec m'.timer.event_list ∧ head_is_earliest m'.timer.event_list) ∧
    (∀ e ∈ m.timer.event_list, ∀ (t : Nat) (tv : timeval),
      ∃ m', set_timer_event_timeout m queue_ptr.valid (some e.addr) t tv = some m' ∧
        sorted_by_sec m'.timer.event_list ∧ head_is_earliest m'.timer.event_list) ∧
    (∀ (now : timeval) (clock : Nat → timeval) (fuel : Nat),
      sorted_by_sec (timer_queue_thread_cbk m now clock fuel).event_list ∧
      head_is_earliest (timer_queue_thread_cbk m now clock fuel).event_list) := by
  refine ⟨sorted_head_earliest _ hs, ?_, ?_, ?_, ?_⟩
  · intro c
    have := add_timer_event_sorted m c hs
    exact ⟨this, sorted_head_earliest _ this⟩
  · intro e he
    obtain ⟨m', h1, h2⟩ := delete_timer_event_list m e hd he
    have : sorted_by_sec m'.timer.event_list := by rw [h2]; exact list_del_sorted hs
    exact ⟨m', h1, this, sorted_head_earliest _ this⟩
  · intro e he t tv
    obtain ⟨m', h1, h2⟩ := set_timer_event_timeout_list m e t tv hd he
    have : sorted_by_sec m'.timer.event_list := by
      rw [h2]; exact add_sorted _ _ (list_del_sorted hs)
    exact ⟨m', h1, this, sorted_head_earliest _ this⟩
  · intro now clock fuel
    have := (pass_sorted m now clock fuel hs hd).1
    exact ⟨this, sorted_head_earliest _ this⟩

/-- C12 at the demonstration's store: the pass at second 1 leaves [B, A, C, D] with
expiry seconds 2, 2, 3, 4. -/
theorem sorted_after_every_mutation_main :
    sorted_by_sec (main_memory 0).timer.event_list ∧
    distinct_nodes (main_memory 0).timer.event_list ∧
    sorted_by_sec (timer_queue_thread_cbk (main_memory 0) { tv_sec := 1, tv_usec := 0 }
      (clock_at 1) 2).event_list ∧
    (timer_queue_thread_cbk (main_memory 0) { tv_sec := 1, tv_usec := 0 }
      (clock_at 1) 2).event_list.map (fun e => (e.addr, e.expire.tv_sec)) =
      [(2, 2), (1, 2), (3, 3), (4, 4)] :=
  ⟨by decide, by decide,
    ((sorted_after_every_mutation (main_memory 0) (by decide) (by decide)).2.2.2.2
      { tv_sec := 1, tv_usec := 0 } (clock_at 1) 2).1, by decide⟩

/-! ## Reachable states -/

/-- A turn of the walk on a store whose events all have reference count 1: the count
is 2 in the logged call and 1 again in the relinked record, nothing is freed. -/
theorem drain_step_refs (now : timeval) (clock : Nat → timeval) (F : List timer_event)
    (s : drain_state)
    (h : distinct_nodes s.event_list ∧
      (∀ e ∈ s.event_list, e.ref = 1 ∧ e.addr ∉ F.map timer_event.addr) ∧
      s.freed = F ∧ (∀ x ∈ s.fired, x.ref = 2)) :
    distinct_nodes (drain_step now clock s).event_list ∧
      (∀ e ∈ (drain_step now clock s).event_list,
        e.ref = 1 ∧ e.addr ∉ F.map timer_event.addr) ∧
      (drain_step now clock s).freed = F ∧ (∀ x ∈ (drain_step now clock s).fired, x.ref = 2) := by
  rcases drain_step_cases now clock s with ⟨-, h1⟩ | ⟨-, -, h1⟩ | ⟨-, b, -, -, h1⟩ |
    ⟨-, b, ev, -, -, -, h1⟩ | ⟨-, b, ev, -, hf, -, h1⟩
  · rw [h1]; exact h
  · rw [h1]; exact h
  · rw [h1]; exact h
  · rw [h1]; exact h
  · obtain ⟨hd, hl, hfr, hfi⟩ := h
    obtain ⟨hmem, haddr⟩ := find_event_some hf
    obtain ⟨hr, hnf⟩ := hl ev hmem
    have hfree : (timer_event_unref (set_event_expire (timer_event_ref ev) (clock s.reads))).2 =
        false := by
      simp [timer_event_unref, set_event_expire, timer_event_ref, atomic_inc,
        atomic_dec_and_test, hr]
    rw [h1]
    simp only [hfree, Bool.false_eq_true, if_false]
    rw [fire_list_eq _ hd hf]
    refine ⟨add_distinct _ ev _ (distinct_cons_list_del hd hf) rfl, ?_, hfr, ?_⟩
    · intro e he
      rcases (mem_add _ _ _).1 he with rfl | he
      · refine ⟨?_, hnf⟩
        simp [timer_event_unref, set_event_expire, timer_event_ref, atomic_inc,
          atomic_dec_and_test, hr]
      · exact hl e (mem_list_del he)
    · intro x hx
      rcases List.mem_append.1 hx with hx | hx
      · exact hfi x hx
      · simp only [List.mem_singleton] at hx
        rw [hx]
        simp [timer_event_ref, atomic_inc, hr]

theorem pass_refs (m : Memory) (now : timeval) (clock : Nat → timeval) (fuel : Nat)
    (hd : distinct_nodes m.timer.event_list)
    (hl : ∀ e ∈ m.timer.event_list, e.ref = 1 ∧ e.addr ∉ m.freed.map timer_event.addr) :
    distinct_nodes (timer_queue_thread_cbk m now clock fuel).event_list ∧
      (∀ e ∈ (timer_queue_thread_cbk m now clock fuel).event_list,
        e.ref = 1 ∧ e.addr ∉ m.freed.map timer_event.addr) ∧
      (timer_queue_thread_cbk m now clock fuel).freed = m.freed ∧
      (∀ x ∈ (timer_queue_thread_cbk m now clock fuel).fired, x.ref = 2) :=
  drain_loop_invariant now clock _ (drain_step_refs now clock m.freed) fuel _
    ⟨hd, hl, rfl, by simp⟩

/-- What holds in every reachable state: the nodes of the store are distinct, the
store is sorted by seconds, every linked event has reference count 1 and was not
freed, and no event is unlinked without having been freed. -/
theorem reachable_invariant (m : Memory) (h : reachable m) :
    distinct_nodes m.timer.event_list ∧ sorted_by_sec m.timer.event_list ∧
      (∀ e ∈ m.timer.event_list, e.ref = 1 ∧ e.addr ∉ m.freed.map timer_event.addr) ∧
      m.detached = [] := by
  induction h with
  | init =>
    exact ⟨by simp [distinct_nodes, init_timer_queue], List.Pairwise.nil, by
      intro e he; simp [init_timer_queue] at he, rfl⟩
  | add m c _ hfresh ih =>
    obtain ⟨hd, hs, hl, hdet⟩ := ih
    rcases add_timer_event_cases m c.timer c.timeout c.fn c.data c.malloc c.tv with
      ⟨-, h'⟩ | ⟨f, a, -, -, hma, h'⟩
    · rw [h']; exact ⟨hd, hs, hl, hdet⟩
    · rw [h']
      obtain ⟨hf1, -, hf3⟩ := hfresh a hma
      refine ⟨?_, add_sorted _ _ hs, ?_, hdet⟩
      · apply add_distinct m.timer.event_list (new_event a c.timeout f c.data c.tv) _ _ rfl
        unfold distinct_nodes at *
        rw [List.map_cons, List.nodup_cons]
        exact ⟨hf1, hd⟩
      · intro e he
        rcases (mem_add _ _ _).1 he with rfl | he
        · exact ⟨rfl, hf3⟩
        · exact hl e he
  | delete m m' timer event _ hdel ih =>
    obtain ⟨hd, hs, hl, hdet⟩ := ih
    cases timer with
    | NULL =>
      simp only [delete_timer_event, Option.some.injEq] at hdel
      rw [← hdel]; exact ⟨hd, hs, hl, hdet⟩
    | valid =>
      cases event with
      | none =>
        simp only [delete_timer_event, Option.some.injEq] at hdel
        rw [← hdel]; exact ⟨hd, hs, hl, hdet⟩
      | some a =>
        rcases Option.eq_none_or_eq_some (find_event a m.timer.event_list) with hf | ⟨e, hf⟩
        · simp [delete_timer_event, hf] at hdel
        · obtain ⟨hmem, haddr⟩ := find_event_some hf
          obtain ⟨hr, hnf⟩ := hl e hmem
          simp only [delete_timer_event, hf, Option.some.injEq] at hdel
          rw [← hdel]
          simp only [unref_detached, timer_event_unref, atomic_dec_and_test, hr, sub_self,
            decide_True, if_true]
          refine ⟨list_del_distinct hd, list_del_sorted hs, ?_, hdet⟩
          intro x hx
          refine ⟨(hl x (mem_list_del hx)).1, ?_⟩
          have hxa := list_del_avoids hd x hx
          have hxf := (hl x (mem_list_del hx)).2
          simp only [List.map_append, List.map_cons, List.map_nil, List.mem_append,
            List.mem_singleton, not_or]
          exact ⟨hxf, fun hc => hxa (hc.trans haddr)⟩
  | set_timeout m m' timer event timeout tv _ hset ih =>
    obtain ⟨hd, hs, hl, hdet⟩ := ih
    cases event with
    | none =>
      simp only [set_timer_event_timeout, Option.some.injEq] at hset
      rw [← hset]; exact ⟨hd, hs, hl, hdet⟩
    | some a =>
      cases timer with
      | NULL =>
        simp only [set_timer_event_timeout, Option.some.injEq] at hset
        rw [← hset]; exact ⟨hd, hs, hl, hdet⟩
      | valid =>
        rcases Option.eq_none_or_eq_some (find_event a m.timer.event_list) with hf | ⟨e, hf⟩
        · simp [set_timer_event_timeout, hf] at hset
        · obtain ⟨hmem, haddr⟩ := find_event_some hf
          simp only [set_timer_event_timeout, hf, Option.some.injEq] at hset
          rw [← hset]
          refine ⟨add_distinct _ e _ (distinct_cons_list_del hd hf) rfl,
            add_sorted _ _ (list_del_sorted hs), ?_, hdet⟩
          intro x hx
          rcases (mem_add _ _ _).1 hx with rfl | hx
          · exact hl e hmem
          · exact hl x (mem_list_del hx)
  | pass m p _ ih =>
    obtain ⟨hd, hs, hl, hdet⟩ := ih
    obtain ⟨h1, h2, h3, -⟩ := pass_refs m p.now p.clock p.fuel hd hl
    refine ⟨h1, (pass_sorted m p.now p.clock p.fuel hs hd).1, ?_, hdet⟩
    intro e he
    have := h2 e he
    simp only [run_pass]
    rw [h3]
    exact this

theorem reachable_same_second : reachable same_second := by
  have h1 := reachable.add init_timer_queue
    { timer := queue_ptr.valid, timeout := 1, fn := some 7, data := 101, malloc := some 1,
      tv := { tv_sec := 0, tv_usec := 900000 } } reachable.init
    (by intro a ha; simp only [Option.some.injEq] at ha; subst ha; decide)
  exact reachable.add _
    { timer := queue_ptr.valid, timeout := 0, fn := some 7, data := 102, malloc := some 2,
      tv := { tv_sec := 1, tv_usec := 100000 } } h1
    (by intro a ha; simp only [Option.some.injEq] at ha; subst ha; decide)

/-- C11 fails as stated: A is scheduled with timeout 1 at 0 s 900000 us and B with
timeout 0 at 1 s 100000 us.  Both expire in second 1, B is linked behind A, and the
store [A, B] is not sorted by the full timestamp: the head A expires at 1 s 900000 us,
later than B at 1 s 100000 us. -/
theorem full_timestamp_order_fails :
    same_second.timer.event_list.map (fun e => (e.addr, e.expire.tv_sec, e.expire.tv_usec)) =
      [(1, 1, 900000), (2, 1, 100000)] ∧
    ¬ sorted_by_expire same_second.timer.event_list ∧
    ¬ (∀ h ∈ same_second.timer.event_list.head?, ∀ x ∈ same_second.timer.event_list,
        timeval_le h.expire x.expire) := by
  decide

/-- C11, as the code has it: the expiry is compared by its seconds only.  In every
state reached from the empty queue by schedule and reschedule calls (and by cancel
calls and worker passes), for all clock readings and timeouts, the store is sorted
by non-decreasing `expire.tv_sec`, hence by the full timestamp except between events
that expire in the same second, and the head has the smallest expiry second. -/
theorem sorted_by_second_when_reachable (m : Memory) (h : reachable m) :
    sorted_by_sec m.timer.event_list ∧
    m.timer.event_list.Pairwise
      (fun a b => timeval_le a.expire b.expire ∨ a.expire.tv_sec = b.expire.tv_sec) ∧
    head_is_earliest m.timer.event_list := by
  have hs := (reachable_invariant m h).2.1
  refine ⟨hs, ?_, sorted_head_earliest _ hs⟩
  refine List.Pairwise.imp ?_ hs
  intro a b hab
  rcases lt_or_eq_of_le hab with hlt | heq
  · exact Or.inl (Or.inl hlt)
  · exact Or.inr heq

/-- C11 at the two events of one second: the store [A, B] is sorted by seconds. -/
theorem sorted_by_second_same_second :
    reachable same_second ∧ sorted_by_sec same_second.timer.event_list ∧
    head_is_earliest same_second.timer.event_list :=
  ⟨reachable_same_second,
    (sorted_by_second_when_reachable same_second reachable_same_second).1,
    (sorted_by_second_when_reachable same_second reachable_same_second).2.2⟩

theorem reachable_main_memory : reachable (main_memory 0) := by
  have h1 := reachable.add init_timer_queue
    { timer := queue_ptr.valid, timeout := 1, fn := some 7, data := 101, malloc := some 1,
      tv := { tv_sec := 0, tv_usec := 0 } } reachable.init
    (by intro a ha; simp only [Option.some.injEq] at ha; subst ha; decide)
  have h2 := reachable.add _
    { timer := queue_ptr.valid, timeout := 2, fn := some 7, data := 102, malloc := some 2,
      tv := { tv_sec := 0, tv_usec := 0 } } h1
    (by intro a ha; simp only [Option.some.injEq] at ha; subst ha; decide)
  have h3 := reachable.add _
    { timer := queue_ptr.valid, timeout := 3, fn := some 7, data := 103, malloc := some 3,
      tv := { tv_sec := 0, tv_usec := 0 } } h2
    (by intro a ha; simp only [Option.some.injEq] at ha; subst ha; decide)
  exact reachable.add _
    { timer := queue_ptr.valid, timeout := 4, fn := some 7, data := 104, malloc := some 4,
      tv := { tv_sec := 0, tv_usec := 0 } } h3
    (by intro a ha; simp only [Option.some.injEq] at ha; subst ha; decide)

/-- C15: in every state reachable from the empty queue by `add_timer_event`,
`delete_timer_event`, `set_timer_event_timeout` and worker passes (callbacks do not
touch the queue), every linked event has reference count 1 and was not freed, and the
nodes are distinct.  From such a state a worker pass, after any number of turns, has
freed nothing, has logged every callback with the count at 2 and has every linked
event back at count 1; `add_timer_event` and `set_timer_event_timeout` free nothing;
`delete_timer_event` of a linked event frees exactly that event, with its count at 0,
after unlinking it. -/
theorem refcount_invariant (m : Memory) (h : reachable m) :
    (∀ e ∈ m.timer.event_list, e.ref = 1 ∧ e.addr ∉ m.freed.map timer_event.addr) ∧
    distinct_nodes m.timer.event_list ∧ m.detached = [] ∧
    (∀ (now : timeval) (clock : Nat → timeval) (fuel : Nat),
      (timer_queue_thread_cbk m now clock fuel).freed = m.freed ∧
      (∀ x ∈ (timer_queue_thread_cbk m now clock fuel).fired, x.ref = 2) ∧
      (∀ e ∈ (timer_queue_thread_cbk m now clock fuel).event_list, e.ref = 1)) ∧
    (∀ c : add_call,
      (add_timer_event m c.timer c.timeout c.fn c.data c.malloc c.tv).1.freed = m.freed) ∧
    (∀ e ∈ m.timer.event_list, ∀ (t : Nat) (tv : timeval),
      ∃ m', set_timer_event_timeout m queue_ptr.valid (some e.addr) t tv = some m' ∧
        m'.freed = m.freed) ∧
    (∀ e ∈ m.timer.event_list,
      ∃ m', delete_timer_event m queue_ptr.valid (some e.addr) = some m' ∧
        m'.freed = m.freed ++ [{ e with ref := 0 }] ∧
        ∀ x ∈ m'.timer.event_list, x.addr ≠ e.addr) := by
  obtain ⟨hd, -, hl, hdet⟩ := reachable_invariant m h
  refine ⟨hl, hd, hdet, ?_, ?_, ?_, ?_⟩
  · intro now clock fuel
    obtain ⟨-, h2, h3, h4⟩ := pass_refs m now clock fuel hd hl
    exact ⟨h3, h4, fun e he => (h2 e he).1⟩
  · intro c
    rcases add_timer_event_cases m c.timer c.timeout c.fn c.data c.malloc c.tv with
      ⟨-, h'⟩ | ⟨f, a, -, -, -, h'⟩ <;> rw [h']
  · intro e he t tv
    have hf := find_event_of_mem hd he
    exact ⟨{ m with timer := { m.timer with
        event_list := __add_timer_event (list_del e.addr m.timer.event_list)
          (set_event_expire { e with timeout := t } tv) } },
      by simp only [set_timer_event_timeout, hf], rfl⟩
  · intro e he
    have hf := find_event_of_mem hd he
    have hr := (hl e he).1
    refine ⟨{ m with
        timer := { m.timer with event_list := list_del e.addr m.timer.event_list }
        freed := m.freed ++ [{ e with ref := 0 }] }, ?_, rfl, ?_⟩
    · simp [delete_timer_event, hf, unref_detached, timer_event_unref, atomic_dec_and_test, hr]
    · exact list_del_avoids hd

/-- C15 at the demonstration's store: its four events have count 1, and the pass at
second 1 logs A's callback with count 2 and frees nothing. -/
theorem refcount_invariant_main :
    reachable (main_memory 0) ∧
    (main_memory 0).timer.event_list.map (fun e => (e.addr, e.ref)) =
      [(1, 1), (2, 1), (3, 1), (4, 1)] ∧
    (timer_queue_thread_cbk (main_memory 0) { tv_sec := 1, tv_usec := 0 }
      (clock_at 1) 2).freed = (main_memory 0).freed ∧
    (timer_queue_thread_cbk (main_memory 0) { tv_sec := 1, tv_usec := 0 }
      (clock_at 1) 2).fired.map (fun e => (e.addr, e.ref)) = [(1, 2)] :=
  ⟨reachable_main_memory, by decide,
    ((refcount_invariant (main_memory 0) reachable_main_memory).2.2.2.1
      { tv_sec := 1, tv_usec := 0 } (clock_at 1) 2).1, by decide⟩

/-! ## Expiry and timeout -/

/-- The record a firing turn relinks: only `expire` differs from the record it found. -/
theorem rearm_eq (ev : timer_event) (tv : timeval) :
    (timer_event_unref (set_event_expire (timer_event_ref ev) tv)).1 =
      { ev with expire := { tv_sec := tv.tv_sec + (ev.timeout : Int), tv_usec := tv.tv_usec } } := by
  cases ev
  simp [timer_event_unref, set_event_expire, timer_event_ref, atomic_inc, atomic_dec_and_test]

theorem mem_list_del_of_ne {a : Nat} {l : List timer_event} {x : timer_event}
    (hx : x ∈ l) (hne : x.addr ≠ a) : x ∈ list_del a l := by
  induction l with
  | nil => cases hx
  | cons y t ih =>
    by_cases hy : y.addr = a
    · rcases List.mem_cons.1 hx with rfl | hx
      · exact absurd hy hne
      · simpa [list_del, hy] using hx
    · simp only [list_del, hy, if_false]
      rcases List.mem_cons.1 hx with rfl | hx
      · simp
      · exact List.mem_cons_of_mem _ (ih hx)

/-- C14: for every store of distinct nodes.  (1) `add_timer_event` with timeout `t` at
clock reading `tv` returns an event with `ref = 1`, the given callback and argument,
`timeout = t` and `expire = (tv.tv_sec + t, tv.tv_usec)`, and leaves the linked events
as they are.  (2) `set_timer_event_timeout` of a linked event `e` with timeout `t` at
reading `tv` leaves `e` with `timeout = t` and `expire = (tv.tv_sec + t, tv.tv_usec)`
and the other events as they are.  (3) A turn of the worker that fires `ev` at reading
`clock reads` leaves `ev` with its timeout and all other fields and with
`expire = (reading.tv_sec + ev.timeout, reading.tv_usec)`, and the other events as they
are.  (4) `delete_timer_event` leaves the remaining events as they are and frees the
event with its `expire` and `timeout`; a turn of the worker that fires nothing leaves
the store as it is. -/
theorem expire_is_armed_time_plus_timeout (m : Memory)
    (hd : distinct_nodes m.timer.event_list) :
    (∀ (t f data a : Nat) (tv : timeval),
      (add_timer_event m queue_ptr.valid t (some f) data (some a) tv).2 =
        some { addr := a, expire := { tv_sec := tv.tv_sec + (t : Int), tv_usec := tv.tv_usec },
               timeout := t, fn := f, data := data, ref := 1 } ∧
      ∀ x ∈ m.timer.event_list,
        x ∈ (add_timer_event m queue_ptr.valid t (some f) data (some a) tv).1.timer.event_list) ∧
    (∀ e ∈ m.timer.event_list, ∀ (t : Nat) (tv : timeval),
      ∃ m', set_timer_event_timeout m queue_ptr.valid (some e.addr) t tv = some m' ∧
        find_event e.addr m'.timer.event_list =
          some { e with timeout := t,
                        expire := { tv_sec := tv.tv_sec + (t : Int), tv_usec := tv.tv_usec } } ∧
        ∀ x ∈ m.timer.event_list, x.addr ≠ e.addr → x ∈ m'.timer.event_list) ∧
    (∀ (now : timeval) (clock : Nat → timeval) (s : drain_state) (ev : timer_event),
      s.event_list = m.timer.event_list → s.status = walk.running → s.pos = some ev.addr →
      ev ∈ m.timer.event_list → ev.expire.tv_sec ≤ now.tv_sec →
        find_event ev.addr (drain_step now clock s).event_list =
          some { ev with expire := { tv_sec := (clock s.reads).tv_sec + (ev.timeout : Int),
                                     tv_usec := (clock s.reads).tv_usec } } ∧
        ∀ x ∈ m.timer.event_list, x.addr ≠ ev.addr → x ∈ (drain_step now clock s).event_list) ∧
    (∀ e ∈ m.timer.event_list,
      ∃ m', delete_timer_event m queue_ptr.valid (some e.addr) = some m' ∧
        (∀ x ∈ m'.timer.event_list, x ∈ m.timer.event_list) ∧
        (∀ x ∈ m.timer.event_list, x.addr ≠ e.addr → x ∈ m'.timer.event_list) ∧
        ∀ x ∈ m'.freed, x ∈ m.freed ∨ (x.expire = e.expire ∧ x.timeout = e.timeout)) ∧
    (∀ (now : timeval) (clock : Nat → timeval) (s : drain_state),
      s.event_list = m.timer.event_list →
      (s.status ≠ walk.running ∨ s.pos = none ∨
        ∃ ev ∈ m.timer.event_list, s.pos = some ev.addr ∧ now.tv_sec < ev.expire.tv_sec) →
        (drain_step now clock s).event_list = m.timer.event_list) := by
  refine ⟨?_, ?_, ?_, ?_, ?_⟩
  · intro t f data a tv
    refine ⟨?_, ?_⟩
    · simp [add_timer_event, new_event, set_event_expire, atomic_set]
    · intro x hx
      exact (mem_add _ _ _).2 (Or.inr hx)
  · intro e he t tv
    obtain ⟨m', h1, h2⟩ := set_timer_event_timeout_list m e t tv hd he
    have hf := find_event_of_mem hd he
    refine ⟨m', h1, ?_, ?_⟩
    · rw [h2]
      have hdist := add_distinct (list_del e.addr m.timer.event_list) e
        (set_event_expire { e with timeout := t } tv) (distinct_cons_list_del hd hf) rfl
      have := find_event_of_mem hdist ((mem_add _ _ _).2 (Or.inl rfl))
      simpa [set_event_expire] using this
    · intro x hx hne
      rw [h2]
      exact (mem_add _ _ _).2 (Or.inr (mem_list_del_of_ne hx hne))
  · intro now clock s ev hl hs hp hev hdue
    have hds : distinct_nodes s.event_list := by rw [hl]; exact hd
    have hf : find_event ev.addr s.event_list = some ev := by
      rw [hl]; exact find_event_of_mem hd hev
    have hstep := drain_step_fire now clock s ev.addr ev hs hp hf hdue
    have hlist : (drain_step now clock s).event_list =
        __add_timer_event (list_del ev.addr s.event_list)
          (timer_event_unref (set_event_expire (timer_event_ref ev) (clock s.reads))).1 := by
      rw [hstep]
      exact fire_list_eq _ hds hf
    refine ⟨?_, ?_⟩
    · have hdist := add_distinct (list_del ev.addr s.event_list) ev
        (timer_event_unref (set_event_expire (timer_event_ref ev) (clock s.reads))).1
        (distinct_cons_list_del hds hf) rfl
      have := find_event_of_mem hdist ((mem_add _ _ _).2 (Or.inl rfl))
      rw [hlist, ← rearm_eq]
      exact this
    · intro x hx hne
      rw [hlist, hl]
      exact (mem_add _ _ _).2 (Or.inr (mem_list_del_of_ne hx hne))
  · intro e he
    have hf := find_event_of_mem hd he
    refine ⟨unref_detached { m with timer := { m.timer with
        event_list := list_del e.addr m.timer.event_list } } e,
      by simp only [delete_timer_event, hf], ?_, ?_, ?_⟩
    · intro x hx
      have : x ∈ list_del e.addr m.timer.event_list := by
        unfold unref_detached at hx
        split at hx <;> exact hx
      exact mem_list_del this
    · intro x hx hne
      have : x ∈ list_del e.addr m.timer.event_list := mem_list_del_of_ne hx hne
      unfold unref_detached
      split <;> exact this
    · intro x hx
      unfold unref_detached at hx
      split at hx
      · simp only [List.mem_append, List.mem_singleton] at hx
        rcases hx with hx | hx
        · exact Or.inl hx
        · right
          rw [hx]
          exact ⟨rfl, rfl⟩
      · exact Or.inl hx
  · intro now clock s hl hcase
    rcases hcase with hs | hp | ⟨ev, hev, hp, hlt⟩
    · rw [drain_step_stopped now clock s hs, hl]
    · by_cases hs : s.status = walk.running
      · rw [drain_step_head now clock s hs hp, ← hl]
      · rw [drain_step_stopped now clock s hs, hl]
    · by_cases hs : s.status = walk.running
      · have hf : find_event ev.addr s.event_list = some ev := by
          rw [hl]; exact find_event_of_mem hd hev
        rw [drain_step_break now clock s ev.addr ev hs hp hf hlt, ← hl]
      · rw [drain_step_stopped now clock s hs, hl]

/-- C14 at the demonstration's store: rescheduling D with timeout 7 at 5 s 30 us gives
it the expiry 12 s 30 us. -/
theorem expire_is_armed_time_plus_timeout_main :
    distinct_nodes (main_memory 0).timer.event_list ∧
    main_event 4 0 ∈ (main_memory 0).timer.event_list ∧
    ∃ m', set_timer_event_timeout (main_memory 0) queue_ptr.valid (some 4) 7
        { tv_sec := 5, tv_usec := 30 } = some m' ∧
      find_event 4 m'.timer.event_list =
        some { main_event 4 0 with timeout := 7, expire := { tv_sec := 12, tv_usec := 30 } } := by
  refine ⟨by decide, by decide, ?_⟩
  obtain ⟨m', h1, h2, -⟩ :=
    (expire_is_armed_time_plus_timeout (main_memory 0) (by decide)).2.1 (main_event 4 0)
      (by decide) 7 { tv_sec := 5, tv_usec := 30 }
  exact ⟨m', h1, h2⟩

/-! ## The sleep is at least one second -/

/-- What the variables of the walk satisfy after every turn: the events called so far
were due when the walk reached them, and `sleeptv` is the default unless the walk has
stopped at an event that is not due. -/
theorem drain_step_sleep_exact (now : timeval) (clock : Nat → timeval) (s : drain_state)
    (h : (∀ x ∈ s.fired, x.expire.tv_sec ≤ now.tv_sec) ∧
      ((s.sleeptv = { tv_sec := 1, tv_usec := 0 } ∧
          (s.status = walk.running ∨ s.status = walk.undefined ∨
            (s.status = walk.finished ∧ s.pos = none))) ∨
        (s.status = walk.finished ∧ ∃ a X, s.pos = some a ∧
          find_event a s.event_list = some X ∧ now.tv_sec < X.expire.tv_sec ∧
          s.sleeptv = { tv_sec := X.expire.tv_sec - now.tv_sec, tv_usec := 0 }))) :
    (∀ x ∈ (drain_step now clock s).fired, x.expire.tv_sec ≤ now.tv_sec) ∧
      (((drain_step now clock s).sleeptv = { tv_sec := 1, tv_usec := 0 } ∧
          ((drain_step now clock s).status = walk.running ∨
            (drain_step now clock s).status = walk.undefined ∨
            ((drain_step now clock s).status = walk.finished ∧
              (drain_step now clock s).pos = none))) ∨
        ((drain_step now clock s).status = walk.finished ∧ ∃ a X,
          (drain_step now clock s).pos = some a ∧
          find_event a (drain_step now clock s).event_list = some X ∧
          now.tv_sec < X.expire.tv_sec ∧
          (drain_step now clock s).sleeptv =
            { tv_sec := X.expire.tv_sec - now.tv_sec, tv_usec := 0 })) := by
  obtain ⟨hfired, hsleep⟩ := h
  rcases drain_step_cases now clock s with ⟨hs, h1⟩ | ⟨hs, hp, h1⟩ | ⟨hs, b, hp, hf, h1⟩ |
    ⟨hs, b, ev, hp, hf, hlt, h1⟩ | ⟨hs, b, ev, hp, hf, hdue, h1⟩
  · rw [h1]; exact ⟨hfired, hsleep⟩
  · have hdef : s.sleeptv = { tv_sec := 1, tv_usec := 0 } := by
      rcases hsleep with h | h
      · exact h.1
      · rw [h.1] at hs; cases hs
    rw [h1]
    exact ⟨hfired, Or.inl ⟨hdef, Or.inr (Or.inr ⟨rfl, hp⟩)⟩⟩
  · have hdef : s.sleeptv = { tv_sec := 1, tv_usec := 0 } := by
      rcases hsleep with h | h
      · exact h.1
      · rw [h.1] at hs; cases hs
    rw [h1]
    exact ⟨hfired, Or.inl ⟨hdef, Or.inr (Or.inl rfl)⟩⟩
  · have hdef : s.sleeptv = { tv_sec := 1, tv_usec := 0 } := by
      rcases hsleep with h | h
      · exact h.1
      · rw [h.1] at hs; cases hs
    rw [h1]
    refine ⟨hfired, Or.inr ⟨rfl, b, ev, hp, hf, hlt, ?_⟩⟩
    simp [hdef]
  · have hdef : s.sleeptv = { tv_sec := 1, tv_usec := 0 } := by
      rcases hsleep with h | h
      · exact h.1
      · rw [h.1] at hs; cases hs
    rw [h1]
    refine ⟨?_, Or.inl ⟨hdef, Or.inl rfl⟩⟩
    intro x hx
    rcases List.mem_append.1 hx with hx | hx
    · exact hfired x hx
    · simp only [List.mem_singleton] at hx
      rw [hx]
      exact hdue

/-! ## A pass over a sorted store with positive timeouts -/

/-- In a sorted store the due events come first. -/
theorem sorted_split_due (now : timeval) (l : List timer_event) (hs : sorted_by_sec l) :
    l = due_events now l ++ l.filter (fun e => decide (now.tv_sec < e.expire.tv_sec)) := by
  induction l with
  | nil => rfl
  | cons a t ih =>
    obtain ⟨h1, h2⟩ := List.pairwise_cons.1 hs
    unfold due_events at *
    by_cases ha : a.expire.tv_sec ≤ now.tv_sec
    · have hna : ¬ now.tv_sec < a.expire.tv_sec := not_lt.2 ha
      rw [List.filter_cons_of_pos (by simpa using ha),
        List.filter_cons_of_neg (by simpa using hna), List.cons_append, ← ih h2]
    · have hlt : now.tv_sec < a.expire.tv_sec := not_le.1 ha
      have hall : ∀ x ∈ t, now.tv_sec < x.expire.tv_sec :=
        fun x hx => lt_of_lt_of_le hlt (h1 x hx)
      have e1 : t.filter (fun e => decide (e.expire.tv_sec ≤ now.tv_sec)) = [] := by
        rw [List.filter_eq_nil_iff]
        intro x hx
        have := hall x hx
        simp only [decide_eq_true_eq]
        omega
      have e2 : t.filter (fun e => decide (now.tv_sec < e.expire.tv_sec)) = t := by
        rw [List.filter_eq_self]
        intro x hx
        simpa using hall x hx
      rw [List.filter_cons_of_neg (by simpa using ha),
        List.filter_cons_of_pos (by simpa using hlt), e1, e2]
      rfl

/-- The walk over a store `D ++ M` whose front `D` is due with positive timeouts and
whose back `M` is not due, the cursor at the first entry of `D` (or, when `D` is empty,
at an entry of `M` or at the head): every event of `D` is called once, in order, and
relinked into the back; the walk then ends. -/
theorem drain_loop_fires_due (now : timeval) (clock : Nat → timeval)
    (hclk : ∀ k, now.tv_sec ≤ (clock k).tv_sec) :
    ∀ (D M U : List timer_event) (s : drain_state), s.status = walk.running →
      s.event_list = D ++ M → s.pos = first_of (D ++ U) → distinct_nodes (D ++ M) →
      (∀ x ∈ D, x.expire.tv_sec ≤ now.tv_sec ∧ 1 ≤ x.timeout) →
      (∀ x ∈ M, now.tv_sec < x.expire.tv_sec) → (∀ x, U.head? = some x → x ∈ M) →
      (drain_loop now clock (D.length + 1) s).status = walk.finished ∧
      (drain_loop now clock (D.length + 1) s).fired = s.fired ++ D.map timer_event_ref ∧
      ((drain_loop now clock (D.length + 1) s).event_list.map timer_event.addr).Perm
        ((D ++ M).map timer_event.addr) ∧
      (∀ x ∈ (drain_loop now clock (D.length + 1) s).event_list,
        now.tv_sec < x.expire.tv_sec) ∧
      (∀ x ∈ M, x ∈ (drain_loop now clock (D.length + 1) s).event_list) := by
  intro D
  induction D with
  | nil =>
    intro M U s hs hl hp hd hD hM hU
    simp only [List.nil_append] at hl hp hd
    simp only [List.length_nil, Nat.zero_add, drain_loop, List.map_nil, List.append_nil,
      List.nil_append]
    cases U with
    | nil =>
      rw [drain_step_head now clock s hs hp]
      exact ⟨rfl, rfl, by rw [hl], by rw [hl]; exact hM, by rw [hl]; exact fun x hx => hx⟩
    | cons u U' =>
      have hu : u ∈ M := hU u rfl
      have hf : find_event u.addr s.event_list = some u := by
        rw [hl]; exact find_event_of_mem hd hu
      rw [drain_step_break now clock s u.addr u hs hp hf (hM u hu)]
      exact ⟨rfl, rfl, by rw [hl], by rw [hl]; exact hM, by rw [hl]; exact fun x hx => hx⟩
  | cons d D ih =>
    intro M U s hs hl hp hd hD hM hU
    obtain ⟨hdue, hto⟩ := hD d (by simp)
    have hf : find_event d.addr s.event_list = some d := by rw [hl]; simp [find_event]
    have hds : distinct_nodes s.event_list := by rw [hl]; exact hd
    have hstep := drain_step_fire now clock s d.addr d hs (by rw [hp]; rfl) hf hdue
    rw [fire_list_eq _ hds hf] at hstep
    have hdel : list_del d.addr s.event_list = D ++ M := by rw [hl]; simp [list_del]
    have hnext : next_of d.addr s.event_list = first_of (D ++ M) := by
      rw [hl]; simp [next_of, first_of]
    have hsec : now.tv_sec <
        (timer_event_unref (set_event_expire (timer_event_ref d) (clock s.reads))).1.expire.tv_sec := by
      have := hclk s.reads
      simp only [timer_event_unref, set_event_expire, timer_event_ref]
      omega
    have hadd := add_append_of_le D M
      (timer_event_unref (set_event_expire (timer_event_ref d) (clock s.reads))).1
      (fun x hx => le_of_lt (lt_of_le_of_lt (hD x (by simp [hx])).1 hsec))
    have hdist := add_distinct (D ++ M) d
      (timer_event_unref (set_event_expire (timer_event_ref d) (clock s.reads))).1
      (by simpa using hd) rfl
    rw [hdel, hnext, hadd] at hstep
    rw [hadd] at hdist
    have hlist : (drain_step now clock s).event_list = D ++ __add_timer_event M
        (timer_event_unref (set_event_expire (timer_event_ref d) (clock s.reads))).1 := by
      rw [hstep]
    have hfired : (drain_step now clock s).fired = s.fired ++ [timer_event_ref d] := by
      rw [hstep]
    obtain ⟨r1, r2, r3, r4, r5⟩ := ih
      (__add_timer_event M
        (timer_event_unref (set_event_expire (timer_event_ref d) (clock s.reads))).1)
      M (drain_step now clock s) (by rw [hstep]) hlist (by rw [hstep]) hdist
      (fun x hx => hD x (by simp [hx]))
      (by
        intro x hx
        rcases (mem_add _ _ _).1 hx with rfl | hx
        · exact hsec
        · exact hM x hx)
      (by
        intro x hx
        exact (mem_add _ _ _).2 (Or.inr (List.mem_of_mem_head? hx)))
    have hloop : drain_loop now clock ((d :: D).length + 1) s =
        drain_loop now clock (D.length + 1) (drain_step now clock s) := rfl
    rw [hloop]
    refine ⟨r1, ?_, ?_, r4, fun x hx => r5 x ((mem_add _ _ _).2 (Or.inr hx))⟩
    · rw [r2, hfired]; simp
    · refine r3.trans ?_
      rw [← hadd]
      have := (add_perm (D ++ M)
        (timer_event_unref (set_event_expire (timer_event_ref d) (clock s.reads))).1).map
        timer_event.addr
      simpa using this

/-- C13: for every store of distinct nodes that is sorted by `expire.tv_sec` and whose
events all have timeout at least 1, and every clock whose re-arm readings are not
before `now`, one worker pass ends (as many turns as the store has events, plus one,
are enough); the callbacks it has invoked are those of the events with
`expire.tv_sec <= now.tv_sec` at the start of the pass, each once and in store order,
and of no other event; the store afterwards holds the same nodes, each once; none of
its events is due at `now`; the events that were not due are unchanged. -/
theorem pass_fires_exactly_due (m : Memory) (now : timeval) (clock : Nat → timeval)
    (fuel : Nat) (hs : sorted_by_sec m.timer.event_list)
    (hd : distinct_nodes m.timer.event_list)
    (hto : ∀ e ∈ m.timer.event_list, 1 ≤ e.timeout)
    (hclk : ∀ k, now.tv_sec ≤ (clock k).tv_sec)
    (hfuel : m.timer.event_list.length + 1 ≤ fuel) :
    (timer_queue_thread_cbk m now clock fuel).status = walk.finished ∧
    (timer_queue_thread_cbk m now clock fuel).fired =
      (due_events now m.timer.event_list).map timer_event_ref ∧
    ((timer_queue_thread_cbk m now clock fuel).event_list.map timer_event.addr).Perm
      (m.timer.event_list.map timer_event.addr) ∧
    distinct_nodes (timer_queue_thread_cbk m now clock fuel).event_list ∧
    (∀ x ∈ (timer_queue_thread_cbk m now clock fuel).event_list,
      now.tv_sec < x.expire.tv_sec) ∧
    (∀ x ∈ m.timer.event_list, now.tv_sec < x.expire.tv_sec →
      x ∈ (timer_queue_thread_cbk m now clock fuel).event_list) := by
  have hsplit := sorted_split_due now m.timer.event_list hs
  have hlen : (due_events now m.timer.event_list).length ≤ m.timer.event_list.length := by
    unfold due_events
    exact List.length_filter_le _ _
  obtain ⟨n, rfl⟩ : ∃ n, fuel = ((due_events now m.timer.event_list).length + 1) + n :=
    ⟨fuel - ((due_events now m.timer.event_list).length + 1), by omega⟩
  have hD : ∀ x ∈ due_events now m.timer.event_list,
      x.expire.tv_sec ≤ now.tv_sec ∧ 1 ≤ x.timeout := by
    intro x hx
    unfold due_events at hx
    obtain ⟨h1, h2⟩ := List.mem_filter.1 hx
    exact ⟨by simpa using h2, hto x h1⟩
  have hM : ∀ x ∈ m.timer.event_list.filter (fun e => decide (now.tv_sec < e.expire.tv_sec)),
      now.tv_sec < x.expire.tv_sec := by
    intro x hx
    simpa using (List.mem_filter.1 hx).2
  obtain ⟨r1, r2, r3, r4, r5⟩ := drain_loop_fires_due now clock hclk
    (due_events now m.timer.event_list)
    (m.timer.event_list.filter (fun e => decide (now.tv_sec < e.expire.tv_sec)))
    (m.timer.event_list.filter (fun e => decide (now.tv_sec < e.expire.tv_sec)))
    { event_list := m.timer.event_list, freed := m.freed, fired := [],
      sleeptv := { tv_sec := 1, tv_usec := 0 }, pos := first_of m.timer.event_list,
      reads := 0, status := walk.running }
    rfl hsplit (by rw [← hsplit]) (by rw [← hsplit]; exact hd) hD hM
    (fun x hx => List.mem_of_mem_head? hx)
  rw [← hsplit] at r3
  have hrun : timer_queue_thread_cbk m now clock
      ((due_events now m.timer.event_list).length + 1 + n) =
      drain_loop now clock ((due_events now m.timer.event_list).length + 1)
        { event_list := m.timer.event_list, freed := m.freed, fired := [],
          sleeptv := { tv_sec := 1, tv_usec := 0 }, pos := first_of m.timer.event_list,
          reads := 0, status := walk.running } := by
    rw [timer_queue_thread_cbk, drain_loop_add, drain_loop_stopped _ _ _ _ (by rw [r1]; simp)]
  have hdist := (pass_sorted m now clock
    ((due_events now m.timer.event_list).length + 1 + n) hs hd).2
  rw [hrun] at hdist ⊢
  refine ⟨r1, by simpa using r2, r3, hdist, r4, ?_⟩
  intro x hx hlt
  exact r5 x (List.mem_filter.2 ⟨hx, by simpa using hlt⟩)

/-- C13 at the demonstration's store: the pass at second 2 calls A and B, in that
order, and leaves no event due. -/
theorem pass_fires_exactly_due_main :
    sorted_by_sec (main_memory 0).timer.event_list ∧
    distinct_nodes (main_memory 0).timer.event_list ∧
    (∀ e ∈ (main_memory 0).timer.event_list, 1 ≤ e.timeout) ∧
    (∀ k, (2 : Int) ≤ (clock_at 2 k).tv_sec) ∧
    (timer_queue_thread_cbk (main_memory 0) { tv_sec := 2, tv_usec := 0 }
      (clock_at 2) 5).status = walk.finished ∧
    (timer_queue_thread_cbk (main_memory 0) { tv_sec := 2, tv_usec := 0 }
      (clock_at 2) 5).fired.map timer_event.addr = [1, 2] ∧
    (timer_queue_thread_cbk (main_memory 0) { tv_sec := 2, tv_usec := 0 }
      (clock_at 2) 5).event_list.map (fun e => (e.addr, e.expire.tv_sec)) =
      [(3, 3), (1, 3), (4, 4), (2, 4)] := by
  have h := pass_fires_exactly_due (main_memory 0) { tv_sec := 2, tv_usec := 0 } (clock_at 2) 5
    (by decide) (by decide) (by decide) (fun _ => le_refl _) (by decide)
  refine ⟨by decide, by decide, by decide, fun _ => le_refl _, h.1, ?_, by decide⟩
  rw [h.2.1]
  decide

/-! ## How many callbacks a pass invokes -/

theorem next_of_mem {a b : Nat} {l : List timer_event} (hd : distinct_nodes l)
    (h : next_of a l = some b) : ∃ y ∈ l, y.addr = b ∧ b ≠ a := by
  induction l with
  | nil => simp [next_of] at h
  | cons e rest ih =>
    unfold distinct_nodes at hd
    rw [List.map_cons, List.nodup_cons] at hd
    by_cases he : e.addr = a
    · simp only [next_of, he, if_true] at h
      cases rest with
      | nil => simp at h
      | cons y t =>
        simp only [List.head?_cons, Option.map_some', Option.some.injEq] at h
        refine ⟨y, by simp, h, ?_⟩
        intro hba
        apply hd.1
        rw [he, ← hba, ← h]
        simp
    · simp only [next_of, he, if_false] at h
      obtain ⟨y, hy, hyb, hne⟩ := ih hd.2 h
      exact ⟨y, List.mem_cons_of_mem _ hy, hyb, hne⟩

theorem due_events_add (now : timeval) (l : List timer_event) (e : timer_event)
    (he : now.tv_sec < e.expire.tv_sec) :
    (due_events now (__add_timer_event l e)).length = (due_events now l).length := by
  unfold due_events
  have hp := (add_perm l e).filter (fun e => decide (e.expire.tv_sec ≤ now.tv_sec))
  rw [hp.length_eq, List.filter_cons_of_neg (by simpa using he)]

theorem due_events_list_del (now : timeval) {a : Nat} {l : List timer_event}
    {ev : timer_event} (hd : distinct_nodes l) (hf : find_event a l = some ev)
    (hdue : ev.expire.tv_sec ≤ now.tv_sec) :
    (due_events now l).length = (due_events now (list_del a l)).length + 1 := by
  obtain ⟨hmem, haddr⟩ := find_event_some hf
  subst haddr
  unfold due_events
  have hp := (list_del_perm hd hmem).filter (fun e => decide (e.expire.tv_sec ≤ now.tv_sec))
  rw [hp.length_eq, List.filter_cons_of_pos (by simpa using hdue)]
  rfl

/-- A turn of the walk on a store of distinct nodes with positive timeouts, under a
clock that is not before `now`: every call takes one event out of the due ones, no
node is called twice, and the cursor stays on a linked node. -/
theorem drain_step_counts (now : timeval) (clock : Nat → timeval)
    (hclk : ∀ k, now.tv_sec ≤ (clock k).tv_sec) (n0 : Nat) (s : drain_state)
    (h : distinct_nodes s.event_list ∧ (∀ e ∈ s.event_list, 1 ≤ e.timeout) ∧
      s.fired.length + (due_events now s.event_list).length = n0 ∧
      (s.fired.map timer_event.addr).Nodup ∧
      (∀ x ∈ s.fired, ∀ y ∈ s.event_list, y.addr = x.addr → now.tv_sec < y.expire.tv_sec) ∧
      (s.status = walk.running → s.pos = none ∨ ∃ y ∈ s.event_list, s.pos = some y.addr) ∧
      (s.status = walk.running ∨ s.status = walk.finished)) :
    distinct_nodes (drain_step now clock s).event_list ∧
      (∀ e ∈ (drain_step now clock s).event_list, 1 ≤ e.timeout) ∧
      (drain_step now clock s).fired.length +
        (due_events now (drain_step now clock s).event_list).length = n0 ∧
      ((drain_step now clock s).fired.map timer_event.addr).Nodup ∧
      (∀ x ∈ (drain_step now clock s).fired, ∀ y ∈ (drain_step now clock s).event_list,
        y.addr = x.addr → now.tv_sec < y.expire.tv_sec) ∧
      ((drain_step now clock s).status = walk.running →
        (drain_step now clock s).pos = none ∨
          ∃ y ∈ (drain_step now clock s).event_list, (drain_step now clock s).pos = some y.addr) ∧
      ((drain_step now clock s).status = walk.running ∨
        (drain_step now clock s).status = walk.finished) := by
  obtain ⟨hd, hto, hcount, hnd, hfired, hpos, hst⟩ := h
  rcases drain_step_cases now clock s with ⟨hs, h1⟩ | ⟨hs, hp, h1⟩ | ⟨hs, b, hp, hf, h1⟩ |
    ⟨hs, b, ev, hp, hf, hlt, h1⟩ | ⟨hs, b, ev, hp, hf, hdue, h1⟩
  · rw [h1]; exact ⟨hd, hto, hcount, hnd, hfired, hpos, hst⟩
  · rw [h1]
    exact ⟨hd, hto, hcount, hnd, hfired, (fun hc => by cases hc), Or.inr rfl⟩
  · exfalso
    rcases hpos hs with hn | ⟨y, hy, hpy⟩
    · rw [hn] at hp; cases hp
    · rw [hp] at hpy
      simp only [Option.some.injEq] at hpy
      rw [hpy, find_event_of_mem hd hy] at hf
      cases hf
  · rw [h1]
    exact ⟨hd, hto, hcount, hnd, hfired, (fun hc => by cases hc), Or.inr rfl⟩
  · obtain ⟨hmem, haddr⟩ := find_event_some hf
    have hsec : now.tv_sec <
        (timer_event_unref (set_event_expire (timer_event_ref ev) (clock s.reads))).1.expire.tv_sec := by
      have := hclk s.reads
      have := hto ev hmem
      simp only [timer_event_unref, set_event_expire, timer_event_ref]
      omega
    have hlist : (drain_step now clock s).event_list =
        __add_timer_event (list_del b s.event_list)
          (timer_event_unref (set_event_expire (timer_event_ref ev) (clock s.reads))).1 := by
      rw [h1]
      exact fire_list_eq _ hd hf
    have hfi : (drain_step now clock s).fired = s.fired ++ [timer_event_ref ev] := by rw [h1]
    have hps : (drain_step now clock s).pos = next_of b s.event_list := by rw [h1]
    have hnew : ev.addr ∉ s.fired.map timer_event.addr := by
      intro hc
      obtain ⟨x, hx, hxa⟩ := List.mem_map.1 hc
      have := hfired x hx ev hmem hxa.symm
      omega
    rw [hlist, hfi, hps]
    refine ⟨add_distinct _ ev _ (distinct_cons_list_del hd hf) rfl, ?_, ?_, ?_, ?_, ?_,
      by rw [h1]; exact Or.inl rfl⟩
    · intro e he
      rcases (mem_add _ _ _).1 he with rfl | he
      · exact hto ev hmem
      · exact hto e (mem_list_del he)
    · rw [due_events_add now _ _ hsec, List.length_append, List.length_singleton]
      have := due_events_list_del now hd hf hdue
      omega
    · rw [List.map_append, List.map_singleton]
      refine List.Nodup.append hnd (List.nodup_singleton _) ?_
      intro x hx1 hx2
      simp only [List.mem_singleton] at hx2
      rw [hx2] at hx1
      exact hnew hx1
    · intro x hx y hy hya
      rcases (mem_add _ _ _).1 hy with rfl | hy
      · exact hsec
      · rcases List.mem_append.1 hx with hx | hx
        · exact hfired x hx y (mem_list_del hy) hya
        · simp only [List.mem_singleton] at hx
          exfalso
          apply list_del_avoids hd y hy
          rw [hya, hx, ← haddr]
          rfl
    · intro _
      rcases Option.eq_none_or_eq_some (next_of b s.event_list) with hn | ⟨c, hn⟩
      · exact Or.inl hn
      · right
        obtain ⟨y, hy, hyc, hne⟩ := next_of_mem hd hn
        refine ⟨y, (mem_add _ _ _).2 (Or.inr (mem_list_del_of_ne hy (by rw [hyc]; exact hne))), ?_⟩
        rw [hn, hyc]

theorem drain_step_running (now : timeval) (clock : Nat → timeval) (s : drain_state)
    (h : (drain_step now clock s).status = walk.running) :
    (drain_step now clock s).fired.length = s.fired.length + 1 := by
  rcases drain_step_cases now clock s with ⟨hs, h1⟩ | ⟨hs, hp, h1⟩ | ⟨hs, b, hp, hf, h1⟩ |
    ⟨hs, b, ev, hp, hf, hlt, h1⟩ | ⟨hs, b, ev, hp, hf, hdue, h1⟩
  · rw [h1] at h; exact absurd h hs
  · rw [h1] at h; cases h
  · rw [h1] at h; cases h
  · rw [h1] at h; cases h
  · rw [h1]; simp

/-- While the walk is still running after `k` turns, it has called `k` callbacks. -/
theorem drain_loop_running (now : timeval) (clock : Nat → timeval) (k : Nat) :
    ∀ s : drain_state, (drain_loop now clock k s).status = walk.running →
      (drain_loop now clock k s).fired.length = s.fired.length + k := by
  induction k with
  | zero => intro s _; rfl
  | succ n ih =>
    intro s h
    rw [drain_loop] at h ⊢
    have hrun : (drain_step now clock s).status = walk.running := by
      by_contra hc
      rw [drain_loop_stopped now clock n _ hc] at h
      exact hc h
    rw [ih _ h, drain_step_running now clock s hrun]
    omega

/-- C17 fails as stated: two events with timeout 0, created at second 0, and a
non-decreasing clock that reads second 0 three times and then second 1.  The pass at
second 0 ends, but it has invoked five callbacks for a store of two events: each turn
relinks the called event behind the other one, where the walk meets it again. -/
theorem callbacks_exceed_store_size :
    two_zero_timers.timer.event_list.map (fun e => (e.addr, e.timeout, e.expire.tv_sec)) =
      [(1, 0, 0), (2, 0, 0)] ∧
    (List.range 6).map (fun k => (clock_ticking k).tv_sec) = [0, 0, 0, 1, 1, 1] ∧
    (timer_queue_thread_cbk two_zero_timers { tv_sec := 0, tv_usec := 0 }
      clock_ticking 6).status = walk.finished ∧
    (timer_queue_thread_cbk two_zero_timers { tv_sec := 0, tv_usec := 0 }
      clock_ticking 6).fired.map timer_event.addr = [1, 2, 1, 2, 1] ∧
    ¬ (timer_queue_thread_cbk two_zero_timers { tv_sec := 0, tv_usec := 0 }
      clock_ticking 6).fired.length ≤ two_zero_timers.timer.event_list.length := by
  decide

/-- Two events with timeout 0 under a clock that stays in second 0: the walk is
still running after any number of turns, each of which invokes a callback. -/
theorem walk_cycles_while_clock_stands :
    ∀ (fuel : Nat) (fired freed : List timer_event) (reads : Nat),
      (drain_loop { tv_sec := 0, tv_usec := 0 } (clock_at 0) fuel
        { event_list := [new_event 1 0 7 101 { tv_sec := 0, tv_usec := 0 },
            new_event 2 0 7 102 { tv_sec := 0, tv_usec := 0 }],
          freed := freed, fired := fired, sleeptv := { tv_sec := 1, tv_usec := 0 },
          pos := some 1, reads := reads, status := walk.running }).status = walk.running ∧
      (drain_loop { tv_sec := 0, tv_usec := 0 } (clock_at 0) fuel
        { event_list := [new_event 2 0 7 102 { tv_sec := 0, tv_usec := 0 },
            new_event 1 0 7 101 { tv_sec := 0, tv_usec := 0 }],
          freed := freed, fired := fired, sleeptv := { tv_sec := 1, tv_usec := 0 },
          pos := some 2, reads := reads, status := walk.running }).status = walk.running := by
  intro fuel
  induction fuel with
  | zero => intro fired freed reads; exact ⟨rfl, rfl⟩
  | succ n ih =>
    intro fired freed reads
    have s1 : drain_step { tv_sec := 0, tv_usec := 0 } (clock_at 0)
        { event_list := [new_event 1 0 7 101 { tv_sec := 0, tv_usec := 0 },
            new_event 2 0 7 102 { tv_sec := 0, tv_usec := 0 }],
          freed := freed, fired := fired, sleeptv := { tv_sec := 1, tv_usec := 0 },
          pos := some 1, reads := reads, status := walk.running } =
        { event_list := [new_event 2 0 7 102 { tv_sec := 0, tv_usec := 0 },
            new_event 1 0 7 101 { tv_sec := 0, tv_usec := 0 }],
          freed := freed,
          fired := fired ++ [timer_event_ref (new_event 1 0 7 101 { tv_sec := 0, tv_usec := 0 })],
          sleeptv := { tv_sec := 1, tv_usec := 0 },
          pos := some 2, reads := reads + 1, status := walk.running } := by
      rfl
    have s2 : drain_step { tv_sec := 0, tv_usec := 0 } (clock_at 0)
        { event_list := [new_event 2 0 7 102 { tv_sec := 0, tv_usec := 0 },
            new_event 1 0 7 101 { tv_sec := 0, tv_usec := 0 }],
          freed := freed, fired := fired, sleeptv := { tv_sec := 1, tv_usec := 0 },
          pos := some 2, reads := reads, status := walk.running } =
        { event_list := [new_event 1 0 7 101 { tv_sec := 0, tv_usec := 0 },
            new_event 2 0 7 102 { tv_sec := 0, tv_usec := 0 }],
          freed := freed,
          fired := fired ++ [timer_event_ref (new_event 2 0 7 102 { tv_sec := 0, tv_usec := 0 })],
          sleeptv := { tv_sec := 1, tv_usec := 0 },
          pos := some 1, reads := reads + 1, status := walk.running } := by
      rfl
    constructor
    · rw [drain_loop, s1]; exact (ih _ _ _).2
    · rw [drain_loop, s2]; exact (ih _ _ _).1

/-- Two events with timeout 0 created at second 0, a pass at second 0 under a clock
that stays in second 0: the walk has not ended after any number of turns. -/
theorem pass_never_ends_while_clock_stands (fuel : Nat) :
    (timer_queue_thread_cbk two_zero_timers { tv_sec := 0, tv_usec := 0 } (clock_at 0)
      fuel).status = walk.running :=
  (walk_cycles_while_clock_stands fuel [] two_zero_timers.freed 0).1

/-- C17, as the code has it: for every store of `n` distinct nodes whose events all
have timeout at least 1 and every clock whose readings are not before `now`, a single
worker pass ends within `n + 1` turns of the walk; it has invoked at most `n`
callbacks, at most one per node, each of an event of the store that was due, and as
many as the number of due events has gone down. -/
theorem pass_ends_with_positive_timeouts (m : Memory) (now : timeval)
    (clock : Nat → timeval) (fuel : Nat) (hd : distinct_nodes m.timer.event_list)
    (hto : ∀ e ∈ m.timer.event_list, 1 ≤ e.timeout)
    (hclk : ∀ k, now.tv_sec ≤ (clock k).tv_sec)
    (hfuel : m.timer.event_list.length + 1 ≤ fuel) :
    (timer_queue_thread_cbk m now clock fuel).status = walk.finished ∧
    (timer_queue_thread_cbk m now clock fuel).fired.length ≤ m.timer.event_list.length ∧
    ((timer_queue_thread_cbk m now clock fuel).fired.map timer_event.addr).Nodup ∧
    (∀ x ∈ (timer_queue_thread_cbk m now clock fuel).fired,
      ∃ e ∈ m.timer.event_list, e.addr = x.addr ∧ e.expire.tv_sec ≤ now.tv_sec) ∧
    (timer_queue_thread_cbk m now clock fuel).fired.length +
        (due_events now (timer_queue_thread_cbk m now clock fuel).event_list).length =
      (due_events now m.timer.event_list).length := by
  have inv := drain_loop_invariant now clock _
    (drain_step_counts now clock hclk (due_events now m.timer.event_list).length) fuel
    { event_list := m.timer.event_list, freed := m.freed, fired := [],
      sleeptv := { tv_sec := 1, tv_usec := 0 }, pos := first_of m.timer.event_list,
      reads := 0, status := walk.running }
    ⟨hd, hto, by simp, by simp, by simp, by
      intro _
      cases hl : m.timer.event_list with
      | nil => left; simp [first_of]
      | cons y t => right; exact ⟨y, by simp, by simp [first_of]⟩,
      Or.inl rfl⟩
  have due := drain_loop_invariant now clock _
    (drain_step_only_due now clock m.timer.event_list) fuel
    { event_list := m.timer.event_list, freed := m.freed, fired := [],
      sleeptv := { tv_sec := 1, tv_usec := 0 }, pos := first_of m.timer.event_list,
      reads := 0, status := walk.running }
    ⟨fun y hy => ⟨y, hy, rfl, Or.inl rfl⟩, by simp⟩
  obtain ⟨-, -, hcount, hnd, -, -, hst⟩ := inv
  have hlen : (due_events now m.timer.event_list).length ≤ m.timer.event_list.length := by
    unfold due_events
    exact List.length_filter_le _ _
  have hle : (timer_queue_thread_cbk m now clock fuel).fired.length ≤
      m.timer.event_list.length := by
    have : (timer_queue_thread_cbk m now clock fuel).fired.length +
        (due_events now (timer_queue_thread_cbk m now clock fuel).event_list).length =
        (due_events now m.timer.event_list).length := hcount
    omega
  refine ⟨?_, hle, hnd, due.2, hcount⟩
  rcases hst with hrun | hfin
  · exfalso
    have := drain_loop_running now clock fuel _ hrun
    have h2 : (timer_queue_thread_cbk m now clock fuel).fired.length = 0 + fuel := this
    omega
  · exact hfin

/-- C17 at the demonstration's store: the pass at second 2 ends after two callbacks. -/
theorem pass_ends_with_positive_timeouts_main :
    distinct_nodes (main_memory 0).timer.event_list ∧
    (∀ e ∈ (main_memory 0).timer.event_list, 1 ≤ e.timeout) ∧
    (∀ k, (2 : Int) ≤ (clock_at 2 k).tv_sec) ∧
    (timer_queue_thread_cbk (main_memory 0) { tv_sec := 2, tv_usec := 0 }
      (clock_at 2) 5).status = walk.finished ∧
    (timer_queue_thread_cbk (main_memory 0) { tv_sec := 2, tv_usec := 0 }
      (clock_at 2) 5).fired.length = 2 := by
  have h := pass_ends_with_positive_timeouts (main_memory 0) { tv_sec := 2, tv_usec := 0 }
    (clock_at 2) 5 (by decide) (by decide) (fun _ => le_refl _) (by decide)
  exact ⟨by decide, by decide, fun _ => le_refl _, h.1, by decide⟩

/-! ## Where the walk stops and what the sleep is -/

theorem pass_next_turn (m : Memory) (now : timeval) (clock : Nat → timeval) (fuel : Nat) :
    timer_queue_thread_cbk m now clock (fuel + 1) =
      drain_step now clock (timer_queue_thread_cbk m now clock fuel) := by
  rw [timer_queue_thread_cbk, drain_loop_add]
  rfl

theorem pass_more_turns (m : Memory) (now : timeval) (clock : Nat → timeval)
    (fuel more : Nat) (h : (timer_queue_thread_cbk m now clock fuel).status ≠ walk.running) :
    timer_queue_thread_cbk m now clock (fuel + more) = timer_queue_thread_cbk m now clock fuel := by
  rw [timer_queue_thread_cbk, drain_loop_add]
  exact drain_loop_stopped now clock more _ h

/-- While the walk is running no sleep has been set. -/
theorem pass_running_sleeptv (m : Memory) (now : timeval) (clock : Nat → timeval)
    (fuel : Nat) (h : (timer_queue_thread_cbk m now clock fuel).status = walk.running) :
    (timer_queue_thread_cbk m now clock fuel).sleeptv = { tv_sec := 1, tv_usec := 0 } := by
  have inv := drain_loop_invariant now clock _ (drain_step_sleeptv now clock) fuel
    { event_list := m.timer.event_list, freed := m.freed, fired := [],
      sleeptv := { tv_sec := 1, tv_usec := 0 }, pos := first_of m.timer.event_list,
      reads := 0, status := walk.running } (Or.inl rfl)
  rcases inv with h1 | ⟨h1, -⟩
  · exact h1
  · have h2 : (timer_queue_thread_cbk m now clock fuel).status = walk.finished := h1
    rw [h2] at h
    cases h

/-- The walk meets, under its cursor, an event that is not due: the next turn ends the
walk with the sleep set to the distance to that event, whatever else is in the store. -/
theorem pass_stops_at (m : Memory) (now : timeval) (clock : Nat → timeval) (fuel : Nat)
    (a : Nat) (X : timer_event)
    (hs : (timer_queue_thread_cbk m now clock fuel).status = walk.running)
    (hp : (timer_queue_thread_cbk m now clock fuel).pos = some a)
    (hf : find_event a (timer_queue_thread_cbk m now clock fuel).event_list = some X)
    (hlt : now.tv_sec < X.expire.tv_sec) (more : Nat) :
    timer_queue_thread_cbk m now clock (fuel + 1 + more) =
      { timer_queue_thread_cbk m now clock fuel with
        sleeptv := { tv_sec := X.expire.tv_sec - now.tv_sec, tv_usec := 0 }
        status := walk.finished } := by
  have h1 : timer_queue_thread_cbk m now clock (fuel + 1) =
      { timer_queue_thread_cbk m now clock fuel with
        sleeptv := { tv_sec := X.expire.tv_sec - now.tv_sec, tv_usec := 0 }
        status := walk.finished } := by
    rw [pass_next_turn, drain_step_break now clock _ a X hs hp hf hlt,
      pass_running_sleeptv m now clock fuel hs]
  rw [pass_more_turns m now clock (fuel + 1) more (by rw [h1]; simp), h1]

/-- The walk has its cursor on the list head: the next turn ends the walk and the
sleep is the initial one second. -/
theorem pass_reaches_end (m : Memory) (now : timeval) (clock : Nat → timeval) (fuel : Nat)
    (hs : (timer_queue_thread_cbk m now clock fuel).status = walk.running)
    (hp : (timer_queue_thread_cbk m now clock fuel).pos = none) (more : Nat) :
    timer_queue_thread_cbk m now clock (fuel + 1 + more) =
      { timer_queue_thread_cbk m now clock fuel with
        sleeptv := { tv_sec := 1, tv_usec := 0 }
        status := walk.finished } := by
  have h1 : timer_queue_thread_cbk m now clock (fuel + 1) =
      { timer_queue_thread_cbk m now clock fuel with
        sleeptv := { tv_sec := 1, tv_usec := 0 }
        status := walk.finished } := by
    rw [pass_next_turn, drain_step_head now clock _ hs hp,
      pass_running_sleeptv m now clock fuel hs]
  rw [pass_more_turns m now clock (fuel + 1) more (by rw [h1]; simp), h1]

/-- The walk has its cursor on a due event: the next turn calls it, sets no sleep and
leaves the walk running. -/
theorem pass_goes_on (m : Memory) (now : timeval) (clock : Nat → timeval) (fuel : Nat)
    (a : Nat) (X : timer_event)
    (hs : (timer_queue_thread_cbk m now clock fuel).status = walk.running)
    (hp : (timer_queue_thread_cbk m now clock fuel).pos = some a)
    (hf : find_event a (timer_queue_thread_cbk m now clock fuel).event_list = some X)
    (hdue : X.expire.tv_sec ≤ now.tv_sec) :
    (timer_queue_thread_cbk m now clock (fuel + 1)).status = walk.running ∧
    (timer_queue_thread_cbk m now clock (fuel + 1)).sleeptv = { tv_sec := 1, tv_usec := 0 } ∧
    (timer_queue_thread_cbk m now clock (fuel + 1)).fired =
      (timer_queue_thread_cbk m now clock fuel).fired ++ [timer_event_ref X] := by
  rw [pass_next_turn, drain_step_fire now clock _ a X hs hp hf hdue]
  exact ⟨rfl, pass_running_sleeptv m now clock fuel hs, rfl⟩

/-- A store whose first entry is not due: the first turn ends the walk there, nothing
is called, and the sleep is the distance to that entry. -/
theorem pass_head_not_due (m : Memory) (now : timeval) (clock : Nat → timeval)
    (X : timer_event) (rest : List timer_event) (hl : m.timer.event_list = X :: rest)
    (hlt : now.tv_sec < X.expire.tv_sec) (fuel : Nat) :
    timer_queue_thread_cbk m now clock (fuel + 1) =
      { event_list := X :: rest, freed := m.freed, fired := [],
        sleeptv := { tv_sec := X.expire.tv_sec - now.tv_sec, tv_usec := 0 },
        pos := some X.addr, reads := 0, status := walk.finished } := by
  have h0 : timer_queue_thread_cbk m now clock 0 =
      { event_list := X :: rest, freed := m.freed, fired := [],
        sleeptv := { tv_sec := 1, tv_usec := 0 }, pos := some X.addr,
        reads := 0, status := walk.running } := by
    simp [timer_queue_thread_cbk, drain_loop, hl, first_of]
  have := pass_stops_at m now clock 0 X.addr X (by rw [h0]) (by rw [h0])
    (by rw [h0]; simp [find_event]) hlt fuel
  rw [show 0 + 1 + fuel = fuel + 1 by omega] at this
  rw [this, h0]

/-- C8, as the code has it.  For every store, pass time `now`, clock and number of
turns walked so far: (1) `sleeptv` is the default of one second, or the walk has
stopped at an event of the store that is not due and `sleeptv` is the distance to it;
(2) while the walk is running `sleeptv` is still the default; (3) when the cursor
reaches the list head the walk ends and the sleep is the default of one second;
(4) when the cursor stands on an event `X` that is not due the walk ends there with a
sleep of `X.expire.tv_sec - now.tv_sec` whole seconds, at least one; (5) when the cursor
stands on a due event the walk goes on and sets no sleep; (6) a store whose first event
`X` is not due gives the sleep `X.expire.tv_sec - now.tv_sec`; (7) the empty store gives
the default; (8) the sleep has no upper bound: a single event created with timeout
`t >= 1` gives, in a pass at the reading of its creation, a sleep of `t` seconds. -/
theorem sleep_default_or_until_event (m : Memory) (now : timeval) (clock : Nat → timeval)
    (fuel : Nat) :
    ((timer_queue_thread_cbk m now clock fuel).sleeptv = { tv_sec := 1, tv_usec := 0 } ∨
      ((timer_queue_thread_cbk m now clock fuel).status = walk.finished ∧
        ∃ X ∈ (timer_queue_thread_cbk m now clock fuel).event_list,
          now.tv_sec < X.expire.tv_sec ∧
          (timer_queue_thread_cbk m now clock fuel).sleeptv =
            { tv_sec := X.expire.tv_sec - now.tv_sec, tv_usec := 0 })) ∧
    ((timer_queue_thread_cbk m now clock fuel).status = walk.running →
      (timer_queue_thread_cbk m now clock fuel).sleeptv = { tv_sec := 1, tv_usec := 0 }) ∧
    ((timer_queue_thread_cbk m now clock fuel).status = walk.running →
      (timer_queue_thread_cbk m now clock fuel).pos = none → ∀ more : Nat,
        (timer_queue_thread_cbk m now clock (fuel + 1 + more)).status = walk.finished ∧
        (timer_queue_thread_cbk m now clock (fuel + 1 + more)).sleeptv =
          { tv_sec := 1, tv_usec := 0 }) ∧
    (∀ (a : Nat) (X : timer_event),
      (timer_queue_thread_cbk m now clock fuel).status = walk.running →
      (timer_queue_thread_cbk m now clock fuel).pos = some a →
      find_event a (timer_queue_thread_cbk m now clock fuel).event_list = some X →
      now.tv_sec < X.expire.tv_sec → ∀ more : Nat,
        (timer_queue_thread_cbk m now clock (fuel + 1 + more)).status = walk.finished ∧
        (timer_queue_thread_cbk m now clock (fuel + 1 + more)).sleeptv =
          { tv_sec := X.expire.tv_sec - now.tv_sec, tv_usec := 0 } ∧
        1 ≤ X.expire.tv_sec - now.tv_sec) ∧
    (∀ (a : Nat) (X : timer_event),
      (timer_queue_thread_cbk m now clock fuel).status = walk.running →
      (timer_queue_thread_cbk m now clock fuel).pos = some a →
      find_event a (timer_queue_thread_cbk m now clock fuel).event_list = some X →
      X.expire.tv_sec ≤ now.tv_sec →
        (timer_queue_thread_cbk m now clock (fuel + 1)).status = walk.running ∧
        (timer_queue_thread_cbk m now clock (fuel + 1)).sleeptv =
          { tv_sec := 1, tv_usec := 0 }) ∧
    (∀ (X : timer_event) (rest : List timer_event), m.timer.event_list = X :: rest →
      now.tv_sec < X.expire.tv_sec →
        (timer_queue_thread_cbk m now clock (fuel + 1)).status = walk.finished ∧
        (timer_queue_thread_cbk m now clock (fuel + 1)).fired = [] ∧
        (timer_queue_thread_cbk m now clock (fuel + 1)).sleeptv =
          { tv_sec := X.expire.tv_sec - now.tv_sec, tv_usec := 0 }) ∧
    ((timer_queue_thread_cbk { m with timer := { m.timer with event_list := [] } }
        now clock (fuel + 1)).status = walk.finished ∧
      (timer_queue_thread_cbk { m with timer := { m.timer with event_list := [] } }
        now clock (fuel + 1)).sleeptv = { tv_sec := 1, tv_usec := 0 }) ∧
    (∀ (t f data a : Nat) (tv : timeval), 1 ≤ t →
      (timer_queue_thread_cbk
        (add_timer_event { m with timer := { m.timer with event_list := [] } }
          queue_ptr.valid t (some f) data (some a) tv).1 tv clock (fuel + 1)).status =
        walk.finished ∧
      (timer_queue_thread_cbk
        (add_timer_event { m with timer := { m.timer with event_list := [] } }
          queue_ptr.valid t (some f) data (some a) tv).1 tv clock (fuel + 1)).sleeptv =
        { tv_sec := (t : Int), tv_usec := 0 }) := by
  refine ⟨?_, pass_running_sleeptv m now clock fuel, ?_, ?_, ?_, ?_, ?_, ?_⟩
  · exact drain_loop_invariant now clock _ (drain_step_sleeptv now clock) fuel _ (Or.inl rfl)
  · intro hs hp more
    rw [pass_reaches_end m now clock fuel hs hp more]
    exact ⟨rfl, rfl⟩
  · intro a X hs hp hf hlt more
    rw [pass_stops_at m now clock fuel a X hs hp hf hlt more]
    exact ⟨rfl, rfl, by omega⟩
  · intro a X hs hp hf hdue
    have := pass_goes_on m now clock fuel a X hs hp hf hdue
    exact ⟨this.1, this.2.1⟩
  · intro X rest hl hlt
    rw [pass_head_not_due m now clock X rest hl hlt fuel]
    exact ⟨rfl, rfl, rfl⟩
  · have h := pass_reaches_end { m with timer := { m.timer with event_list := [] } }
      now clock 0 rfl rfl fuel
    rw [show 0 + 1 + fuel = fuel + 1 by omega] at h
    rw [h]
    exact ⟨rfl, rfl⟩
  · intro t f data a tv ht
    have hl : (add_timer_event { m with timer := { m.timer with event_list := [] } }
        queue_ptr.valid t (some f) data (some a) tv).1.timer.event_list =
        new_event a t f data tv :: [] := by
      simp [add_timer_event, __add_timer_event, list_empty, list_add_tail]
    have hx : (new_event a t f data tv).expire.tv_sec = tv.tv_sec + (t : Int) := rfl
    rw [pass_head_not_due _ tv clock (new_event a t f data tv) [] hl (by rw [hx]; omega) fuel]
    refine ⟨rfl, ?_⟩
    simp only [hx, timeval.mk.injEq, and_true]
    omega

/-- C8 at the demonstration's store, created at second 5, in a pass at second 2: the
first event expires at second 6 and the sleep is 4 s; and a single event of timeout 9
gives a sleep of 9 s. -/
theorem sleep_default_or_until_event_main :
    (main_memory 5).timer.event_list =
      main_event 1 5 :: [main_event 2 5, main_event 3 5, main_event 4 5] ∧
    (2 : Int) < (main_event 1 5).expire.tv_sec ∧
    (timer_queue_thread_cbk (main_memory 5) { tv_sec := 2, tv_usec := 0 } (clock_at 2) 1).sleeptv =
      { tv_sec := 4, tv_usec := 0 } ∧
    (timer_queue_thread_cbk
      (add_timer_event { init_timer_queue with timer := { init_timer_queue.timer with
          event_list := [] } } queue_ptr.valid 9 (some 7) 0 (some 1)
        { tv_sec := 3, tv_usec := 0 }).1
      { tv_sec := 3, tv_usec := 0 } (clock_at 3) 1).sleeptv = { tv_sec := 9, tv_usec := 0 } := by
  have h := sleep_default_or_until_event (main_memory 5) { tv_sec := 2, tv_usec := 0 }
    (clock_at 2) 0
  have h' := sleep_default_or_until_event init_timer_queue { tv_sec := 3, tv_usec := 0 }
    (clock_at 3) 0
  exact ⟨by decide, by decide,
    (h.2.2.2.2.2.1 (main_event 1 5) [main_event 2 5, main_event 3 5, main_event 4 5]
      (by decide) (by decide)).2.2,
    (h'.2.2.2.2.2.2.2 9 7 0 1 { tv_sec := 3, tv_usec := 0 } (by decide)).2⟩

theorem list_del_append_cons (a : Nat) (pre post : List timer_event) (e : timer_event)
    (hpre : ∀ x ∈ pre, x.addr ≠ a) (he : e.addr = a) :
    list_del a (pre ++ e :: post) = pre ++ post := by
  induction pre with
  | nil => simp [list_del, he]
  | cons y t ih =>
    have hy : y.addr ≠ a := hpre y (by simp)
    simp [list_del, hy, ih (fun x hx => hpre x (by simp [hx]))]

/-- Unlinking the node that was linked last gives the list from before. -/
theorem list_del_add_self (M : List timer_event) (e : timer_event)
    (hM : ∀ x ∈ M, x.addr ≠ e.addr) : list_del e.addr (__add_timer_event M e) = M := by
  obtain ⟨pre, post, h1, h2, -, -⟩ := add_split M e
  rw [h2, list_del_append_cons e.addr pre post e
    (fun x hx => hM x (by rw [h1]; simp [hx])) rfl, ← h1]

/-- The turn that calls the first entry `d` of a store `d :: D ++ M` whose front `D` is
due and whose back `M` is not: `d` is relinked into the back, the cursor moves to what
followed `d`, and no sleep is set. -/
theorem drain_step_front (now : timeval) (clock : Nat → timeval)
    (hclk : ∀ k, now.tv_sec ≤ (clock k).tv_sec) (d : timer_event) (D M : List timer_event)
    (s : drain_state) (hs : s.status = walk.running) (hl : s.event_list = d :: D ++ M)
    (hp : s.pos = some d.addr) (hd : distinct_nodes (d :: D ++ M))
    (hdue : d.expire.tv_sec ≤ now.tv_sec) (hto : 1 ≤ d.timeout)
    (hD : ∀ x ∈ D, x.expire.tv_sec ≤ now.tv_sec) :
    ∃ d', d'.addr = d.addr ∧ now.tv_sec < d'.expire.tv_sec ∧
      (drain_step now clock s).status = walk.running ∧
      (drain_step now clock s).event_list = D ++ __add_timer_event M d' ∧
      (drain_step now clock s).pos = first_of (D ++ M) ∧
      (drain_step now clock s).sleeptv = s.sleeptv ∧
      distinct_nodes (D ++ __add_timer_event M d') := by
  have hf : find_event d.addr s.event_list = some d := by rw [hl]; simp [find_event]
  have hds : distinct_nodes s.event_list := by rw [hl]; exact hd
  have hstep := drain_step_fire now clock s d.addr d hs hp hf hdue
  rw [fire_list_eq _ hds hf] at hstep
  have hdel : list_del d.addr s.event_list = D ++ M := by rw [hl]; simp [list_del]
  have hnext : next_of d.addr s.event_list = first_of (D ++ M) := by
    rw [hl]; simp [next_of, first_of]
  have hsec : now.tv_sec <
      (timer_event_unref (set_event_expire (timer_event_ref d) (clock s.reads))).1.expire.tv_sec := by
    have := hclk s.reads
    simp only [timer_event_unref, set_event_expire, timer_event_ref]
    omega
  have hadd := add_append_of_le D M
    (timer_event_unref (set_event_expire (timer_event_ref d) (clock s.reads))).1
    (fun x hx => le_of_lt (lt_of_le_of_lt (hD x hx) hsec))
  have hdist := add_distinct (D ++ M) d
    (timer_event_unref (set_event_expire (timer_event_ref d) (clock s.reads))).1 hd rfl
  rw [hdel, hnext, hadd] at hstep
  rw [hadd] at hdist
  refine ⟨(timer_event_unref (set_event_expire (timer_event_ref d) (clock s.reads))).1,
    rfl, hsec, ?_, ?_, ?_, ?_, hdist⟩ <;> rw [hstep]

/-- The sleep after the walk over a store `D ++ M` as in `drain_loop_fires_due`: the
walk stops at the first entry of the store it finds when the event called last is
left aside. -/
theorem drain_loop_sleep_due (now : timeval) (clock : Nat → timeval)
    (hclk : ∀ k, now.tv_sec ≤ (clock k).tv_sec) :
    ∀ (D M U : List timer_event) (s : drain_state), s.status = walk.running →
      s.sleeptv = { tv_sec := 1, tv_usec := 0 } →
      s.event_list = D ++ M → s.pos = first_of (D ++ U) → distinct_nodes (D ++ M) →
      (∀ x ∈ D, x.expire.tv_sec ≤ now.tv_sec ∧ 1 ≤ x.timeout) →
      (∀ x ∈ M, now.tv_sec < x.expire.tv_sec) → (∀ x, U.head? = some x → x ∈ M) →
      (D = [] → (drain_loop now clock (D.length + 1) s).event_list = s.event_list) ∧
      ∃ W, (D.getLast? = none → W = U) ∧
        (∀ d, D.getLast? = some d →
          W = list_del d.addr (drain_loop now clock (D.length + 1) s).event_list) ∧
        (drain_loop now clock (D.length + 1) s).sleeptv = sleep_until now W := by
  intro D
  induction D with
  | nil =>
    intro M U s hs hsl hl hp hd hD hM hU
    simp only [List.nil_append] at hl hp hd
    simp only [List.length_nil, Nat.zero_add, drain_loop]
    cases U with
    | nil =>
      rw [drain_step_head now clock s hs hp]
      exact ⟨fun _ => rfl, [], fun _ => rfl, (fun d hd' => by simp at hd'), hsl⟩
    | cons u U' =>
      have hu : u ∈ M := hU u rfl
      have hf : find_event u.addr s.event_list = some u := by
        rw [hl]; exact find_event_of_mem hd hu
      rw [drain_step_break now clock s u.addr u hs hp hf (hM u hu)]
      refine ⟨fun _ => rfl, u :: U', fun _ => rfl, (fun d hd' => by simp at hd'), ?_⟩
      simp [sleep_until, hsl]
  | cons d D ih =>
    intro M U s hs hsl hl hp hd hD hM hU
    obtain ⟨hdue, hto⟩ := hD d (by simp)
    obtain ⟨d', hda, hsec, h1, h2, h3, h4, h5⟩ := drain_step_front now clock hclk d D M s hs
      (by simpa using hl) (by rw [hp]; rfl) (by simpa using hd) hdue hto
      (fun x hx => (hD x (by simp [hx])).1)
    obtain ⟨r1, W, r2, r3, r4⟩ := ih (__add_timer_event M d') M (drain_step now clock s)
      h1 (by rw [h4, hsl]) h2 h3 h5 (fun x hx => hD x (by simp [hx]))
      (by
        intro x hx
        rcases (mem_add _ _ _).1 hx with rfl | hx
        · exact hsec
        · exact hM x hx)
      (by
        intro x hx
        exact (mem_add _ _ _).2 (Or.inr (List.mem_of_mem_head? hx)))
    have hloop : drain_loop now clock ((d :: D).length + 1) s =
        drain_loop now clock (D.length + 1) (drain_step now clock s) := rfl
    rw [hloop]
    refine ⟨(fun hc => by cases hc), W, fun hc => ?_, ?_, r4⟩
    · cases D <;> simp at hc
    · intro d0 hd0
      cases D with
      | nil =>
        simp only [List.getLast?_singleton, Option.some.injEq] at hd0
        subst hd0
        have hW : W = M := r2 rfl
        have hlist := r1 rfl
        rw [hlist, h2, List.nil_append, ← hda, list_del_add_self M d' ?_]
        · exact hW
        · intro x hx hc
          unfold distinct_nodes at hd
          simp only [List.cons_append, List.nil_append, List.map_cons, List.nodup_cons] at hd
          apply hd.1
          rw [← hda, ← hc]
          exact List.mem_map_of_mem timer_event.addr hx
      | cons e D' =>
        rw [List.getLast?_cons_cons] at hd0
        exact r3 d0 hd0

/-- A pass over a sorted store with positive timeouts, under a clock that is not before
`now`, takes one turn per due event and one more, and has then ended. -/
theorem pass_due_turns (m : Memory) (now : timeval) (clock : Nat → timeval) (fuel : Nat)
    (hs : sorted_by_sec m.timer.event_list) (hd : distinct_nodes m.timer.event_list)
    (hto : ∀ e ∈ m.timer.event_list, 1 ≤ e.timeout)
    (hclk : ∀ k, now.tv_sec ≤ (clock k).tv_sec)
    (hfuel : m.timer.event_list.length + 1 ≤ fuel) :
    timer_queue_thread_cbk m now clock fuel =
      timer_queue_thread_cbk m now clock ((due_events now m.timer.event_list).length + 1) ∧
    (timer_queue_thread_cbk m now clock fuel).status = walk.finished := by
  have hsplit := sorted_split_due now m.timer.event_list hs
  have hlen : (due_events now m.timer.event_list).length ≤ m.timer.event_list.length := by
    unfold due_events
    exact List.length_filter_le _ _
  obtain ⟨n, rfl⟩ : ∃ n, fuel = ((due_events now m.timer.event_list).length + 1) + n :=
    ⟨fuel - ((due_events now m.timer.event_list).length + 1), by omega⟩
  have hfin : (timer_queue_thread_cbk m now clock
      ((due_events now m.timer.event_list).length + 1)).status = walk.finished :=
    (drain_loop_fires_due now clock hclk (due_events now m.timer.event_list)
      (m.timer.event_list.filter (fun e => decide (now.tv_sec < e.expire.tv_sec)))
      (m.timer.event_list.filter (fun e => decide (now.tv_sec < e.expire.tv_sec)))
      { event_list := m.timer.event_list, freed := m.freed, fired := [],
        sleeptv := { tv_sec := 1, tv_usec := 0 }, pos := first_of m.timer.event_list,
        reads := 0, status := walk.running }
      rfl hsplit (by rw [← hsplit]) (by rw [← hsplit]; exact hd)
      (fun x hx => by
        unfold due_events at hx
        obtain ⟨h1, h2⟩ := List.mem_filter.1 hx
        exact ⟨by simpa using h2, hto x h1⟩)
      (fun x hx => by simpa using (List.mem_filter.1 hx).2)
      (fun x hx => List.mem_of_mem_head? hx)).1
  have hmore := pass_more_turns m now clock
    ((due_events now m.timer.event_list).length + 1) n (by rw [hfin]; simp)
  exact ⟨hmore, by rw [hmore]; exact hfin⟩

/-- C16: the sleep computed by one worker iteration is at least one whole second, with
zero microseconds, for every store, pass time, clock and number of turns.  Every event
the walk has called was due when the walk reached it.  When the cursor stands on an
event `X` with `expire.tv_sec > now.tv_sec` the walk ends there, calls nothing more,
and the sleep is `X.expire.tv_sec - now.tv_sec`; when the cursor reaches the list head
the walk ends with the default of one second.  So a store whose first event `X` is not
due gives `X.expire.tv_sec - now.tv_sec` and calls nothing; the empty store gives one
second; and for a sorted store of distinct nodes with timeouts at least 1, under a
clock not before `now`, the pass ends and the sleep is the distance to the first event
of the store after the pass, the event called last left aside, or one second when
there is no such event. -/
theorem sleep_at_least_one_second (m : Memory) (now : timeval) (clock : Nat → timeval)
    (fuel : Nat) :
    1 ≤ (timer_queue_thread_cbk m now clock fuel).sleeptv.tv_sec ∧
    (timer_queue_thread_cbk m now clock fuel).sleeptv.tv_usec = 0 ∧
    (∀ x ∈ (timer_queue_thread_cbk m now clock fuel).fired, x.expire.tv_sec ≤ now.tv_sec) ∧
    (((timer_queue_thread_cbk m now clock fuel).sleeptv = { tv_sec := 1, tv_usec := 0 } ∧
        ((timer_queue_thread_cbk m now clock fuel).status = walk.running ∨
          (timer_queue_thread_cbk m now clock fuel).status = walk.undefined ∨
          ((timer_queue_thread_cbk m now clock fuel).status = walk.finished ∧
            (timer_queue_thread_cbk m now clock fuel).pos = none))) ∨
      ((timer_queue_thread_cbk m now clock fuel).status = walk.finished ∧ ∃ a X,
        (timer_queue_thread_cbk m now clock fuel).pos = some a ∧
        find_event a (timer_queue_thread_cbk m now clock fuel).event_list = some X ∧
        now.tv_sec < X.expire.tv_sec ∧
        (timer_queue_thread_cbk m now clock fuel).sleeptv =
          { tv_sec := X.expire.tv_sec - now.tv_sec, tv_usec := 0 })) ∧
    (timer_queue_thread_cbk { m with timer := { m.timer with event_list := [] } }
        now clock (fuel + 1)).status = walk.finished ∧
    (timer_queue_thread_cbk { m with timer := { m.timer with event_list := [] } }
        now clock (fuel + 1)).pos = none ∧
    (timer_queue_thread_cbk { m with timer := { m.timer with event_list := [] } }
        now clock (fuel + 1)).sleeptv = { tv_sec := 1, tv_usec := 0 } ∧
    (∀ (a : Nat) (X : timer_event),
      (timer_queue_thread_cbk m now clock fuel).status = walk.running →
      (timer_queue_thread_cbk m now clock fuel).pos = some a →
      find_event a (timer_queue_thread_cbk m now clock fuel).event_list = some X →
      now.tv_sec < X.expire.tv_sec → ∀ more : Nat,
        (timer_queue_thread_cbk m now clock (fuel + 1 + more)).status = walk.finished ∧
        (timer_queue_thread_cbk m now clock (fuel + 1 + more)).pos = some a ∧
        (timer_queue_thread_cbk m now clock (fuel + 1 + more)).fired =
          (timer_queue_thread_cbk m now clock fuel).fired ∧
        (timer_queue_thread_cbk m now clock (fuel + 1 + more)).event_list =
          (timer_queue_thread_cbk m now clock fuel).event_list ∧
        (timer_queue_thread_cbk m now clock (fuel + 1 + more)).sleeptv =
          { tv_sec := X.expire.tv_sec - now.tv_sec, tv_usec := 0 }) ∧
    ((timer_queue_thread_cbk m now clock fuel).status = walk.running →
      (timer_queue_thread_cbk m now clock fuel).pos = none → ∀ more : Nat,
        (timer_queue_thread_cbk m now clock (fuel + 1 + more)).status = walk.finished ∧
        (timer_queue_thread_cbk m now clock (fuel + 1 + more)).fired =
          (timer_queue_thread_cbk m now clock fuel).fired ∧
        (timer_queue_thread_cbk m now clock (fuel + 1 + more)).sleeptv =
          { tv_sec := 1, tv_usec := 0 }) ∧
    (∀ (X : timer_event) (rest : List timer_event), m.timer.event_list = X :: rest →
      now.tv_sec < X.expire.tv_sec →
        (timer_queue_thread_cbk m now clock (fuel + 1)).status = walk.finished ∧
        (timer_queue_thread_cbk m now clock (fuel + 1)).fired = [] ∧
        (timer_queue_thread_cbk m now clock (fuel + 1)).event_list = X :: rest ∧
        (timer_queue_thread_cbk m now clock (fuel + 1)).sleeptv =
          sleep_until now (X :: rest)) ∧
    (sorted_by_sec m.timer.event_list → distinct_nodes m.timer.event_list →
      (∀ e ∈ m.timer.event_list, 1 ≤ e.timeout) → (∀ k, now.tv_sec ≤ (clock k).tv_sec) →
      m.timer.event_list.length + 1 ≤ fuel →
        (timer_queue_thread_cbk m now clock fuel).status = walk.finished ∧
        (timer_queue_thread_cbk m now clock fuel).sleeptv =
          sleep_until now
            (stop_list now m.timer.event_list
              (timer_queue_thread_cbk m now clock fuel).event_list)) := by
  have inv := drain_loop_invariant now clock _ (drain_step_sleep_exact now clock) fuel
    { event_list := m.timer.event_list, freed := m.freed, fired := [],
      sleeptv := { tv_sec := 1, tv_usec := 0 }, pos := first_of m.timer.event_list,
      reads := 0, status := walk.running }
    ⟨by simp, Or.inl ⟨rfl, Or.inl rfl⟩⟩
  have hempty : timer_queue_thread_cbk { m with timer := { m.timer with event_list := [] } }
      now clock (fuel + 1) =
      { event_list := [], freed := m.freed, fired := [],
        sleeptv := { tv_sec := 1, tv_usec := 0 }, pos := none, reads := 0,
        status := walk.finished } := by
    simp only [timer_queue_thread_cbk, drain_loop, first_of, List.head?_nil, Option.map_none']
    rw [drain_step_head now clock _ rfl rfl, drain_loop_stopped _ _ _ _ (by simp)]
  refine ⟨?_, ?_, inv.1, inv.2, by rw [hempty], by rw [hempty], by rw [hempty],
    ?_, ?_, ?_, ?_⟩
  · rcases inv.2 with h | ⟨-, a, X, -, -, hlt, h⟩
    · have : (timer_queue_thread_cbk m now clock fuel).sleeptv = { tv_sec := 1, tv_usec := 0 } := h.1
      rw [this]
    · have : (timer_queue_thread_cbk m now clock fuel).sleeptv =
          { tv_sec := X.expire.tv_sec - now.tv_sec, tv_usec := 0 } := h
      rw [this]
      simp only
      omega
  · rcases inv.2 with h | ⟨-, a, X, -, -, hlt, h⟩
    · have : (timer_queue_thread_cbk m now clock fuel).sleeptv = { tv_sec := 1, tv_usec := 0 } := h.1
      rw [this]
    · have : (timer_queue_thread_cbk m now clock fuel).sleeptv =
          { tv_sec := X.expire.tv_sec - now.tv_sec, tv_usec := 0 } := h
      rw [this]
  · intro a X hs hp hf hlt more
    rw [pass_stops_at m now clock fuel a X hs hp hf hlt more]
    exact ⟨rfl, hp, rfl, rfl, rfl⟩
  · intro hs hp more
    rw [pass_reaches_end m now clock fuel hs hp more]
    exact ⟨rfl, rfl, rfl⟩
  · intro X rest hl hlt
    rw [pass_head_not_due m now clock X rest hl hlt fuel]
    exact ⟨rfl, rfl, rfl, rfl⟩
  · intro hs hd hto hclk hfuel
    obtain ⟨hrun, hfin⟩ := pass_due_turns m now clock fuel hs hd hto hclk hfuel
    refine ⟨hfin, ?_⟩
    have hsplit := sorted_split_due now m.timer.event_list hs
    obtain ⟨-, W, r2, r3, r4⟩ := drain_loop_sleep_due now clock hclk
      (due_events now m.timer.event_list)
      (m.timer.event_list.filter (fun e => decide (now.tv_sec < e.expire.tv_sec)))
      (m.timer.event_list.filter (fun e => decide (now.tv_sec < e.expire.tv_sec)))
      { event_list := m.timer.event_list, freed := m.freed, fired := [],
        sleeptv := { tv_sec := 1, tv_usec := 0 }, pos := first_of m.timer.event_list,
        reads := 0, status := walk.running }
      rfl rfl hsplit (by rw [← hsplit]) (by rw [← hsplit]; exact hd)
      (fun x hx => by
        unfold due_events at hx
        obtain ⟨h1, h2⟩ := List.mem_filter.1 hx
        exact ⟨by simpa using h2, hto x h1⟩)
      (fun x hx => by simpa using (List.mem_filter.1 hx).2)
      (fun x hx => List.mem_of_mem_head? hx)
    have hr4 : (timer_queue_thread_cbk m now clock
        ((due_events now m.timer.event_list).length + 1)).sleeptv = sleep_until now W := r4
    rw [hrun, hr4]
    unfold stop_list
    rcases Option.eq_none_or_eq_some (due_events now m.timer.event_list).getLast? with
      hlast | ⟨d, hlast⟩
    · rw [hlast]
      have hW := r2 hlast
      have hnil : due_events now m.timer.event_list = [] := List.getLast?_eq_none_iff.1 hlast
      rw [hnil, List.nil_append] at hsplit
      rw [hW, ← hsplit]
    · rw [hlast]
      have hW := r3 d hlast
      rw [hW]
      rfl

/-- C16 with the two timers A (timeout 1) and B (timeout 5) created at second 0: the
pass at second 1 calls A and stops at B, which expires at second 5; the sleep is 4 s.
And with one event of timeout 5 created at second 0, the pass at second 0 stops at it
and the sleep is 5 s. -/
theorem sleep_at_least_one_second_two_timers :
    sorted_by_sec two_timers.timer.event_list ∧
    distinct_nodes two_timers.timer.event_list ∧
    (∀ e ∈ two_timers.timer.event_list, 1 ≤ e.timeout) ∧
    (∀ k, (1 : Int) ≤ (clock_at 1 k).tv_sec) ∧
    two_timers.timer.event_list.length + 1 ≤ 3 ∧
    stop_list { tv_sec := 1, tv_usec := 0 } two_timers.timer.event_list
      (timer_queue_thread_cbk two_timers { tv_sec := 1, tv_usec := 0 }
        (clock_at 1) 3).event_list = [new_event 2 5 7 102 { tv_sec := 0, tv_usec := 0 }] ∧
    (timer_queue_thread_cbk two_timers { tv_sec := 1, tv_usec := 0 } (clock_at 1) 3).sleeptv =
      { tv_sec := 4, tv_usec := 0 } ∧
    one_timer.timer.event_list = new_event 1 5 7 0 { tv_sec := 0, tv_usec := 0 } :: [] ∧
    (0 : Int) < (new_event 1 5 7 0 { tv_sec := 0, tv_usec := 0 }).expire.tv_sec ∧
    (timer_queue_thread_cbk one_timer { tv_sec := 0, tv_usec := 0 } (clock_at 0) 1).sleeptv =
      { tv_sec := 5, tv_usec := 0 } := by
  have h := (sleep_at_least_one_second two_timers { tv_sec := 1, tv_usec := 0 }
    (clock_at 1) 3).2.2.2.2.2.2.2.2.2.2 (by decide) (by decide) (by decide)
    (fun _ => le_refl _) (by decide)
  have h1 := (sleep_at_least_one_second one_timer { tv_sec := 0, tv_usec := 0 }
    (clock_at 0) 0).2.2.2.2.2.2.2.2.2.1 (new_event 1 5 7 0 { tv_sec := 0, tv_usec := 0 }) []
    (by decide) (by decide)
  refine ⟨by decide, by decide, by decide, fun _ => le_refl _, by decide, by decide, ?_,
    by decide, by decide, ?_⟩
  · rw [h.2]
    decide
  · rw [h1.2.2.2]
    decide

end TimerQueue
